import Mathlib

/-!
# encpipe: chunked streaming encryption and decryption

A shallow embedding of `src/encpipe.c` (`options_parse`, `file_open`,
`derive_key`, `stream_encrypt`, `stream_decrypt`, `main`) together with the
properties of the chunked wire format.

Conventions of the embedding.

* The target is LP64: `size_t` is an unsigned and `ssize_t` a signed 64-bit
  integer, `uint32_t` and `uint64_t` are 32 and 64 bits wide.  Values are
  `Nat`/`Int` with explicit reductions where the C code converts or wraps.
* `assert` is active: a failed assertion aborts the run.
* The libhydrogen primitives and the constants of the missing header are
  parameters (`Hydro`, `Config`).
* File descriptors are explicit input and output states that are threaded
  through the functions.
* `stream_decrypt` reads its local `chunk_size` after the loop even when the
  loop body never ran; the indeterminate initial value is a parameter.
* Every call of a secretbox primitive is logged (message id and input buffer)
  in `Run.calls`.
* `main` gets the options as `getopt_long` returns them and the outcomes of
  `hydro_init`, `malloc` and `open` from a `World`; its result is the memory
  that holds secrets when the process ends.
-/

namespace Encpipe

set_option autoImplicit false

/-- One octet. -/
abbrev Byte := Fin 256

/-! ## Machine integers -/

/-- Conversion of an unsigned 64-bit value to `ssize_t` (twos complement, wrapping). -/
def toSsize (x : Nat) : Int :=
  if x % 2 ^ 64 < 2 ^ 63 then ((x % 2 ^ 64 : Nat) : Int) else ((x % 2 ^ 64 : Nat) : Int) - 2 ^ 64

/-- Conversion of an `ssize_t` value to `size_t`. -/
def toSize (x : Int) : Nat := (x % 2 ^ 64).toNat

/-- Modelled from the spec: the macro `STORE32_LE` of the missing header,
the 4-byte little-endian encoding of a `uint32_t` (the argument is reduced
modulo `2 ^ 32`, which is the cast `(uint32_t) chunk_size`). -/
def STORE32_LE (w : Nat) : List Byte :=
  [Fin.ofNat (w % 2 ^ 32), Fin.ofNat (w % 2 ^ 32 / 2 ^ 8),
   Fin.ofNat (w % 2 ^ 32 / 2 ^ 16), Fin.ofNat (w % 2 ^ 32 / 2 ^ 24)]

/-- Modelled from the spec: the macro `LOAD32_LE` of the missing header,
decoding the first four bytes as a little-endian `uint32_t`. -/
def LOAD32_LE (src : List Byte) : Nat :=
  (src.getD 0 0).val + 2 ^ 8 * (src.getD 1 0).val + 2 ^ 16 * (src.getD 2 0).val
    + 2 ^ 24 * (src.getD 3 0).val

/-! ## External collaborators -/

/-- The libhydrogen primitives used by the program.  `none` is a non-zero
return code.  The two length laws are the buffer contract of the C API:
a ciphertext is `hydro_secretbox_HEADERBYTES` longer than its message. -/
structure Hydro where
  secretbox_HEADERBYTES : Nat
  secretbox_encrypt : List Byte → Nat → List Byte → List Byte → Option (List Byte)
  secretbox_decrypt : List Byte → Nat → List Byte → List Byte → Option (List Byte)
  pwhash_MASTERKEYBYTES : Nat
  pwhash_deterministic :
    Nat → List Byte → List Byte → List Byte → Nat → Nat → Nat → Option (List Byte)
  encrypt_length : ∀ m i c k out, secretbox_encrypt m i c k = some out →
    out.length = secretbox_HEADERBYTES + m.length
  decrypt_length : ∀ c i x k out, secretbox_decrypt c i x k = some out →
    out.length + secretbox_HEADERBYTES = c.length

/-- Constants of the missing header `encpipe_p.h`. -/
structure Config where
  HYDRO_CONTEXT : List Byte
  PWHASH_OPSLIMIT : Nat
  PWHASH_MEMLIMIT : Nat
  PWHASH_THREADS : Nat
  KEYBYTES : Nat
  DEFAULT_BUFFER_SIZE : Nat
  MIN_BUFFER_SIZE : Nat
  MAX_BUFFER_SIZE : Nat

/-- The fields of `Context` that the three functions use.  `password` is the
memory of the C string (its terminating NUL follows the list unless a zero
byte occurs earlier). -/
structure Context where
  encrypt : Int
  password : List Byte
  key : List Byte
  sizeof_buf : Nat
  deriving DecidableEq, Repr

/-- An input descriptor read with `safe_read`: the bytes still to come, and
whether the end of the data is an I/O error instead of a clean end of file. -/
structure Source where
  data : List Byte
  broken : Bool
  deriving DecidableEq, Repr

/-- An input descriptor read with `safe_read_partial`: data arrives in
pieces, one `read` never returns bytes of two pieces. -/
structure Feed where
  pieces : List (List Byte)
  broken : Bool
  deriving DecidableEq, Repr

/-- An output descriptor: the bytes written so far and the room that is left
(`none`: writes never fail). -/
structure Sink where
  written : List Byte
  room : Option Nat
  deriving DecidableEq, Repr

/-- Modelled from the spec: `safe_read` of the missing `safe_rw.c`
(`read_exact_or_short`): exactly `count` bytes, fewer only at a clean end of
input, `none` (a negative return) on a read error. -/
def safe_read (fd : Source) (count : Nat) : Option (List Byte) × Source :=
  if count ≤ fd.data.length then
    (some (fd.data.take count), { fd with data := fd.data.drop count })
  else if fd.broken then (none, { fd with data := [] })
  else (some fd.data, { fd with data := [] })

/-- Modelled from the spec: `safe_read_partial` of the missing `safe_rw.c`:
one read of at most `max_count` bytes; a partial read is not an error, zero
bytes is the end of input, `none` is a read error. -/
def safe_read_partial (fd : Feed) (max_count : Nat) : Option (List Byte) × Feed :=
  match fd.pieces with
  | [] => if fd.broken then (none, fd) else (some [], fd)
  | p :: rest =>
    if p.length ≤ max_count then (some p, { fd with pieces := rest })
    else (some (p.take max_count), { fd with pieces := p.drop max_count :: rest })

/-- Modelled from the spec: `safe_write` of the missing `safe_rw.c`
(`write_all`): all bytes are written, or the write fails (`false`) after the
bytes that still fitted. -/
def safe_write (fd : Sink) (buf : List Byte) : Bool × Sink :=
  match fd.room with
  | none => (true, { fd with written := fd.written ++ buf })
  | some r =>
    if buf.length ≤ r then
      (true, { written := fd.written ++ buf, room := some (r - buf.length) })
    else (false, { written := fd.written ++ buf.take r, room := some 0 })

/-! ## Outcomes -/

/-- The fatal exits of the program, one per `exit(1)` site (and one for a
failed `assert`). -/
inductive Fatal where
  | assertion
  | pwhash
  | encryption
  | read
  | write
  | chunkTooLarge (chunk_size max_chunk_size : Int)
  | chunkTooShort (chunk_size : Int)
  | decryptFailed (chunk_id : Nat)
  | prematureEOF
  deriving DecidableEq, Repr

/-- The text each fatal exit prints on the error stream (`perror` appends the
description of the error by the system, which is not modelled, and the text
of a failed `assert` is chosen by the C library). -/
def Fatal.stderr : Fatal → String
  | .assertion => "Assertion failed"
  | .pwhash => "Password hashing failed\n"
  | .encryption => "Encryption error\n"
  | .read => "read(): "
  | .write => "write(): "
  | .chunkTooLarge cs mx =>
    "Chunk size too large ([" ++ toString cs ++ "] > [" ++ toString mx ++ "])\n"
  | .chunkTooShort cs => "Chunk too short ([" ++ toString cs ++ "] bytes expected)\n"
  | .decryptFailed chunk_id =>
    "Unable to decrypt chunk #" ++ toString chunk_id ++ " - " ++
      (if chunk_id = 0 then "Wrong password or key?\n" else "Corrupted or incomplete file?\n")
  | .prematureEOF => "Premature end of file\n"

/-- How a function ended: it returned a code, the process exited, or the
loop of the model ran out of fuel (which `stream_encrypt` and `stream_decrypt`
never do, see `stream_encrypt_finishes` and `stream_decrypt_finishes`). -/
inductive Status where
  | returned (code : Int)
  | exited (f : Fatal)
  | unfinished
  deriving DecidableEq, Repr

/-- The state at the end of a run of a stream function. -/
structure Run (σ : Type) where
  status : Status
  fd_in : σ
  fd_out : Sink
  calls : List (Nat × List Byte)

/-- The message ids of the logged primitive calls, in call order. -/
def Run.ids {σ : Type} (r : Run σ) : List Nat := r.calls.map Prod.fst

/-! ## The program -/

/-- The C function `strlen` on the password memory. -/
def strlen (s : List Byte) : Nat := (s.takeWhile (fun b => b ≠ 0)).length

/-- The C function `hydro_memzero(p, len)` on a buffer. -/
def hydro_memzero (p : List Byte) (len : Nat) : List Byte :=
  List.replicate (min len p.length) 0 ++ p.drop len

/-- The static, all-zero `master_key` of `derive_key`. -/
def master_key (hy : Hydro) : List Byte := List.replicate hy.pwhash_MASTERKEYBYTES 0

/-- The function `derive_key`: hash the password into `ctx.key`, then wipe
the password. -/
def derive_key (hy : Hydro) (cfg : Config) (ctx : Context) : Except Fatal Context :=
  let password_len := strlen ctx.password
  match hy.pwhash_deterministic cfg.KEYBYTES (ctx.password.take password_len)
      cfg.HYDRO_CONTEXT (master_key hy) cfg.PWHASH_OPSLIMIT cfg.PWHASH_MEMLIMIT
      cfg.PWHASH_THREADS with
  | none => .error .pwhash
  | some key =>
    .ok { ctx with key := key, password := hydro_memzero ctx.password password_len }

/-- The value of the local `max_chunk_size` of both stream functions:
`ctx->sizeof_buf - 4 - hydro_secretbox_HEADERBYTES`, computed in `size_t`
and stored in an `ssize_t`. -/
def max_chunk_size (hy : Hydro) (ctx : Context) : Int :=
  toSsize ((ctx.sizeof_buf + 2 ^ 64 - (4 + hy.secretbox_HEADERBYTES) % 2 ^ 64) % 2 ^ 64)

/-- The `while` loop of `stream_encrypt` and the check after it. -/
def encrypt_loop (hy : Hydro) (cfg : Config) (key : List Byte) (max : Int) :
    Nat → Feed → Sink → Nat → List (Nat × List Byte) → Run Feed
  | 0, fd_in, fd_out, _, calls => ⟨.unfinished, fd_in, fd_out, calls⟩
  | fuel + 1, fd_in, fd_out, chunk_id, calls =>
    match safe_read_partial fd_in (toSize max) with
    | (none, fd_in1) => ⟨.exited .read, fd_in1, fd_out, calls⟩
    | (some chunk, fd_in1) =>
      match hy.secretbox_encrypt chunk chunk_id cfg.HYDRO_CONTEXT key with
      | none => ⟨.exited .encryption, fd_in1, fd_out, calls ++ [(chunk_id, chunk)]⟩
      | some sealed =>
        match safe_write fd_out (STORE32_LE chunk.length ++ sealed) with
        | (false, fd_out1) =>
          ⟨.exited .write, fd_in1, fd_out1, calls ++ [(chunk_id, chunk)]⟩
        | (true, fd_out1) =>
          if chunk.length = 0 then
            ⟨.returned 0, fd_in1, fd_out1, calls ++ [(chunk_id, chunk)]⟩
          else
            encrypt_loop hy cfg key max fuel fd_in1 fd_out1 ((chunk_id + 1) % 2 ^ 64)
              (calls ++ [(chunk_id, chunk)])

/-- The function `stream_encrypt`. -/
def stream_encrypt (hy : Hydro) (cfg : Config) (ctx : Context) (fd_in : Feed)
    (fd_out : Sink) : Run Feed :=
  if ¬ (ctx.sizeof_buf % 2 ^ 64 > 4 + hy.secretbox_HEADERBYTES) then
    ⟨.exited .assertion, fd_in, fd_out, []⟩
  else if ¬ (max_chunk_size hy ctx < 0x7fffffff) then
    ⟨.exited .assertion, fd_in, fd_out, []⟩
  else
    encrypt_loop hy cfg ctx.key (max_chunk_size hy ctx) (fd_in.pieces.flatten.length + 1)
      fd_in fd_out 0 []

/-- The `while` loop of `stream_decrypt` and the two checks after it.
`chunk_size` is the current value of the local of that name. -/
def decrypt_loop (hy : Hydro) (cfg : Config) (key : List Byte) (max : Int) :
    Nat → Source → Sink → Nat → Int → List (Nat × List Byte) → Run Source
  | 0, fd_in, fd_out, _, _, calls => ⟨.unfinished, fd_in, fd_out, calls⟩
  | fuel + 1, fd_in, fd_out, chunk_id, chunk_size, calls =>
    match safe_read fd_in 4 with
    | (none, fd_in1) => ⟨.exited .read, fd_in1, fd_out, calls⟩
    | (some header, fd_in1) =>
      if header.length = 4 then
        let chunk_size : Int := (LOAD32_LE header : Nat)
        if chunk_size > max then
          ⟨.exited (.chunkTooLarge chunk_size max), fd_in1, fd_out, calls⟩
        else
          match safe_read fd_in1 (toSize chunk_size + hy.secretbox_HEADERBYTES) with
          | (none, fd_in2) => ⟨.exited (.chunkTooShort chunk_size), fd_in2, fd_out, calls⟩
          | (some body, fd_in2) =>
            if (body.length : Int) ≠ chunk_size + hy.secretbox_HEADERBYTES then
              ⟨.exited (.chunkTooShort chunk_size), fd_in2, fd_out, calls⟩
            else
              match hy.secretbox_decrypt body chunk_id cfg.HYDRO_CONTEXT key with
              | none =>
                ⟨.exited (.decryptFailed chunk_id), fd_in2, fd_out,
                  calls ++ [(chunk_id, body)]⟩
              | some plain =>
                if chunk_size = 0 then
                  ⟨.returned 0, fd_in2, fd_out, calls ++ [(chunk_id, body)]⟩
                else
                  match safe_write fd_out plain with
                  | (false, fd_out1) =>
                    ⟨.exited .write, fd_in2, fd_out1, calls ++ [(chunk_id, body)]⟩
                  | (true, fd_out1) =>
                    decrypt_loop hy cfg key max fuel fd_in2 fd_out1
                      ((chunk_id + 1) % 2 ^ 64) chunk_size (calls ++ [(chunk_id, body)])
      else if chunk_size ≠ 0 then ⟨.exited .prematureEOF, fd_in1, fd_out, calls⟩
      else ⟨.returned 0, fd_in1, fd_out, calls⟩

/-- The function `stream_decrypt`; `junk` is the indeterminate initial value
of the uninitialised local `chunk_size`. -/
def stream_decrypt (hy : Hydro) (cfg : Config) (ctx : Context) (junk : Int)
    (fd_in : Source) (fd_out : Sink) : Run Source :=
  if ¬ (ctx.sizeof_buf % 2 ^ 64 > 4 + hy.secretbox_HEADERBYTES) then
    ⟨.exited .assertion, fd_in, fd_out, []⟩
  else if ¬ (max_chunk_size hy ctx < 0x7fffffff) then
    ⟨.exited .assertion, fd_in, fd_out, []⟩
  else
    decrypt_loop hy cfg ctx.key (max_chunk_size hy ctx) (fd_in.data.length + 1)
      fd_in fd_out 0 junk []

/-! ## The wire format, as the spec words it -/

/-- The message ids of successive chunks, starting at `i` (a `uint64_t`
counter). -/
def stamp : Nat → List (List Byte) → List (Nat × List Byte)
  | _, [] => []
  | i, m :: ms => (i, m) :: stamp ((i + 1) % 2 ^ 64) ms

/-- The authenticated payload `E(m, i)` of message `m` under id `i`. -/
def payload (hy : Hydro) (cfg : Config) (key : List Byte) (im : Nat × List Byte) : List Byte :=
  (hy.secretbox_encrypt im.2 im.1 cfg.HYDRO_CONTEXT key).getD []

/-- One chunk on the wire: `LE32(|m|) || E(m, i)`. -/
def frame (hy : Hydro) (cfg : Config) (key : List Byte) (im : Nat × List Byte) : List Byte :=
  STORE32_LE im.2.length ++ payload hy cfg key im

/-- The chunks of the messages `ms`, numbered from `i`, one after the other. -/
def wire (hy : Hydro) (cfg : Config) (key : List Byte) (i : Nat) (ms : List (List Byte)) :
    List Byte :=
  ((stamp i ms).map (frame hy cfg key)).flatten

/-- The results of the successive non-empty reads of `safe_read_partial`
with bound `count` on a feed of the given pieces. -/
def reads (count : Nat) : Nat → List (List Byte) → List (List Byte)
  | 0, _ => []
  | _ + 1, [] => []
  | fuel + 1, p :: rest =>
    if p.length ≤ count then p :: reads count fuel rest
    else p.take count :: reads count fuel (p.drop count :: rest)

/-- The id of the chunk that follows the chunks `ms` when they are numbered
from `i`. -/
def idAfter : Nat → List (List Byte) → Nat
  | i, [] => i
  | i, _ :: ms => idAfter ((i + 1) % 2 ^ 64) ms

/-- The value of the local `chunk_size` after the chunks `ms` were
processed, `cs` being its value before. -/
def sizeAfter : Int → List (List Byte) → Int
  | cs, [] => cs
  | _, m :: ms => sizeAfter (m.length : Int) ms

/-- The encryption primitive never reports an error under this key. -/
def Encrypts (hy : Hydro) (cfg : Config) (key : List Byte) : Prop :=
  ∀ m i, ∃ c, hy.secretbox_encrypt m i cfg.HYDRO_CONTEXT key = some c

/-- The contract of the primitive: encryption succeeds and decryption of its
result under the same key, context and id gives the message back. -/
def RoundTrips (hy : Hydro) (cfg : Config) (key : List Byte) : Prop :=
  ∀ m i, ∃ c, hy.secretbox_encrypt m i cfg.HYDRO_CONTEXT key = some c ∧
    hy.secretbox_decrypt c i cfg.HYDRO_CONTEXT key = some m

/-- A buffer size that passes both assertions with a positive
`max_chunk_size`: `4 + H < sizeof_buf` and `sizeof_buf - 4 - H < 0x7fffffff`. -/
def Usable (hy : Hydro) (ctx : Context) : Prop :=
  4 + hy.secretbox_HEADERBYTES < ctx.sizeof_buf ∧
    ctx.sizeof_buf - 4 - hy.secretbox_HEADERBYTES < 0x7fffffff ∧ ctx.sizeof_buf < 2 ^ 64

instance (hy : Hydro) (ctx : Context) : Decidable (Usable hy ctx) := by
  unfold Usable; infer_instance

/-- Flip bit `pos % 8` of byte `pos / 8` (no change past the end). -/
def flipBit : List Byte → Nat → List Byte
  | [], _ => []
  | b :: bs, pos =>
    if pos < 8 then Fin.ofNat (b.val ^^^ 2 ^ pos) :: bs else b :: flipBit bs (pos - 8)

/-! ## A small concrete primitive, for evaluating the model -/

/-- A one-byte checksum binding a message to its id. -/
def toyTag (m : List Byte) (i : Nat) : Byte := Fin.ofNat ((m.map Fin.val).sum + i)

/-- A one-byte checksum binding key and context. -/
def toyKeyTag (ctx key : List Byte) : Byte :=
  Fin.ofNat ((key.map Fin.val).sum + (ctx.map Fin.val).sum)

/-- Decryption of the toy primitive: check both header bytes. -/
def toyDecrypt (c : List Byte) (i : Nat) (ctx key : List Byte) : Option (List Byte) :=
  match c with
  | t :: u :: m => if t = toyTag m i ∧ u = toyKeyTag ctx key then some m else none
  | _ => none

/-- A primitive with a two-byte header (message checksum, key checksum) and
the message in clear.  It has the shape of the libhydrogen API and none of
its security. -/
def toyHydro : Hydro where
  secretbox_HEADERBYTES := 2
  secretbox_encrypt := fun m i ctx key => some (toyTag m i :: toyKeyTag ctx key :: m)
  secretbox_decrypt := toyDecrypt
  pwhash_MASTERKEYBYTES := 32
  pwhash_deterministic := fun h_len pw _ _ _ _ _ =>
    some (List.replicate h_len (Fin.ofNat (pw.map Fin.val).sum))
  encrypt_length := by
    intro m i c k out h
    simp only [Option.some.injEq] at h
    subst h
    simp only [List.length_cons]
    omega
  decrypt_length := by
    intro c i x k out h
    unfold toyDecrypt at h
    split at h
    · split at h
      · simp only [Option.some.injEq] at h
        subst h
        simp
      · exact absurd h (by simp)
    · exact absurd h (by simp)

/-- Constants for evaluating the model. -/
def toyConfig : Config where
  HYDRO_CONTEXT := [1, 2, 3, 4, 5, 6, 7, 8]
  PWHASH_OPSLIMIT := 1000000
  PWHASH_MEMLIMIT := 0
  PWHASH_THREADS := 1
  KEYBYTES := 4
  DEFAULT_BUFFER_SIZE := 16
  MIN_BUFFER_SIZE := 8
  MAX_BUFFER_SIZE := 64

/-- A session context with a 9-byte buffer (chunks of at most 3 bytes with the
toy primitive) and key `7 7 7 7`. -/
def toyContext : Context := { encrypt := 1, password := [], key := [7, 7, 7, 7], sizeof_buf := 9 }

def wideContext : Context :=
  { encrypt := 1, password := [], key := [7, 7, 7, 7], sizeof_buf := 0x80000005 }

/-- The wire format as a formula: the chunks `LE32(|m|) || E(m, i)` of the
messages `ms`, `i` counting from 0 in a `uint64_t`. -/
def frames (hy : Hydro) (cfg : Config) (key : List Byte) (ms : List (List Byte)) : List Byte :=
  (ms.enum.map (fun ip =>
    STORE32_LE ip.2.length ++ payload hy cfg key (ip.1 % 2 ^ 64, ip.2))).flatten

/-- The pieces a valid feed delivers: non-empty and within the buffer. -/
def Fits (hy : Hydro) (ctx : Context) (pieces : List (List Byte)) : Prop :=
  ∀ p ∈ pieces, p ≠ [] ∧ p.length ≤ ctx.sizeof_buf - 4 - hy.secretbox_HEADERBYTES

instance (hy : Hydro) (ctx : Context) (pieces : List (List Byte)) :
    Decidable (Fits hy ctx pieces) := by
  unfold Fits; infer_instance

/-- The buffers passed to the primitive in a run, in call order (for
`stream_encrypt`: the plaintext of each chunk). -/
def Run.sent {σ : Type} (r : Run σ) : List (List Byte) := r.calls.map Prod.snd

/-- Both assertions of the stream functions pass. -/
def Accepted (hy : Hydro) (ctx : Context) : Prop :=
  ctx.sizeof_buf % 2 ^ 64 > 4 + hy.secretbox_HEADERBYTES ∧ max_chunk_size hy ctx < 0x7fffffff

instance (hy : Hydro) (ctx : Context) : Decidable (Accepted hy ctx) := by
  unfold Accepted; infer_instance

/-- A context whose buffer size exceeds what an `ssize_t` can hold by 6. -/
def hugeContext : Context :=
  { encrypt := 0, password := [], key := [7, 7, 7, 7], sizeof_buf := 2 ^ 63 + 6 }

/-! ## The driver -/

/-- One option as `getopt_long` returns it: the flag character and `optarg`. -/
structure Opt where
  flag : Char
  optarg : List Byte
  deriving DecidableEq, Repr

/-- The fields of `Context` that `options_parse` sets (`none` is `NULL`). -/
structure Parsed where
  encrypt : Int
  in_ : Option (List Byte)
  out : Option (List Byte)
  password : Option (List Byte)
  deriving DecidableEq, Repr

/-- The `switch` of `options_parse` for one option; `none` is the call of
`usage`, which exits. -/
def options_step (p : Parsed) (o : Opt) : Option Parsed :=
  if o.flag = 'd' then some { p with encrypt := 0 }
  else if o.flag = 'e' then some { p with encrypt := 1 }
  else if o.flag = 'i' then some { p with in_ := some o.optarg }
  else if o.flag = 'o' then some { p with out := some o.optarg }
  else if o.flag = 'p' then some { p with password := some o.optarg }
  else none

/-- The `while` loop of `options_parse` over the options of the command
line. -/
def options_loop : Parsed → List Opt → Option Parsed
  | p, [] => some p
  | p, o :: os =>
    match options_step p o with
    | none => none
    | some q => options_loop q os

/-- The function `options_parse`; `none` is the exit through `usage`. -/
def options_parse (opts : List Opt) : Option Parsed :=
  match options_loop { encrypt := -1, in_ := none, out := none, password := none } opts with
  | none => none
  | some p => if p.password = none ∨ p.encrypt = -1 then none else some p

/-- The function `file_open`, reduced to whether it returns (`true`) or exits:
no name and the name `-` stand for the standard streams, any other file is
opened, which succeeds or not. -/
def file_open (file : Option (List Byte)) (can_open : Bool) : Bool :=
  if file = none ∨ file = some [45] then true else can_open

/-- What a run of `main` gets from outside. -/
structure World where
  hydro_init_ok : Bool
  malloc_ok : Bool
  open_in_ok : Bool
  open_out_ok : Bool
  secretbox_CONTEXTBYTES : Nat
  stack : List Byte
  junk : Int
  input : Feed
  output : Sink

/-- How the process ended. -/
inductive Halt where
  | returned
  | usage
  | init
  | malloc
  | open
  | fatal (f : Fatal)
  | unfinished
  deriving DecidableEq, Repr

/-- The memory that matters when the process ends: the `key` field of the
session context, the buffer its `password` field pointed to (`none` if it was
never set), and the output. -/
structure Final where
  halt : Halt
  key : List Byte
  password : Option (List Byte)
  fd_out : Sink

/-- The argument of the last `-p` option, the buffer `ctx.password` points to
once the options are parsed. -/
def argv_password : List Opt → Option (List Byte)
  | [] => none
  | o :: os =>
    match argv_password os with
    | some pw => some pw
    | none => if o.flag = 'p' then some o.optarg else none

/-- The function `main`.  `w.stack` is the indeterminate content of `ctx.key`
before the `memset`. -/
def main (hy : Hydro) (cfg : Config) (w : World) (opts : List Opt) : Final :=
  if ¬ w.hydro_init_ok then ⟨.init, w.stack, argv_password opts, w.output⟩
  else
    match options_parse opts with
    | none => ⟨.usage, List.replicate cfg.KEYBYTES 0, argv_password opts, w.output⟩
    | some p =>
      match p.password with
      | none => ⟨.usage, List.replicate cfg.KEYBYTES 0, none, w.output⟩
      | some pw =>
        match derive_key hy cfg
            { encrypt := p.encrypt, password := pw, key := List.replicate cfg.KEYBYTES 0,
              sizeof_buf := 0 } with
        | .error f => ⟨.fatal f, List.replicate cfg.KEYBYTES 0, some pw, w.output⟩
        | .ok ctx1 =>
          let sizeof_buf :=
            if cfg.DEFAULT_BUFFER_SIZE < cfg.MIN_BUFFER_SIZE then cfg.MIN_BUFFER_SIZE
            else if cfg.DEFAULT_BUFFER_SIZE > cfg.MAX_BUFFER_SIZE then cfg.MAX_BUFFER_SIZE
            else cfg.DEFAULT_BUFFER_SIZE
          let ctx2 : Context := { ctx1 with sizeof_buf := sizeof_buf }
          if ¬ w.malloc_ok then ⟨.malloc, ctx2.key, some ctx2.password, w.output⟩
          else if ¬ (cfg.HYDRO_CONTEXT.length = w.secretbox_CONTEXTBYTES) then
            ⟨.fatal .assertion, ctx2.key, some ctx2.password, w.output⟩
          else if ¬ file_open p.in_ w.open_in_ok then
            ⟨.open, ctx2.key, some ctx2.password, w.output⟩
          else if ¬ file_open p.out w.open_out_ok then
            ⟨.open, ctx2.key, some ctx2.password, w.output⟩
          else
            let status_out : Status × Sink :=
              if ctx2.encrypt ≠ 0 then
                ((stream_encrypt hy cfg ctx2 w.input w.output).status,
                  (stream_encrypt hy cfg ctx2 w.input w.output).fd_out)
              else
                ((stream_decrypt hy cfg ctx2 w.junk ⟨w.input.pieces.flatten, w.input.broken⟩
                    w.output).status,
                  (stream_decrypt hy cfg ctx2 w.junk ⟨w.input.pieces.flatten, w.input.broken⟩
                    w.output).fd_out)
            match status_out.1 with
            | .returned _ =>
              ⟨.returned, hydro_memzero ctx2.key ctx2.key.length, some ctx2.password,
                status_out.2⟩
            | .exited f => ⟨.fatal f, ctx2.key, some ctx2.password, status_out.2⟩
            | .unfinished => ⟨.unfinished, ctx2.key, some ctx2.password, status_out.2⟩

/-- The environment of a run in which everything outside the program works. -/
def toyWorld (input : Feed) : World :=
  { hydro_init_ok := true, malloc_ok := true, open_in_ok := true, open_out_ok := true,
    secretbox_CONTEXTBYTES := 8, stack := [], junk := 0, input := input,
    output := ⟨[], none⟩ }

/-- The toy primitive with a password hash that fails. -/
def failingHydro : Hydro := { toyHydro with pwhash_deterministic := fun _ _ _ _ _ _ _ => none }

/-- The process ended after `derive_key` had returned. -/
def Halt.afterDerive : Halt → Prop
  | .returned => True
  | .malloc => True
  | .open => True
  | .fatal f => f ≠ .pwhash
  | .unfinished => True
  | .usage => False
  | .init => False

instance (h : Halt) : Decidable h.afterDerive := by
  cases h <;> unfold Halt.afterDerive <;> infer_instance

/-! ## Machine integers and the length prefix -/

theorem LOAD32_LE_STORE32_LE (n : Nat) (h : n < 2 ^ 32) : LOAD32_LE (STORE32_LE n) = n := by
  simp only [LOAD32_LE, STORE32_LE, List.getD_cons_zero, List.getD_cons_succ, Fin.ofNat,
    Nat.mod_eq_of_lt h]
  omega

theorem length_STORE32_LE (n : Nat) : (STORE32_LE n).length = 4 := rfl

theorem LOAD32_LE_lt (l : List Byte) : LOAD32_LE l < 2 ^ 32 := by
  simp only [LOAD32_LE]
  have h0 := (l.getD 0 0).isLt
  have h1 := (l.getD 1 0).isLt
  have h2 := (l.getD 2 0).isLt
  have h3 := (l.getD 3 0).isLt
  omega

theorem toSize_natCast (n : Nat) (h : n < 2 ^ 64) : toSize (n : Int) = n := by
  unfold toSize
  omega

theorem max_chunk_size_eq (hy : Hydro) (ctx : Context) (h : Usable hy ctx) :
    max_chunk_size hy ctx = ((ctx.sizeof_buf - 4 - hy.secretbox_HEADERBYTES : Nat) : Int) := by
  obtain ⟨h1, h2, h3⟩ := h
  unfold max_chunk_size toSsize
  have e : (ctx.sizeof_buf + 2 ^ 64 - (4 + hy.secretbox_HEADERBYTES) % 2 ^ 64) % 2 ^ 64
      = ctx.sizeof_buf - 4 - hy.secretbox_HEADERBYTES := by omega
  rw [e]
  have e2 : (ctx.sizeof_buf - 4 - hy.secretbox_HEADERBYTES) % 2 ^ 64
      = ctx.sizeof_buf - 4 - hy.secretbox_HEADERBYTES := by omega
  rw [e2, if_pos (by omega)]

/-! ## The encryption loop -/

theorem payload_eq (hy : Hydro) (cfg : Config) (key m : List Byte) (i : Nat) (c : List Byte)
    (h : hy.secretbox_encrypt m i cfg.HYDRO_CONTEXT key = some c) :
    payload hy cfg key (i, m) = c := by
  simp [payload, h]

theorem wire_nil (hy : Hydro) (cfg : Config) (key : List Byte) (i : Nat) :
    wire hy cfg key i [] = [] := rfl

theorem wire_cons (hy : Hydro) (cfg : Config) (key : List Byte) (i : Nat) (m : List Byte)
    (ms : List (List Byte)) :
    wire hy cfg key i (m :: ms) =
      frame hy cfg key (i, m) ++ wire hy cfg key ((i + 1) % 2 ^ 64) ms := by
  simp [wire, stamp]

theorem stamp_append (a b : List (List Byte)) :
    ∀ i, stamp i (a ++ b) = stamp i a ++ stamp (idAfter i a) b := by
  induction a with
  | nil => intro i; rfl
  | cons m ms ih => intro i; simp [stamp, idAfter, ih]

theorem wire_append (hy : Hydro) (cfg : Config) (key : List Byte) (a b : List (List Byte))
    (i : Nat) :
    wire hy cfg key i (a ++ b) = wire hy cfg key i a ++ wire hy cfg key (idAfter i a) b := by
  simp [wire, stamp_append]

theorem encrypt_loop_spec (hy : Hydro) (cfg : Config) (key : List Byte) (max : Int)
    (hcount : 1 ≤ toSize max) (hE : Encrypts hy cfg key) :
    ∀ (fuel : Nat) (pieces : List (List Byte)) (out : Sink) (i : Nat)
      (calls : List (Nat × List Byte)),
      out.room = none → (∀ p ∈ pieces, p ≠ []) → pieces.flatten.length < fuel →
      encrypt_loop hy cfg key max fuel ⟨pieces, false⟩ out i calls =
        ⟨.returned 0, ⟨[], false⟩,
          ⟨out.written ++ wire hy cfg key i (reads (toSize max) fuel pieces ++ [[]]), none⟩,
          calls ++ stamp i (reads (toSize max) fuel pieces ++ [[]])⟩ := by
  intro fuel
  induction fuel with
  | zero => intro pieces out i calls _ _ h; exact absurd h (Nat.not_lt_zero _)
  | succ fuel ih =>
    intro pieces out i calls hroom hne hfuel
    cases pieces with
    | nil =>
      obtain ⟨c, hc⟩ := hE [] i
      simp [encrypt_loop, safe_read_partial, hc, safe_write, hroom, reads, wire, stamp, frame,
        payload]
    | cons p rest =>
      have hp : p ≠ [] := hne p (List.mem_cons_self _ _)
      have hplen : 0 < p.length := List.length_pos.mpr hp
      by_cases hle : p.length ≤ toSize max
      · obtain ⟨c, hc⟩ := hE p i
        have hrest : ∀ q ∈ rest, q ≠ [] := fun q hq => hne q (List.mem_cons_of_mem _ hq)
        have hf : rest.flatten.length < fuel := by
          simp only [List.flatten_cons, List.length_append] at hfuel
          omega
        have := ih rest ⟨out.written ++ (STORE32_LE p.length ++ c), none⟩ ((i + 1) % 2 ^ 64)
          (calls ++ [(i, p)]) rfl hrest hf
        simp only [encrypt_loop, safe_read_partial, hle, if_true, hc, safe_write, hroom]
        rw [if_neg (by omega)]
        rw [this]
        simp [reads, hle, wire_cons, stamp, frame, payload, hc]
      · obtain ⟨c, hc⟩ := hE (p.take (toSize max)) i
        have hrest : ∀ q ∈ (p.drop (toSize max) :: rest), q ≠ [] := by
          intro q hq
          rcases List.mem_cons.mp hq with h | h
          · subst h
            intro h0
            have := congrArg List.length h0
            simp at this
            omega
          · exact hne q (List.mem_cons_of_mem _ h)
        have hf : (p.drop (toSize max) :: rest).flatten.length < fuel := by
          simp only [List.flatten_cons, List.length_append, List.length_drop] at hfuel ⊢
          omega
        have := ih (p.drop (toSize max) :: rest)
          ⟨out.written ++ (STORE32_LE (p.take (toSize max)).length ++ c), none⟩
          ((i + 1) % 2 ^ 64) (calls ++ [(i, p.take (toSize max))]) rfl hrest hf
        simp only [encrypt_loop, safe_read_partial, hle, if_false, hc, safe_write, hroom]
        rw [if_neg (by rw [List.length_take]; omega)]
        rw [this]
        simp [reads, hle, wire_cons, stamp, frame, payload, hc]

/-! ## The decryption loop -/

theorem take_STORE32_LE (n : Nat) (x : List Byte) : (STORE32_LE n ++ x).take 4 = STORE32_LE n :=
  rfl

theorem drop_STORE32_LE (n : Nat) (x : List Byte) : (STORE32_LE n ++ x).drop 4 = x := rfl

theorem safe_read_header (n : Nat) (x : List Byte) (b : Bool) :
    safe_read ⟨STORE32_LE n ++ x, b⟩ 4 = (some (STORE32_LE n), ⟨x, b⟩) := by
  simp [safe_read, length_STORE32_LE, take_STORE32_LE, drop_STORE32_LE]

theorem safe_read_body (body rest : List Byte) (b : Bool) (k : Nat) (h : body.length = k) :
    safe_read ⟨body ++ rest, b⟩ k = (some body, ⟨rest, b⟩) := by
  subst h
  simp [safe_read]

/-- One iteration of the decryption loop on a well-formed chunk. -/
theorem decrypt_loop_frame (hy : Hydro) (cfg : Config) (key : List Byte) (max : Int)
    (fuel n : Nat) (body rest : List Byte) (b : Bool) (out : Sink) (i : Nat) (cs : Int)
    (calls : List (Nat × List Byte))
    (hn : n < 2 ^ 32) (hmax : (n : Int) ≤ max)
    (hlen : body.length = n + hy.secretbox_HEADERBYTES) :
    decrypt_loop hy cfg key max (fuel + 1) ⟨STORE32_LE n ++ (body ++ rest), b⟩ out i cs calls =
      match hy.secretbox_decrypt body i cfg.HYDRO_CONTEXT key with
      | none => ⟨.exited (.decryptFailed i), ⟨rest, b⟩, out, calls ++ [(i, body)]⟩
      | some plain =>
        if n = 0 then ⟨.returned 0, ⟨rest, b⟩, out, calls ++ [(i, body)]⟩
        else
          match safe_write out plain with
          | (false, out1) => ⟨.exited .write, ⟨rest, b⟩, out1, calls ++ [(i, body)]⟩
          | (true, out1) =>
            decrypt_loop hy cfg key max fuel ⟨rest, b⟩ out1 ((i + 1) % 2 ^ 64) (n : Int)
              (calls ++ [(i, body)]) := by
  have h64 : n < 2 ^ 64 := by omega
  rw [decrypt_loop]
  simp only [safe_read_header, length_STORE32_LE, if_true, LOAD32_LE_STORE32_LE n hn,
    toSize_natCast n h64]
  rw [if_neg (by omega)]
  simp only [safe_read_body body rest b _ hlen]
  rw [if_neg (by simp [hlen])]
  cases hy.secretbox_decrypt body i cfg.HYDRO_CONTEXT key with
  | none => rfl
  | some plain =>
    simp only [Nat.cast_eq_zero]

theorem decrypt_loop_chunks (hy : Hydro) (cfg : Config) (key : List Byte) (max : Int)
    (hRT : RoundTrips hy cfg key) (rest : List Byte) (b : Bool) (fuel : Nat) :
    ∀ (ms : List (List Byte)) (out : Sink) (i : Nat) (cs : Int)
      (calls : List (Nat × List Byte)),
      out.room = none → (∀ m ∈ ms, m ≠ [] ∧ (m.length : Int) ≤ max ∧ m.length < 2 ^ 32) →
      decrypt_loop hy cfg key max (ms.length + fuel) ⟨wire hy cfg key i ms ++ rest, b⟩ out i cs
          calls =
        decrypt_loop hy cfg key max fuel ⟨rest, b⟩ ⟨out.written ++ ms.flatten, none⟩
          (idAfter i ms) (sizeAfter cs ms)
          (calls ++ (stamp i ms).map (fun im => (im.1, payload hy cfg key im))) := by
  intro ms
  induction ms with
  | nil =>
    intro out i cs calls hroom _
    cases out with
    | mk w r =>
      simp only at hroom
      subst hroom
      simp [wire, stamp, idAfter, sizeAfter]
  | cons m ms ih =>
    intro out i cs calls hroom hms
    obtain ⟨hne, hmax, h32⟩ := hms m (List.mem_cons_self _ _)
    obtain ⟨c, hc, hd⟩ := hRT m i
    have hlen : c.length = m.length + hy.secretbox_HEADERBYTES := by
      rw [hy.encrypt_length m i _ _ c hc, Nat.add_comm]
    have hpay : payload hy cfg key (i, m) = c := by simp [payload, hc]
    have hm0 : m.length ≠ 0 := fun h => hne (List.length_eq_zero.mp h)
    have e : (m :: ms).length + fuel = (ms.length + fuel) + 1 := by
      simp only [List.length_cons]; omega
    rw [e]
    have hw : wire hy cfg key i (m :: ms) ++ rest =
        STORE32_LE m.length ++ (c ++ (wire hy cfg key ((i + 1) % 2 ^ 64) ms ++ rest)) := by
      simp [wire, stamp, frame, hpay]
    rw [hw, decrypt_loop_frame hy cfg key max _ m.length c _ b out i cs calls h32 hmax hlen]
    simp only [hd, if_neg hm0, safe_write, hroom]
    rw [ih ⟨out.written ++ m, none⟩ ((i + 1) % 2 ^ 64) (m.length : Int) (calls ++ [(i, c)]) rfl
      (fun q hq => hms q (List.mem_cons_of_mem _ hq))]
    simp [idAfter, sizeAfter, stamp, hpay]

/-! ## Buffer sizes -/

theorem toSize_max_chunk_size (hy : Hydro) (ctx : Context) (h : Usable hy ctx) :
    toSize (max_chunk_size hy ctx) = ctx.sizeof_buf - 4 - hy.secretbox_HEADERBYTES := by
  rw [max_chunk_size_eq hy ctx h]
  exact toSize_natCast _ (by have := h.2.2; omega)

theorem asserts_pass (hy : Hydro) (ctx : Context) (h : Usable hy ctx) :
    ctx.sizeof_buf % 2 ^ 64 > 4 + hy.secretbox_HEADERBYTES ∧
      max_chunk_size hy ctx < 0x7fffffff := by
  refine ⟨?_, ?_⟩
  · rw [Nat.mod_eq_of_lt h.2.2]; exact h.1
  · rw [max_chunk_size_eq hy ctx h]
    have := h.2.1
    omega

theorem stream_encrypt_usable (hy : Hydro) (cfg : Config) (ctx : Context) (h : Usable hy ctx)
    (fd_in : Feed) (fd_out : Sink) :
    stream_encrypt hy cfg ctx fd_in fd_out =
      encrypt_loop hy cfg ctx.key (max_chunk_size hy ctx) (fd_in.pieces.flatten.length + 1)
        fd_in fd_out 0 [] := by
  obtain ⟨h1, h2⟩ := asserts_pass hy ctx h
  unfold stream_encrypt
  rw [if_neg (not_not.mpr h1), if_neg (not_not.mpr h2)]

theorem stream_decrypt_usable (hy : Hydro) (cfg : Config) (ctx : Context) (h : Usable hy ctx)
    (junk : Int) (fd_in : Source) (fd_out : Sink) :
    stream_decrypt hy cfg ctx junk fd_in fd_out =
      decrypt_loop hy cfg ctx.key (max_chunk_size hy ctx) (fd_in.data.length + 1)
        fd_in fd_out 0 junk [] := by
  obtain ⟨h1, h2⟩ := asserts_pass hy ctx h
  unfold stream_decrypt
  rw [if_neg (not_not.mpr h1), if_neg (not_not.mpr h2)]

/-! ## The reads of the encryptor -/

theorem reads_nil (count fuel : Nat) : reads count fuel [] = [] := by
  cases fuel <;> rfl

theorem length_le_length_flatten (pieces : List (List Byte)) (h : ∀ p ∈ pieces, p ≠ []) :
    pieces.length ≤ pieces.flatten.length := by
  induction pieces with
  | nil => simp
  | cons p rest ih =>
    have hp : 0 < p.length := List.length_pos.mpr (h p (List.mem_cons_self _ _))
    have := ih (fun q hq => h q (List.mem_cons_of_mem _ hq))
    simp only [List.length_cons, List.flatten_cons, List.length_append]
    omega

theorem reads_of_small (count : Nat) :
    ∀ (fuel : Nat) (pieces : List (List Byte)), (∀ p ∈ pieces, p.length ≤ count) →
      pieces.length ≤ fuel → reads count fuel pieces = pieces := by
  intro fuel
  induction fuel with
  | zero =>
    intro pieces _ hl
    have : pieces = [] := List.length_eq_zero.mp (Nat.le_zero.mp hl)
    subst this
    rfl
  | succ fuel ih =>
    intro pieces hs hl
    cases pieces with
    | nil => rfl
    | cons p rest =>
      have hp := hs p (List.mem_cons_self _ _)
      simp only [reads, hp, if_true]
      rw [ih rest (fun q hq => hs q (List.mem_cons_of_mem _ hq))
        (by simp only [List.length_cons] at hl; omega)]

theorem drop_ne_nil (p : List Byte) (n : Nat) (h : ¬ p.length ≤ n) : p.drop n ≠ [] := by
  intro h0
  have := congrArg List.length h0
  simp only [List.length_drop, List.length_nil] at this
  omega

theorem reads_flatten (count : Nat) (hc : 1 ≤ count) :
    ∀ (fuel : Nat) (pieces : List (List Byte)), (∀ p ∈ pieces, p ≠ []) →
      pieces.flatten.length ≤ fuel → (reads count fuel pieces).flatten = pieces.flatten := by
  intro fuel
  induction fuel with
  | zero =>
    intro pieces hne hl
    have h1 := length_le_length_flatten pieces hne
    have : pieces = [] := List.length_eq_zero.mp (by omega)
    subst this
    rfl
  | succ fuel ih =>
    intro pieces hne hl
    cases pieces with
    | nil => rfl
    | cons p rest =>
      have hp : 0 < p.length := List.length_pos.mpr (hne p (List.mem_cons_self _ _))
      simp only [List.flatten_cons, List.length_append] at hl
      by_cases hle : p.length ≤ count
      · simp only [reads, hle, if_true, List.flatten_cons]
        rw [ih rest (fun q hq => hne q (List.mem_cons_of_mem _ hq)) (by omega)]
      · simp only [reads, hle, if_false, List.flatten_cons]
        rw [ih (p.drop count :: rest)]
        · simp only [List.flatten_cons, ← List.append_assoc, List.take_append_drop]
        · intro q hq
          rcases List.mem_cons.mp hq with h | h
          · subst h; exact drop_ne_nil p count hle
          · exact hne q (List.mem_cons_of_mem _ h)
        · simp only [List.flatten_cons, List.length_append, List.length_drop]
          omega

theorem reads_mem (count : Nat) (hc : 1 ≤ count) :
    ∀ (fuel : Nat) (pieces : List (List Byte)), (∀ p ∈ pieces, p ≠ []) →
      ∀ r ∈ reads count fuel pieces, r ≠ [] ∧ r.length ≤ count := by
  intro fuel
  induction fuel with
  | zero => intro pieces _ r hr; simp [reads] at hr
  | succ fuel ih =>
    intro pieces hne r hr
    cases pieces with
    | nil => simp [reads] at hr
    | cons p rest =>
      have hp := hne p (List.mem_cons_self _ _)
      by_cases hle : p.length ≤ count
      · simp only [reads, hle, if_true, List.mem_cons] at hr
        rcases hr with h | h
        · subst h; exact ⟨hp, hle⟩
        · exact ih rest (fun q hq => hne q (List.mem_cons_of_mem _ hq)) r h
      · simp only [reads, hle, if_false, List.mem_cons] at hr
        rcases hr with h | h
        · subst h
          refine ⟨?_, ?_⟩
          · intro h0
            have := congrArg List.length h0
            simp only [List.length_take, List.length_nil] at this
            omega
          · simp only [List.length_take]; omega
        · refine ih (p.drop count :: rest) ?_ r h
          intro q hq
          rcases List.mem_cons.mp hq with h | h
          · subst h; exact drop_ne_nil p count hle
          · exact hne q (List.mem_cons_of_mem _ h)

/-- Full reads of one piece: `ceil (|P| / count)` chunks, all but the last of
`count` bytes. -/
theorem reads_single (count : Nat) (hc : 1 ≤ count) :
    ∀ (fuel : Nat) (P : List Byte), P ≠ [] → P.length ≤ fuel →
      (reads count fuel [P]).length = (P.length + count - 1) / count ∧
      ∀ j, j + 1 < (reads count fuel [P]).length →
        ((reads count fuel [P]).getD j []).length = count := by
  intro fuel
  induction fuel with
  | zero =>
    intro P hP hl
    exact absurd (List.length_eq_zero.mp (Nat.le_zero.mp hl)) hP
  | succ fuel ih =>
    intro P hP hl
    have hp : 0 < P.length := List.length_pos.mpr hP
    by_cases hle : P.length ≤ count
    · simp only [reads, hle, if_true, reads_nil, List.length_singleton]
      refine ⟨?_, ?_⟩
      · symm
        apply Nat.div_eq_of_lt_le <;> omega
      · intro j hj; omega
    · obtain ⟨ih1, ih2⟩ := ih (P.drop count) (drop_ne_nil P count hle)
        (by simp only [List.length_drop]; omega)
      simp only [reads, hle, if_false, List.length_cons]
      refine ⟨?_, ?_⟩
      · rw [ih1]
        simp only [List.length_drop]
        have e : P.length + count - 1 = (P.length - count + count - 1) + count := by omega
        rw [e, Nat.add_div_right _ (by omega : 0 < count)]
      · intro j hj
        cases j with
        | zero => simp only [List.getD_cons_zero, List.length_take]; omega
        | succ j =>
          simp only [List.getD_cons_succ]
          exact ih2 j (by omega)

/-! ## Message ids -/

theorem map_snd_stamp (ms : List (List Byte)) : ∀ i, (stamp i ms).map Prod.snd = ms := by
  induction ms with
  | nil => intro i; rfl
  | cons m ms ih => intro i; simp [stamp, ih]

theorem stamp_eq_enumFrom (ms : List (List Byte)) :
    ∀ i, stamp (i % 2 ^ 64) ms = (ms.enumFrom i).map (fun ip => (ip.1 % 2 ^ 64, ip.2)) := by
  induction ms with
  | nil => intro i; rfl
  | cons m ms ih =>
    intro i
    have e : (i % 2 ^ 64 + 1) % 2 ^ 64 = (i + 1) % 2 ^ 64 := by omega
    simp only [stamp, List.enumFrom_cons, List.map_cons, e, ih]

theorem stamp_zero (ms : List (List Byte)) :
    stamp 0 ms = ms.enum.map (fun ip => (ip.1 % 2 ^ 64, ip.2)) :=
  stamp_eq_enumFrom ms 0

theorem idAfter_eq (ms : List (List Byte)) :
    ∀ i, idAfter (i % 2 ^ 64) ms = (i + ms.length) % 2 ^ 64 := by
  induction ms with
  | nil => intro i; rfl
  | cons m ms ih =>
    intro i
    have e : (i % 2 ^ 64 + 1) % 2 ^ 64 = (i + 1) % 2 ^ 64 := by omega
    simp only [idAfter, e, ih, List.length_cons]
    congr 1
    omega

theorem idAfter_zero (ms : List (List Byte)) : idAfter 0 ms = ms.length % 2 ^ 64 := by
  have := idAfter_eq ms 0
  simpa using this

/-! ## Sizes on the wire -/

theorem length_payload (hy : Hydro) (cfg : Config) (key : List Byte) (hE : Encrypts hy cfg key)
    (m : List Byte) (i : Nat) :
    hy.secretbox_encrypt m i cfg.HYDRO_CONTEXT key = some (payload hy cfg key (i, m)) ∧
      (payload hy cfg key (i, m)).length = hy.secretbox_HEADERBYTES + m.length := by
  obtain ⟨c, hc⟩ := hE m i
  have : payload hy cfg key (i, m) = c := by simp [payload, hc]
  rw [this]
  exact ⟨hc, hy.encrypt_length m i _ _ c hc⟩

theorem length_wire (hy : Hydro) (cfg : Config) (key : List Byte) (hE : Encrypts hy cfg key)
    (ms : List (List Byte)) :
    ∀ i, (wire hy cfg key i ms).length =
      (ms.map (fun m => 4 + hy.secretbox_HEADERBYTES + m.length)).sum := by
  induction ms with
  | nil => intro i; rfl
  | cons m ms ih =>
    intro i
    rw [wire_cons]
    simp only [List.length_append, frame, length_STORE32_LE, (length_payload hy cfg key hE m i).2,
      ih, List.map_cons, List.sum_cons]
    omega

theorem length_le_length_wire (hy : Hydro) (cfg : Config) (key : List Byte)
    (ms : List (List Byte)) : ∀ i, ms.length ≤ (wire hy cfg key i ms).length := by
  induction ms with
  | nil => intro i; simp
  | cons m ms ih =>
    intro i
    rw [wire_cons]
    have := ih ((i + 1) % 2 ^ 64)
    simp only [List.length_append, frame, length_STORE32_LE, List.length_cons]
    omega

theorem RoundTrips.encrypts {hy : Hydro} {cfg : Config} {key : List Byte}
    (h : RoundTrips hy cfg key) : Encrypts hy cfg key := by
  intro m i
  obtain ⟨c, hc, _⟩ := h m i
  exact ⟨c, hc⟩

/-- What `stream_encrypt` does on a feed without read errors, with a usable
buffer, a primitive that encrypts, and an output that accepts all writes. -/
theorem stream_encrypt_spec (hy : Hydro) (cfg : Config) (ctx : Context) (hU : Usable hy ctx)
    (hE : Encrypts hy cfg ctx.key) (pieces : List (List Byte)) (out : Sink)
    (hroom : out.room = none) (hne : ∀ p ∈ pieces, p ≠ []) :
    stream_encrypt hy cfg ctx ⟨pieces, false⟩ out =
      ⟨.returned 0, ⟨[], false⟩,
        ⟨out.written ++ wire hy cfg ctx.key 0
          (reads (ctx.sizeof_buf - 4 - hy.secretbox_HEADERBYTES) (pieces.flatten.length + 1)
            pieces ++ [[]]), none⟩,
        stamp 0 (reads (ctx.sizeof_buf - 4 - hy.secretbox_HEADERBYTES)
          (pieces.flatten.length + 1) pieces ++ [[]])⟩ := by
  have hM := toSize_max_chunk_size hy ctx hU
  have h1 : 1 ≤ toSize (max_chunk_size hy ctx) := by
    rw [hM]; have := hU.1; omega
  rw [stream_encrypt_usable hy cfg ctx hU]
  have := encrypt_loop_spec hy cfg ctx.key (max_chunk_size hy ctx) h1 hE
    (pieces.flatten.length + 1) pieces out 0 [] hroom hne (Nat.lt_succ_self _)
  rw [hM] at this
  simpa using this

theorem toy_roundTrips (key : List Byte) : RoundTrips toyHydro toyConfig key := by
  intro m i
  exact ⟨_, rfl, by simp [toyHydro, toyDecrypt]⟩

theorem toy_usable : Usable toyHydro toyContext := by decide

theorem wire_zero_eq_frames (hy : Hydro) (cfg : Config) (key : List Byte)
    (ms : List (List Byte)) : wire hy cfg key 0 ms = frames hy cfg key ms := by
  simp only [wire, frames, stamp_zero, List.map_map]
  rfl

theorem sizeAfter_ne_zero (ms : List (List Byte)) :
    ∀ cs : Int, ms ≠ [] → (∀ m ∈ ms, m ≠ []) → sizeAfter cs ms ≠ 0 := by
  induction ms with
  | nil => intro cs h; exact absurd rfl h
  | cons m ms ih =>
    intro cs _ hne
    have hm : m ≠ [] := hne m (List.mem_cons_self _ _)
    cases ms with
    | nil =>
      simp only [sizeAfter]
      intro h
      exact hm (List.length_eq_zero.mp (by exact_mod_cast h))
    | cons m2 ms2 =>
      simp only [sizeAfter]
      exact ih (m2.length : Int) (by simp) (fun q hq => hne q (List.mem_cons_of_mem _ hq))

/-- At the end of input (no byte left, no read error) the loop stops and the
check after it looks at the current `chunk_size`. -/
theorem decrypt_loop_eof (hy : Hydro) (cfg : Config) (key : List Byte) (max : Int) (fuel : Nat)
    (out : Sink) (i : Nat) (cs : Int) (calls : List (Nat × List Byte)) :
    decrypt_loop hy cfg key max (fuel + 1) ⟨[], false⟩ out i cs calls =
      if cs ≠ 0 then ⟨.exited .prematureEOF, ⟨[], false⟩, out, calls⟩
      else ⟨.returned 0, ⟨[], false⟩, out, calls⟩ := by
  rw [decrypt_loop]
  simp [safe_read]


theorem Fits.bounds {hy : Hydro} {ctx : Context} {pieces : List (List Byte)}
    (hU : Usable hy ctx) (h : Fits hy ctx pieces) :
    ∀ m ∈ pieces, m ≠ [] ∧ (m.length : Int) ≤ max_chunk_size hy ctx ∧ m.length < 2 ^ 32 := by
  intro m hm
  obtain ⟨h1, h2⟩ := h m hm
  rw [max_chunk_size_eq hy ctx hU]
  have := hU.2.1
  exact ⟨h1, by exact_mod_cast h2, by omega⟩

/-- The stream `stream_encrypt` writes for pieces that fit. -/
theorem stream_encrypt_fits (hy : Hydro) (cfg : Config) (ctx : Context) (hU : Usable hy ctx)
    (hE : Encrypts hy cfg ctx.key) (pieces : List (List Byte)) (hp : Fits hy ctx pieces)
    (out : Sink) (hroom : out.room = none) :
    stream_encrypt hy cfg ctx ⟨pieces, false⟩ out =
      ⟨.returned 0, ⟨[], false⟩,
        ⟨out.written ++ wire hy cfg ctx.key 0 (pieces ++ [[]]), none⟩,
        stamp 0 (pieces ++ [[]])⟩ := by
  have hne : ∀ p ∈ pieces, p ≠ [] := fun p h => (hp p h).1
  rw [stream_encrypt_spec hy cfg ctx hU hE pieces out hroom hne,
    reads_of_small _ _ pieces (fun p h => (hp p h).2)
      (by have := length_le_length_flatten pieces hne; omega)]

/-- Decryption of a stream of chunks that fit, followed by `rest`: the
chunks are written and the loop goes on at `rest`. -/
theorem stream_decrypt_chunks (hy : Hydro) (cfg : Config) (ctx : Context) (hU : Usable hy ctx)
    (hRT : RoundTrips hy cfg ctx.key) (pieces : List (List Byte)) (hp : Fits hy ctx pieces)
    (rest : List Byte) (b : Bool) (junk : Int) (out : Sink) (hroom : out.room = none) :
    stream_decrypt hy cfg ctx junk ⟨wire hy cfg ctx.key 0 pieces ++ rest, b⟩ out =
      decrypt_loop hy cfg ctx.key (max_chunk_size hy ctx)
        ((wire hy cfg ctx.key 0 pieces ++ rest).length - pieces.length + 1) ⟨rest, b⟩
        ⟨out.written ++ pieces.flatten, none⟩ (idAfter 0 pieces) (sizeAfter junk pieces)
        ((stamp 0 pieces).map (fun im => (im.1, payload hy cfg ctx.key im))) := by
  rw [stream_decrypt_usable hy cfg ctx hU]
  have hl := length_le_length_wire hy cfg ctx.key pieces 0
  have e : (wire hy cfg ctx.key 0 pieces ++ rest).length + 1 =
      pieces.length + ((wire hy cfg ctx.key 0 pieces ++ rest).length - pieces.length + 1) := by
    simp only [List.length_append]; omega
  simp only [e]
  rw [decrypt_loop_chunks hy cfg ctx.key _ hRT rest b _ pieces out 0 junk [] hroom
    (hp.bounds hU)]
  simp

/-- C1 (as amended): round trip.  For every usable buffer size
(`4 + H < sizeof_buf` and `sizeof_buf - 4 - H < 0x7fffffff`), every key under
which the primitive round-trips, and every split of the plaintext into
non-empty reads of at most `max_chunk_size` bytes followed by a 0-byte read,
`stream_encrypt` succeeds, and `stream_decrypt` with the same key on the bytes
it wrote succeeds and writes exactly the plaintext, whatever the initial value
of its uninitialised local. -/
theorem C1_round_trip (hy : Hydro) (cfg : Config) (ctx : Context) (hU : Usable hy ctx)
    (hRT : RoundTrips hy cfg ctx.key) (pieces : List (List Byte)) (hp : Fits hy ctx pieces)
    (junk : Int) (b : Bool) (out : Sink) (hroom : out.room = none) :
    (stream_encrypt hy cfg ctx ⟨pieces, false⟩ ⟨[], none⟩).status = .returned 0 ∧
    (stream_decrypt hy cfg ctx junk
      ⟨(stream_encrypt hy cfg ctx ⟨pieces, false⟩ ⟨[], none⟩).fd_out.written, b⟩ out).status
        = .returned 0 ∧
    (stream_decrypt hy cfg ctx junk
      ⟨(stream_encrypt hy cfg ctx ⟨pieces, false⟩ ⟨[], none⟩).fd_out.written, b⟩
        out).fd_out.written = out.written ++ pieces.flatten := by
  rw [stream_encrypt_fits hy cfg ctx hU hRT.encrypts pieces hp ⟨[], none⟩ rfl]
  simp only [List.nil_append, true_and]
  rw [wire_append, stream_decrypt_chunks hy cfg ctx hU hRT pieces hp _ b junk out hroom]
  obtain ⟨c, hc, hd⟩ := hRT [] (idAfter 0 pieces)
  have hlen : c.length = 0 + hy.secretbox_HEADERBYTES := by
    rw [hy.encrypt_length [] _ _ _ c hc]; simp
  have hpay : payload hy cfg ctx.key (idAfter 0 pieces, []) = c := by simp [payload, hc]
  have hw : wire hy cfg ctx.key (idAfter 0 pieces) [[]] = STORE32_LE 0 ++ (c ++ []) := by
    simp [wire, stamp, frame, hpay]
  have hmax : ((0 : Nat) : Int) ≤ max_chunk_size hy ctx := by
    rw [max_chunk_size_eq hy ctx hU]; exact_mod_cast Nat.zero_le _
  rw [hw, decrypt_loop_frame hy cfg ctx.key _ _ 0 c [] b _ _ _ _ (by norm_num) hmax hlen]
  simp [hd]

/-- Round trip at a concrete input: the toy primitive, a 9-byte buffer, the
plaintext `1 2 3 4` read as `1 2 3` and `4`. -/
theorem C1_round_trip_witness :
    (stream_decrypt toyHydro toyConfig toyContext 5
      ⟨(stream_encrypt toyHydro toyConfig toyContext ⟨[[1, 2, 3], [4]], false⟩
        ⟨[], none⟩).fd_out.written, true⟩ ⟨[9], none⟩).fd_out.written = [9, 1, 2, 3, 4] :=
  (C1_round_trip toyHydro toyConfig toyContext toy_usable (toy_roundTrips _) [[1, 2, 3], [4]]
    (by decide) 5 true ⟨[9], none⟩ rfl).2.2

/-- C1 as stated fails: a buffer size above `4 + H` may fail the second
assertion, and then both functions abort. -/
theorem C1_large_buffer_aborts :
    4 + toyHydro.secretbox_HEADERBYTES < wideContext.sizeof_buf ∧
    RoundTrips toyHydro toyConfig wideContext.key ∧
    (stream_encrypt toyHydro toyConfig wideContext ⟨[], false⟩ ⟨[], none⟩).status
      = .exited .assertion ∧
    (stream_decrypt toyHydro toyConfig wideContext 0
      ⟨(stream_encrypt toyHydro toyConfig wideContext ⟨[], false⟩ ⟨[], none⟩).fd_out.written,
        false⟩ ⟨[], none⟩).status = .exited .assertion :=
  ⟨by decide, toy_roundTrips _, by decide, by decide⟩

/-- On an input without a single byte the loop body never runs, and the check
after the loop reads the uninitialised `chunk_size`: with an initial value
other than 0 the run ends in "Premature end of file", with 0 it succeeds. -/
theorem stream_decrypt_empty (hy : Hydro) (cfg : Config) (ctx : Context) (hU : Usable hy ctx)
    (junk : Int) (out : Sink) :
    stream_decrypt hy cfg ctx junk ⟨[], false⟩ out =
      if junk ≠ 0 then ⟨.exited .prematureEOF, ⟨[], false⟩, out, []⟩
      else ⟨.returned 0, ⟨[], false⟩, out, []⟩ := by
  rw [stream_decrypt_usable hy cfg ctx hU]
  exact decrypt_loop_eof hy cfg ctx.key _ _ out 0 junk []

/-- A valid stream without its terminal chunk, when at least one chunk is
left: "Premature end of file", whatever the initial value of `chunk_size`. -/
theorem truncated_stream_premature (hy : Hydro) (cfg : Config) (ctx : Context)
    (hU : Usable hy ctx) (hRT : RoundTrips hy cfg ctx.key) (pieces : List (List Byte))
    (hp : Fits hy ctx pieces) (hne : pieces ≠ []) (junk : Int) (out : Sink)
    (hroom : out.room = none) :
    (stream_decrypt hy cfg ctx junk ⟨wire hy cfg ctx.key 0 pieces, false⟩ out).status
        = .exited .prematureEOF ∧
      (stream_decrypt hy cfg ctx junk ⟨wire hy cfg ctx.key 0 pieces, false⟩ out).fd_out.written
        = out.written ++ pieces.flatten := by
  have h := stream_decrypt_chunks hy cfg ctx hU hRT pieces hp [] false junk out hroom
  rw [List.append_nil] at h
  rw [h, decrypt_loop_eof, if_pos (sizeAfter_ne_zero pieces junk hne (fun m hm => (hp m hm).1))]
  exact ⟨rfl, rfl⟩

/-- C2: the code at the failing input.  When the first read of the length
prefix returns 0 bytes and the uninitialised local `chunk_size` happens to
hold 0, `stream_decrypt` returns 0 (success) and reports no error; it fails
with "Premature end of file" only when that local holds another value. -/
theorem C2_empty_input_accepted (hy : Hydro) (cfg : Config) (ctx : Context)
    (hU : Usable hy ctx) (out : Sink) :
    (stream_decrypt hy cfg ctx 0 ⟨[], false⟩ out).status = .returned 0 ∧
    (stream_decrypt hy cfg ctx 0 ⟨[], false⟩ out).fd_out = out ∧
    ∀ junk : Int, junk ≠ 0 →
      (stream_decrypt hy cfg ctx junk ⟨[], false⟩ out).status = .exited .prematureEOF := by
  refine ⟨?_, ?_, ?_⟩
  · rw [stream_decrypt_empty hy cfg ctx hU]; rfl
  · rw [stream_decrypt_empty hy cfg ctx hU]; rfl
  · intro junk hj
    rw [stream_decrypt_empty hy cfg ctx hU, if_pos hj]

/-- The empty input with the toy primitive and a 9-byte buffer. -/
theorem C2_empty_input_accepted_witness :
    (stream_decrypt toyHydro toyConfig toyContext 0 ⟨[], false⟩ ⟨[], none⟩).status
      = .returned 0 :=
  (C2_empty_input_accepted toyHydro toyConfig toyContext toy_usable ⟨[], none⟩).1

/-- C3: the code at the failing input.  The stream of the empty plaintext is
the terminal chunk alone (`4 + H` bytes); without it nothing is left, and
`stream_decrypt` returns 0 (success) on the remainder when its uninitialised
local `chunk_size` happens to hold 0. -/
theorem C3_truncated_empty_stream_accepted (hy : Hydro) (cfg : Config) (ctx : Context)
    (hU : Usable hy ctx) (hE : Encrypts hy cfg ctx.key) (out : Sink) :
    ((stream_encrypt hy cfg ctx ⟨[], false⟩ ⟨[], none⟩).fd_out.written).length
      = 4 + hy.secretbox_HEADERBYTES ∧
    (stream_decrypt hy cfg ctx 0
      ⟨((stream_encrypt hy cfg ctx ⟨[], false⟩ ⟨[], none⟩).fd_out.written).take
        (((stream_encrypt hy cfg ctx ⟨[], false⟩ ⟨[], none⟩).fd_out.written).length
          - (4 + hy.secretbox_HEADERBYTES)), false⟩ out).status = .returned 0 := by
  have hS : ((stream_encrypt hy cfg ctx ⟨[], false⟩ ⟨[], none⟩).fd_out.written).length
      = 4 + hy.secretbox_HEADERBYTES := by
    rw [stream_encrypt_fits hy cfg ctx hU hE [] (by intro p hp; simp at hp) ⟨[], none⟩ rfl]
    simp only [List.nil_append]
    rw [length_wire hy cfg ctx.key hE]
    simp
  refine ⟨hS, ?_⟩
  rw [hS, Nat.sub_self, List.take_zero, stream_decrypt_empty hy cfg ctx hU]
  rfl

/-- The stream of the empty plaintext without its terminal chunk, with the
toy primitive and a 9-byte buffer. -/
theorem C3_truncated_empty_stream_accepted_witness :
    (stream_decrypt toyHydro toyConfig toyContext 0
      ⟨((stream_encrypt toyHydro toyConfig toyContext ⟨[], false⟩ ⟨[], none⟩).fd_out.written).take
        (((stream_encrypt toyHydro toyConfig toyContext ⟨[], false⟩
          ⟨[], none⟩).fd_out.written).length - (4 + toyHydro.secretbox_HEADERBYTES)), false⟩
      ⟨[], none⟩).status = .returned 0 :=
  (C3_truncated_empty_stream_accepted toyHydro toyConfig toyContext toy_usable
    (toy_roundTrips _).encrypts ⟨[], none⟩).2

/-- C6: wire format of the encryptor.  When the successive reads return the
pieces `p_0 .. p_(n-1)` (each non-empty, at most `max_chunk_size` bytes) and
then 0 bytes, `stream_encrypt` returns 0 and the bytes it wrote are
`LE32(|p_0|) || E(p_0, 0) || .. || LE32(|p_(n-1)|) || E(p_(n-1), n-1) ||
LE32(0) || E(empty, n)` (ids in a `uint64_t`), where `E(m, i)` is the result
of `hydro_secretbox_encrypt` and has `H + |m|` bytes; the declared lengths
are those of the pieces followed by one 0, so exactly one chunk declares
length 0 and it is the last. -/
theorem C6_wire_format (hy : Hydro) (cfg : Config) (ctx : Context) (hU : Usable hy ctx)
    (hE : Encrypts hy cfg ctx.key) (pieces : List (List Byte)) (hp : Fits hy ctx pieces)
    (out : Sink) (hroom : out.room = none) :
    (stream_encrypt hy cfg ctx ⟨pieces, false⟩ out).status = .returned 0 ∧
    (stream_encrypt hy cfg ctx ⟨pieces, false⟩ out).fd_out.written
      = out.written ++ frames hy cfg ctx.key (pieces ++ [[]]) ∧
    (∀ m i, hy.secretbox_encrypt m i cfg.HYDRO_CONTEXT ctx.key
        = some (payload hy cfg ctx.key (i, m)) ∧
      (payload hy cfg ctx.key (i, m)).length = hy.secretbox_HEADERBYTES + m.length) ∧
    (stream_encrypt hy cfg ctx ⟨pieces, false⟩ out).calls.map (fun c => c.2.length)
      = pieces.map List.length ++ [0] ∧
    (pieces.map List.length ++ [0]).count 0 = 1 ∧
    (pieces.map List.length ++ [0]).getLast? = some 0 := by
  rw [stream_encrypt_fits hy cfg ctx hU hE pieces hp out hroom]
  refine ⟨rfl, ?_, length_payload hy cfg ctx.key hE, ?_, ?_, ?_⟩
  · simp only [wire_zero_eq_frames]
  · have := map_snd_stamp (pieces ++ [[]]) 0
    have h2 : (stamp 0 (pieces ++ [[]])).map (fun c => c.2.length)
        = ((stamp 0 (pieces ++ [[]])).map Prod.snd).map List.length := by
      rw [List.map_map]; rfl
    simp only [h2, this, List.map_append, List.map_cons, List.map_nil, List.length_nil]
  · rw [List.count_append]
    have : (pieces.map List.length).count 0 = 0 := by
      apply List.count_eq_zero.mpr
      intro h
      obtain ⟨p, hpm, hl⟩ := List.mem_map.mp h
      exact (hp p hpm).1 (List.length_eq_zero.mp hl)
    rw [this]
    rfl
  · simp

/-- The wire format at a concrete input: pieces `1 2 3` and `4`. -/
theorem C6_wire_format_witness :
    (stream_encrypt toyHydro toyConfig toyContext ⟨[[1, 2, 3], [4]], false⟩
        ⟨[], none⟩).fd_out.written
      = [] ++ frames toyHydro toyConfig toyContext.key ([[1, 2, 3], [4]] ++ [[]]) :=
  (C6_wire_format toyHydro toyConfig toyContext toy_usable (toy_roundTrips _).encrypts
    [[1, 2, 3], [4]] (by decide) ⟨[], none⟩ rfl).2.1

/-- C9: empty input.  When the first read of `stream_encrypt` returns 0
bytes it makes one primitive call (empty message, id 0), writes exactly one
chunk of `4 + H` bytes, the prefix `00 00 00 00` followed by that encryption,
and returns; `stream_decrypt` with the same key on these bytes returns 0 and
writes nothing. -/
theorem C9_empty_input (hy : Hydro) (cfg : Config) (ctx : Context) (hU : Usable hy ctx)
    (fd_in : Feed)
    (hfirst : ( safe_read_partial fd_in (toSize (max_chunk_size hy ctx))).1 = some [])
    (c : List Byte)
    (hc : hy.secretbox_encrypt [] 0 cfg.HYDRO_CONTEXT ctx.key = some c)
    (hd : hy.secretbox_decrypt c 0 cfg.HYDRO_CONTEXT ctx.key = some [])
    (junk : Int) (b : Bool) (out1 out2 : Sink) (h1 : out1.room = none) :
    (stream_encrypt hy cfg ctx fd_in out1).status = .returned 0 ∧
    (stream_encrypt hy cfg ctx fd_in out1).fd_out.written = out1.written ++ ([0, 0, 0, 0] ++ c) ∧
    ([0, 0, 0, 0] ++ c).length = 4 + hy.secretbox_HEADERBYTES ∧
    (stream_encrypt hy cfg ctx fd_in out1).calls = [(0, [])] ∧
    (stream_decrypt hy cfg ctx junk ⟨[0, 0, 0, 0] ++ c, b⟩ out2).status = .returned 0 ∧
    (stream_decrypt hy cfg ctx junk ⟨[0, 0, 0, 0] ++ c, b⟩ out2).fd_out = out2 := by
  have hlen : c.length = 0 + hy.secretbox_HEADERBYTES := by
    rw [hy.encrypt_length [] _ _ _ c hc]; simp
  have henc : stream_encrypt hy cfg ctx fd_in out1 =
      ⟨.returned 0, ( safe_read_partial fd_in (toSize (max_chunk_size hy ctx))).2,
        ⟨out1.written ++ ([0, 0, 0, 0] ++ c), none⟩, [(0, [])]⟩ := by
    rw [stream_encrypt_usable hy cfg ctx hU, encrypt_loop]
    rcases hr : safe_read_partial fd_in (toSize (max_chunk_size hy ctx)) with ⟨r, fd1⟩
    rw [hr] at hfirst
    simp only at hfirst
    subst hfirst
    simp only [hc, safe_write, h1, List.length_nil, if_true, List.nil_append]
    rfl
  have hmax : ((0 : Nat) : Int) ≤ max_chunk_size hy ctx := by
    rw [max_chunk_size_eq hy ctx hU]; exact_mod_cast Nat.zero_le _
  have hdec : stream_decrypt hy cfg ctx junk ⟨[0, 0, 0, 0] ++ c, b⟩ out2 =
      ⟨.returned 0, ⟨[], b⟩, out2, [(0, c)]⟩ := by
    rw [stream_decrypt_usable hy cfg ctx hU]
    have e : ([0, 0, 0, 0] ++ c : List Byte) = STORE32_LE 0 ++ (c ++ []) := by
      rw [List.append_nil]; rfl
    rw [e, decrypt_loop_frame hy cfg ctx.key _ _ 0 c [] b out2 0 junk [] (by norm_num) hmax hlen]
    simp [hd]
  rw [henc, hdec]
  refine ⟨rfl, rfl, ?_, rfl, rfl, rfl⟩
  simp only [List.length_append, hlen, List.length_cons, List.length_nil]
  omega

/-- Empty input at a concrete feed whose first read is empty. -/
theorem C9_empty_input_witness :
    (stream_encrypt toyHydro toyConfig toyContext ⟨[[], [1]], false⟩ ⟨[], none⟩).fd_out.written
      = [] ++ ([0, 0, 0, 0] ++ [0, 64]) ∧
    (stream_decrypt toyHydro toyConfig toyContext 3 ⟨[0, 0, 0, 0] ++ [0, 64], true⟩
      ⟨[], none⟩).status = .returned 0 :=
  have h := C9_empty_input toyHydro toyConfig toyContext toy_usable ⟨[[], [1]], false⟩
    (by decide) [0, 64] (by decide) (by decide) 3 true ⟨[], none⟩ ⟨[], none⟩ rfl
  ⟨h.2.1, h.2.2.2.2.1⟩

/-! ## Message ids of a run -/

theorem ids_one (i : Nat) (hi : i < 2 ^ 64) :
    [i] = (List.range 1).map (fun j => (i + j) % 2 ^ 64) := by
  have : i % 2 ^ 64 = i := Nat.mod_eq_of_lt hi
  simp only [List.range_succ, List.range_zero, List.nil_append, List.map_cons, List.map_nil,
    Nat.add_zero, this]

theorem ids_shift (i n : Nat) (hi : i < 2 ^ 64) :
    i :: (List.range n).map (fun j => ((i + 1) % 2 ^ 64 + j) % 2 ^ 64)
      = (List.range (n + 1)).map (fun j => (i + j) % 2 ^ 64) := by
  have : i % 2 ^ 64 = i := Nat.mod_eq_of_lt hi
  rw [List.range_succ_eq_map, List.map_cons, List.map_map]
  congr 1
  · simp only [Nat.add_zero, this]
  · apply List.map_congr_left
    intro j _
    simp only [Function.comp, Nat.succ_eq_add_one]
    omega

theorem encrypt_loop_ids (hy : Hydro) (cfg : Config) (key : List Byte) (max : Int) :
    ∀ (fuel : Nat) (fd_in : Feed) (fd_out : Sink) (i : Nat) (calls : List (Nat × List Byte)),
      i < 2 ^ 64 →
      ∃ n, ((encrypt_loop hy cfg key max fuel fd_in fd_out i calls).calls).map Prod.fst
        = calls.map Prod.fst ++ (List.range n).map (fun j => (i + j) % 2 ^ 64) := by
  intro fuel
  induction fuel with
  | zero => intro fd_in fd_out i calls _; exact ⟨0, by simp [encrypt_loop]⟩
  | succ fuel ih =>
    intro fd_in fd_out i calls hi
    have one : ∀ x : List Byte, List.map Prod.fst (calls ++ [(i, x)])
        = calls.map Prod.fst ++ (List.range 1).map (fun j => (i + j) % 2 ^ 64) := by
      intro x
      rw [← ids_one i hi]
      simp
    rw [encrypt_loop]
    rcases hr : safe_read_partial fd_in (toSize max) with ⟨_ | chunk, fd1⟩
    · exact ⟨0, by simp⟩
    · dsimp only
      rcases he : hy.secretbox_encrypt chunk i cfg.HYDRO_CONTEXT key with _ | c
      · exact ⟨1, one chunk⟩
      · dsimp only
        rcases hw : safe_write fd_out (STORE32_LE chunk.length ++ c) with ⟨_ | _, o⟩
        · exact ⟨1, one chunk⟩
        · dsimp only
          by_cases h0 : chunk.length = 0
          · rw [if_pos h0]
            exact ⟨1, one chunk⟩
          · rw [if_neg h0]
            obtain ⟨n, hn⟩ := ih fd1 o ((i + 1) % 2 ^ 64) (calls ++ [(i, chunk)])
              (Nat.mod_lt _ (by norm_num))
            refine ⟨n + 1, ?_⟩
            rw [hn, ← ids_shift i n hi]
            simp

theorem decrypt_loop_ids (hy : Hydro) (cfg : Config) (key : List Byte) (max : Int) :
    ∀ (fuel : Nat) (fd_in : Source) (fd_out : Sink) (i : Nat) (cs : Int)
      (calls : List (Nat × List Byte)), i < 2 ^ 64 →
      ∃ n, ((decrypt_loop hy cfg key max fuel fd_in fd_out i cs calls).calls).map Prod.fst
        = calls.map Prod.fst ++ (List.range n).map (fun j => (i + j) % 2 ^ 64) := by
  intro fuel
  induction fuel with
  | zero => intro fd_in fd_out i cs calls _; exact ⟨0, by simp [decrypt_loop]⟩
  | succ fuel ih =>
    intro fd_in fd_out i cs calls hi
    have one : ∀ x : List Byte, List.map Prod.fst (calls ++ [(i, x)])
        = calls.map Prod.fst ++ (List.range 1).map (fun j => (i + j) % 2 ^ 64) := by
      intro x
      rw [← ids_one i hi]
      simp
    rw [decrypt_loop]
    rcases hr : safe_read fd_in 4 with ⟨_ | header, fd1⟩
    · exact ⟨0, by simp⟩
    · dsimp only
      by_cases h4 : header.length = 4
      · rw [if_pos h4]
        by_cases hbig : ((LOAD32_LE header : Nat) : Int) > max
        · rw [if_pos hbig]
          exact ⟨0, by simp⟩
        · rw [if_neg hbig]
          rcases hb : safe_read fd1 (toSize ((LOAD32_LE header : Nat) : Int)
            + hy.secretbox_HEADERBYTES) with ⟨_ | body, fd2⟩
          · exact ⟨0, by simp⟩
          · dsimp only
            by_cases hsh : (body.length : Int)
                ≠ ((LOAD32_LE header : Nat) : Int) + hy.secretbox_HEADERBYTES
            · rw [if_pos hsh]
              exact ⟨0, by simp⟩
            · rw [if_neg hsh]
              rcases hd : hy.secretbox_decrypt body i cfg.HYDRO_CONTEXT key with _ | plain
              · exact ⟨1, one body⟩
              · dsimp only
                by_cases h0 : ((LOAD32_LE header : Nat) : Int) = 0
                · rw [if_pos h0]
                  exact ⟨1, one body⟩
                · rw [if_neg h0]
                  rcases hw : safe_write fd_out plain with ⟨_ | _, o⟩
                  · exact ⟨1, one body⟩
                  · dsimp only
                    obtain ⟨n, hn⟩ := ih fd2 o ((i + 1) % 2 ^ 64) _ (calls ++ [(i, body)])
                      (Nat.mod_lt _ (by norm_num))
                    refine ⟨n + 1, ?_⟩
                    rw [hn, ← ids_shift i n hi]
                    simp
      · rw [if_neg h4]
        by_cases hc : cs ≠ 0
        · rw [if_pos hc]; exact ⟨0, by simp⟩
        · rw [if_neg hc]; exact ⟨0, by simp⟩

theorem ids_of_exists (l : List Nat)
    (h : ∃ n, l = ([] : List (Nat × List Byte)).map Prod.fst
      ++ (List.range n).map (fun j => (0 + j) % 2 ^ 64)) :
    l = (List.range l.length).map (fun j => j % 2 ^ 64) := by
  obtain ⟨n, hn⟩ := h
  have hl : l.length = n := by rw [hn]; simp
  rw [hl, hn]
  simp

theorem stream_encrypt_ids (hy : Hydro) (cfg : Config) (ctx : Context) (fd_in : Feed)
    (fd_out : Sink) :
    (stream_encrypt hy cfg ctx fd_in fd_out).ids
      = (List.range (stream_encrypt hy cfg ctx fd_in fd_out).ids.length).map
          (fun j => j % 2 ^ 64) := by
  apply ids_of_exists
  unfold Run.ids stream_encrypt
  split
  · exact ⟨0, rfl⟩
  · split
    · exact ⟨0, rfl⟩
    · exact encrypt_loop_ids hy cfg ctx.key _ _ fd_in fd_out 0 [] (by norm_num)

theorem stream_decrypt_ids (hy : Hydro) (cfg : Config) (ctx : Context) (junk : Int)
    (fd_in : Source) (fd_out : Sink) :
    (stream_decrypt hy cfg ctx junk fd_in fd_out).ids
      = (List.range (stream_decrypt hy cfg ctx junk fd_in fd_out).ids.length).map
          (fun j => j % 2 ^ 64) := by
  apply ids_of_exists
  unfold Run.ids stream_decrypt
  split
  · exact ⟨0, rfl⟩
  · split
    · exact ⟨0, rfl⟩
    · exact decrypt_loop_ids hy cfg ctx.key _ _ fd_in fd_out 0 junk [] (by norm_num)

theorem ids_no_wrap (l : List Nat) (h : l = (List.range l.length).map (fun j => j % 2 ^ 64))
    (hl : l.length ≤ 2 ^ 64) : l = List.range l.length := by
  have : (List.range l.length).map (fun j => j % 2 ^ 64) = List.range l.length := by
    conv_rhs => rw [← List.map_id (List.range l.length)]
    apply List.map_congr_left
    intro j hj
    have := List.mem_range.mp hj
    simp only [id]
    omega
  rw [this] at h
  exact h

/-- C7: nonce discipline.  In every run of `stream_encrypt` and of
`stream_decrypt` (any input, any primitive, any outcome) the `j`-th call of
the secretbox primitive, counting from 0, is made with message id
`j mod 2^64`; so in a run of at most `2^64` calls the ids are exactly
`0, 1, 2, ..` in call order: they start at 0, go up by one per chunk, have no
gap and none is used twice. -/
theorem C7_nonce_discipline (hy : Hydro) (cfg : Config) (ctx : Context) (fd_in : Feed)
    (src : Source) (junk : Int) (out1 out2 : Sink) :
    ((stream_encrypt hy cfg ctx fd_in out1).ids
      = (List.range (stream_encrypt hy cfg ctx fd_in out1).ids.length).map
          (fun j => j % 2 ^ 64)) ∧
    ((stream_decrypt hy cfg ctx junk src out2).ids
      = (List.range (stream_decrypt hy cfg ctx junk src out2).ids.length).map
          (fun j => j % 2 ^ 64)) ∧
    ((stream_encrypt hy cfg ctx fd_in out1).ids.length ≤ 2 ^ 64 →
      (stream_encrypt hy cfg ctx fd_in out1).ids
        = List.range (stream_encrypt hy cfg ctx fd_in out1).ids.length ∧
      (stream_encrypt hy cfg ctx fd_in out1).ids.Nodup) ∧
    ((stream_decrypt hy cfg ctx junk src out2).ids.length ≤ 2 ^ 64 →
      (stream_decrypt hy cfg ctx junk src out2).ids
        = List.range (stream_decrypt hy cfg ctx junk src out2).ids.length ∧
      (stream_decrypt hy cfg ctx junk src out2).ids.Nodup) := by
  refine ⟨stream_encrypt_ids hy cfg ctx fd_in out1, stream_decrypt_ids hy cfg ctx junk src out2,
    ?_, ?_⟩
  · intro h
    have e := ids_no_wrap _ (stream_encrypt_ids hy cfg ctx fd_in out1) h
    refine ⟨e, ?_⟩
    rw [e]
    exact List.nodup_range _
  · intro h
    have e := ids_no_wrap _ (stream_decrypt_ids hy cfg ctx junk src out2) h
    refine ⟨e, ?_⟩
    rw [e]
    exact List.nodup_range _

/-- Message ids of a concrete encryption (4 calls) and of a concrete
decryption (3 calls). -/
theorem C7_nonce_discipline_witness :
    (stream_encrypt toyHydro toyConfig toyContext ⟨[[1, 2, 3, 4, 5, 6, 7]], false⟩
      ⟨[], none⟩).ids = List.range 4 ∧
    (stream_decrypt toyHydro toyConfig toyContext 0
      ⟨[3, 0, 0, 0, 6, 64, 1, 2, 3, 1, 0, 0, 0, 5, 64, 4, 0, 0, 0, 0, 2, 64], false⟩
      ⟨[], none⟩).ids = List.range 3 :=
  have h := C7_nonce_discipline toyHydro toyConfig toyContext ⟨[[1, 2, 3, 4, 5, 6, 7]], false⟩
    ⟨[3, 0, 0, 0, 6, 64, 1, 2, 3, 1, 0, 0, 0, 5, 64, 4, 0, 0, 0, 0, 2, 64], false⟩ 0
    ⟨[], none⟩ ⟨[], none⟩
  ⟨(h.2.2.1 (by decide)).1, (h.2.2.2 (by decide)).1⟩

/-! ## Reads consume the input from the front -/

theorem safe_read_some (fd : Source) (n : Nat) (l : List Byte) (fd1 : Source)
    (h : safe_read fd n = (some l, fd1)) :
    fd.data = l ++ fd1.data ∧ fd1.broken = fd.broken ∧ l.length ≤ n := by
  unfold safe_read at h
  split at h
  · simp only [Prod.mk.injEq, Option.some.injEq] at h
    obtain ⟨h1, h2⟩ := h
    subst h1 h2
    simp only [List.take_append_drop, List.length_take]
    exact ⟨trivial, trivial, Nat.min_le_left _ _⟩
  · split at h
    · simp at h
    · simp only [Prod.mk.injEq, Option.some.injEq] at h
      obtain ⟨h1, h2⟩ := h
      subst h1 h2
      simp only [List.append_nil]
      exact ⟨trivial, trivial, by omega⟩

theorem safe_read_partial_some (fd : Feed) (n : Nat) (l : List Byte) (fd1 : Feed)
    (h : safe_read_partial fd n = (some l, fd1)) :
    fd.pieces.flatten = l ++ fd1.pieces.flatten := by
  unfold safe_read_partial at h
  split at h
  · rename_i hnil
    split at h
    · simp at h
    · simp only [Prod.mk.injEq, Option.some.injEq] at h
      obtain ⟨h1, h2⟩ := h
      subst h1 h2
      simp [hnil]
  · rename_i p rest hcons
    split at h
    · simp only [Prod.mk.injEq, Option.some.injEq] at h
      obtain ⟨h1, h2⟩ := h
      subst h1 h2
      simp [hcons]
    · simp only [Prod.mk.injEq, Option.some.injEq] at h
      obtain ⟨h1, h2⟩ := h
      subst h1 h2
      simp only [hcons, List.flatten_cons, ← List.append_assoc, List.take_append_drop]

/-! ## The loops finish -/

theorem encrypt_loop_finishes (hy : Hydro) (cfg : Config) (key : List Byte) (max : Int) :
    ∀ (fuel : Nat) (fd_in : Feed) (fd_out : Sink) (i : Nat) (calls : List (Nat × List Byte)),
      fd_in.pieces.flatten.length < fuel →
      (encrypt_loop hy cfg key max fuel fd_in fd_out i calls).status ≠ .unfinished := by
  intro fuel
  induction fuel with
  | zero => intro fd_in fd_out i calls h; exact absurd h (Nat.not_lt_zero _)
  | succ fuel ih =>
    intro fd_in fd_out i calls hf
    rw [encrypt_loop]
    rcases hr : safe_read_partial fd_in (toSize max) with ⟨_ | chunk, fd1⟩
    · simp
    · dsimp only
      rcases he : hy.secretbox_encrypt chunk i cfg.HYDRO_CONTEXT key with _ | c
      · simp
      · dsimp only
        rcases hw : safe_write fd_out (STORE32_LE chunk.length ++ c) with ⟨_ | _, o⟩
        · simp
        · dsimp only
          by_cases h0 : chunk.length = 0
          · rw [if_pos h0]; simp
          · rw [if_neg h0]
            apply ih
            have := congrArg List.length (safe_read_partial_some fd_in _ chunk fd1 hr)
            simp only [List.length_append] at this
            omega

theorem decrypt_loop_finishes (hy : Hydro) (cfg : Config) (key : List Byte) (max : Int) :
    ∀ (fuel : Nat) (fd_in : Source) (fd_out : Sink) (i : Nat) (cs : Int)
      (calls : List (Nat × List Byte)), fd_in.data.length < fuel →
      (decrypt_loop hy cfg key max fuel fd_in fd_out i cs calls).status ≠ .unfinished := by
  intro fuel
  induction fuel with
  | zero => intro fd_in fd_out i cs calls h; exact absurd h (Nat.not_lt_zero _)
  | succ fuel ih =>
    intro fd_in fd_out i cs calls hf
    rw [decrypt_loop]
    rcases hr : safe_read fd_in 4 with ⟨_ | header, fd1⟩
    · simp
    · dsimp only
      by_cases h4 : header.length = 4
      · rw [if_pos h4]
        by_cases hbig : ((LOAD32_LE header : Nat) : Int) > max
        · rw [if_pos hbig]; simp
        · rw [if_neg hbig]
          rcases hb : safe_read fd1 (toSize ((LOAD32_LE header : Nat) : Int)
            + hy.secretbox_HEADERBYTES) with ⟨_ | body, fd2⟩
          · simp
          · dsimp only
            by_cases hsh : (body.length : Int)
                ≠ ((LOAD32_LE header : Nat) : Int) + hy.secretbox_HEADERBYTES
            · rw [if_pos hsh]; simp
            · rw [if_neg hsh]
              rcases hd : hy.secretbox_decrypt body i cfg.HYDRO_CONTEXT key with _ | plain
              · simp
              · dsimp only
                by_cases h0 : ((LOAD32_LE header : Nat) : Int) = 0
                · rw [if_pos h0]; simp
                · rw [if_neg h0]
                  rcases hw : safe_write fd_out plain with ⟨_ | _, o⟩
                  · simp
                  · dsimp only
                    apply ih
                    have e1 := congrArg List.length (safe_read_some fd_in 4 header fd1 hr).1
                    have e2 := congrArg List.length (safe_read_some fd1 _ body fd2 hb).1
                    simp only [List.length_append] at e1 e2
                    omega
      · rw [if_neg h4]
        by_cases hc : cs ≠ 0
        · rw [if_pos hc]; simp
        · rw [if_neg hc]; simp

/-- The model of `stream_encrypt` never runs out of fuel. -/
theorem stream_encrypt_finishes (hy : Hydro) (cfg : Config) (ctx : Context) (fd_in : Feed)
    (fd_out : Sink) : (stream_encrypt hy cfg ctx fd_in fd_out).status ≠ .unfinished := by
  unfold stream_encrypt
  split
  · simp
  · split
    · simp
    · exact encrypt_loop_finishes hy cfg ctx.key _ _ fd_in fd_out 0 [] (Nat.lt_succ_self _)

/-- The model of `stream_decrypt` never runs out of fuel. -/
theorem stream_decrypt_finishes (hy : Hydro) (cfg : Config) (ctx : Context) (junk : Int)
    (fd_in : Source) (fd_out : Sink) :
    (stream_decrypt hy cfg ctx junk fd_in fd_out).status ≠ .unfinished := by
  unfold stream_decrypt
  split
  · simp
  · split
    · simp
    · exact decrypt_loop_finishes hy cfg ctx.key _ _ fd_in fd_out 0 junk [] (Nat.lt_succ_self _)

/-! ## The oversized-chunk check -/

theorem decrypt_loop_tooLarge (hy : Hydro) (cfg : Config) (key : List Byte) (max : Int) :
    ∀ (fuel : Nat) (fd_in : Source) (fd_out : Sink) (i : Nat) (cs : Int)
      (calls : List (Nat × List Byte)) (a m : Int),
      (decrypt_loop hy cfg key max fuel fd_in fd_out i cs calls).status
        = .exited (.chunkTooLarge a m) → a > m ∧ m = max := by
  intro fuel
  induction fuel with
  | zero => intro fd_in fd_out i cs calls a m h; simp [decrypt_loop] at h
  | succ fuel ih =>
    intro fd_in fd_out i cs calls a m
    rw [decrypt_loop]
    rcases hr : safe_read fd_in 4 with ⟨_ | header, fd1⟩
    · simp
    · dsimp only
      by_cases h4 : header.length = 4
      · rw [if_pos h4]
        by_cases hbig : ((LOAD32_LE header : Nat) : Int) > max
        · rw [if_pos hbig]
          intro h
          simp only [Status.exited.injEq, Fatal.chunkTooLarge.injEq] at h
          obtain ⟨h1, h2⟩ := h
          subst h1 h2
          exact ⟨hbig, rfl⟩
        · rw [if_neg hbig]
          rcases hb : safe_read fd1 (toSize ((LOAD32_LE header : Nat) : Int)
            + hy.secretbox_HEADERBYTES) with ⟨_ | body, fd2⟩
          · simp
          · dsimp only
            by_cases hsh : (body.length : Int)
                ≠ ((LOAD32_LE header : Nat) : Int) + hy.secretbox_HEADERBYTES
            · rw [if_pos hsh]; simp
            · rw [if_neg hsh]
              rcases hd : hy.secretbox_decrypt body i cfg.HYDRO_CONTEXT key with _ | plain
              · simp
              · dsimp only
                by_cases h0 : ((LOAD32_LE header : Nat) : Int) = 0
                · rw [if_pos h0]; simp
                · rw [if_neg h0]
                  rcases hw : safe_write fd_out plain with ⟨_ | _, o⟩
                  · simp
                  · dsimp only
                    exact ih fd2 o _ _ _ a m
      · rw [if_neg h4]
        by_cases hc : cs ≠ 0
        · rw [if_pos hc]; simp
        · rw [if_neg hc]; simp

/-- The calls of a run extend the calls made before. -/
theorem decrypt_loop_calls_extend (hy : Hydro) (cfg : Config) (key : List Byte) (max : Int) :
    ∀ (fuel : Nat) (fd_in : Source) (fd_out : Sink) (i : Nat) (cs : Int)
      (calls : List (Nat × List Byte)),
      ∃ more, (decrypt_loop hy cfg key max fuel fd_in fd_out i cs calls).calls = calls ++ more := by
  intro fuel
  induction fuel with
  | zero => intro fd_in fd_out i cs calls; exact ⟨[], by simp [decrypt_loop]⟩
  | succ fuel ih =>
    intro fd_in fd_out i cs calls
    rw [decrypt_loop]
    rcases hr : safe_read fd_in 4 with ⟨_ | header, fd1⟩
    · exact ⟨[], by simp⟩
    · dsimp only
      by_cases h4 : header.length = 4
      · rw [if_pos h4]
        by_cases hbig : ((LOAD32_LE header : Nat) : Int) > max
        · rw [if_pos hbig]; exact ⟨[], by simp⟩
        · rw [if_neg hbig]
          rcases hb : safe_read fd1 (toSize ((LOAD32_LE header : Nat) : Int)
            + hy.secretbox_HEADERBYTES) with ⟨_ | body, fd2⟩
          · exact ⟨[], by simp⟩
          · dsimp only
            by_cases hsh : (body.length : Int)
                ≠ ((LOAD32_LE header : Nat) : Int) + hy.secretbox_HEADERBYTES
            · rw [if_pos hsh]; exact ⟨[], by simp⟩
            · rw [if_neg hsh]
              rcases hd : hy.secretbox_decrypt body i cfg.HYDRO_CONTEXT key with _ | plain
              · exact ⟨[(i, body)], rfl⟩
              · dsimp only
                by_cases h0 : ((LOAD32_LE header : Nat) : Int) = 0
                · rw [if_pos h0]; exact ⟨[(i, body)], rfl⟩
                · rw [if_neg h0]
                  rcases hw : safe_write fd_out plain with ⟨_ | _, o⟩
                  · exact ⟨[(i, body)], rfl⟩
                  · dsimp only
                    obtain ⟨more, hm⟩ := ih fd2 o ((i + 1) % 2 ^ 64)
                      ((LOAD32_LE header : Nat) : Int) (calls ++ [(i, body)])
                    exact ⟨(i, body) :: more, by rw [hm]; simp⟩
      · rw [if_neg h4]
        by_cases hc : cs ≠ 0
        · rw [if_pos hc]; exact ⟨[], by simp⟩
        · rw [if_neg hc]; exact ⟨[], by simp⟩

theorem decrypt_loop_oversized (hy : Hydro) (cfg : Config) (key : List Byte) (max : Int)
    (fuel : Nat) (header rest : List Byte) (h4 : header.length = 4) (b : Bool) (out : Sink)
    (i : Nat) (cs : Int) (calls : List (Nat × List Byte))
    (hbig : ((LOAD32_LE header : Nat) : Int) > max) :
    decrypt_loop hy cfg key max (fuel + 1) ⟨header ++ rest, b⟩ out i cs calls =
      ⟨.exited (.chunkTooLarge ((LOAD32_LE header : Nat) : Int) max), ⟨rest, b⟩, out, calls⟩ := by
  have hr : safe_read ⟨header ++ rest, b⟩ 4 = (some header, ⟨rest, b⟩) := by
    rw [← h4]; exact safe_read_body header rest b _ rfl
  rw [decrypt_loop, hr]
  dsimp only
  rw [if_pos h4, if_pos hbig]

theorem decrypt_loop_accepted (hy : Hydro) (cfg : Config) (key : List Byte) (max : Int)
    (fuel : Nat) (header rest : List Byte) (h4 : header.length = 4) (b : Bool) (out : Sink)
    (i : Nat) (cs : Int) (calls : List (Nat × List Byte))
    (hsmall : ¬ ((LOAD32_LE header : Nat) : Int) > max)
    (hlen : LOAD32_LE header + hy.secretbox_HEADERBYTES ≤ rest.length) :
    ∃ more, (decrypt_loop hy cfg key max (fuel + 1) ⟨header ++ rest, b⟩ out i cs calls).calls
      = calls ++ (i, rest.take (LOAD32_LE header + hy.secretbox_HEADERBYTES)) :: more := by
  have hr : safe_read ⟨header ++ rest, b⟩ 4 = (some header, ⟨rest, b⟩) := by
    rw [← h4]; exact safe_read_body header rest b _ rfl
  have h64 : LOAD32_LE header < 2 ^ 64 := by have := LOAD32_LE_lt header; omega
  have hb : safe_read ⟨rest, b⟩ (toSize ((LOAD32_LE header : Nat) : Int)
      + hy.secretbox_HEADERBYTES)
      = (some (rest.take (LOAD32_LE header + hy.secretbox_HEADERBYTES)),
          ⟨rest.drop (LOAD32_LE header + hy.secretbox_HEADERBYTES), b⟩) := by
    rw [toSize_natCast _ h64]
    simp [safe_read, hlen]
  have hbl : ¬ (((rest.take (LOAD32_LE header + hy.secretbox_HEADERBYTES)).length : Nat) : Int)
      ≠ ((LOAD32_LE header : Nat) : Int) + hy.secretbox_HEADERBYTES := by
    rw [List.length_take, Nat.min_eq_left hlen]
    simp
  rw [decrypt_loop, hr]
  dsimp only
  rw [if_pos h4, if_neg hsmall, hb]
  dsimp only
  rw [if_neg hbl]
  rcases hd : hy.secretbox_decrypt (rest.take (LOAD32_LE header + hy.secretbox_HEADERBYTES)) i
    cfg.HYDRO_CONTEXT key with _ | plain
  · exact ⟨[], rfl⟩
  · dsimp only
    by_cases h0 : ((LOAD32_LE header : Nat) : Int) = 0
    · rw [if_pos h0]; exact ⟨[], rfl⟩
    · rw [if_neg h0]
      rcases hw : safe_write out plain with ⟨_ | _, o⟩
      · exact ⟨[], rfl⟩
      · dsimp only
        obtain ⟨more, hm⟩ := decrypt_loop_calls_extend hy cfg key max fuel
          ⟨rest.drop (LOAD32_LE header + hy.secretbox_HEADERBYTES), b⟩ o ((i + 1) % 2 ^ 64)
          ((LOAD32_LE header : Nat) : Int)
          (calls ++ [(i, rest.take (LOAD32_LE header + hy.secretbox_HEADERBYTES))])
        exact ⟨more, by rw [hm]; simp⟩

/-- C5: oversized-length rejection.  At any iteration of the loop of
`stream_decrypt`, when the next four bytes decode (little-endian) to `L`:
the run ends with the oversized-chunk error for `L` if and only if
`L > max_chunk_size` (the comparison is exact for every `L < 2^32`); in that
case the input is left right after those four bytes, nothing is written and
the primitive is not called; when `L ≤ max_chunk_size` and the payload is
there, its `L + H` bytes are read and passed to the primitive.  With a
usable buffer `max_chunk_size` is `sizeof_buf - 4 - H`, and `stream_decrypt`
is this loop from chunk id 0. -/
theorem C5_oversized_rejection (hy : Hydro) (cfg : Config) (ctx : Context) (fuel : Nat)
    (b0 b1 b2 b3 : Byte) (rest : List Byte) (b : Bool) (out : Sink) (i : Nat) (cs : Int)
    (calls : List (Nat × List Byte)) :
    ((decrypt_loop hy cfg ctx.key (max_chunk_size hy ctx) (fuel + 1)
        ⟨b0 :: b1 :: b2 :: b3 :: rest, b⟩ out i cs calls).status
        = .exited (.chunkTooLarge ((LOAD32_LE [b0, b1, b2, b3] : Nat) : Int)
            (max_chunk_size hy ctx))
      ↔ ((LOAD32_LE [b0, b1, b2, b3] : Nat) : Int) > max_chunk_size hy ctx) ∧
    (((LOAD32_LE [b0, b1, b2, b3] : Nat) : Int) > max_chunk_size hy ctx →
      decrypt_loop hy cfg ctx.key (max_chunk_size hy ctx) (fuel + 1)
        ⟨b0 :: b1 :: b2 :: b3 :: rest, b⟩ out i cs calls
      = ⟨.exited (.chunkTooLarge ((LOAD32_LE [b0, b1, b2, b3] : Nat) : Int)
            (max_chunk_size hy ctx)), ⟨rest, b⟩, out, calls⟩) ∧
    (((LOAD32_LE [b0, b1, b2, b3] : Nat) : Int) ≤ max_chunk_size hy ctx →
      LOAD32_LE [b0, b1, b2, b3] + hy.secretbox_HEADERBYTES ≤ rest.length →
      ∃ more, (decrypt_loop hy cfg ctx.key (max_chunk_size hy ctx) (fuel + 1)
          ⟨b0 :: b1 :: b2 :: b3 :: rest, b⟩ out i cs calls).calls
        = calls ++
          (i, rest.take (LOAD32_LE [b0, b1, b2, b3] + hy.secretbox_HEADERBYTES)) :: more) ∧
    (Usable hy ctx →
      max_chunk_size hy ctx = ((ctx.sizeof_buf - 4 - hy.secretbox_HEADERBYTES : Nat) : Int) ∧
      stream_decrypt hy cfg ctx cs ⟨b0 :: b1 :: b2 :: b3 :: rest, b⟩ out
        = decrypt_loop hy cfg ctx.key (max_chunk_size hy ctx) (rest.length + 4 + 1)
            ⟨b0 :: b1 :: b2 :: b3 :: rest, b⟩ out 0 cs []) := by
  have hover := decrypt_loop_oversized hy cfg ctx.key (max_chunk_size hy ctx) fuel
    [b0, b1, b2, b3] rest rfl b out i cs calls
  refine ⟨⟨?_, ?_⟩, ?_, ?_, ?_⟩
  · intro h
    exact (decrypt_loop_tooLarge hy cfg ctx.key _ _ _ _ _ _ _ _ _ h).1
  · intro h
    have := hover h
    simp only [List.cons_append, List.nil_append] at this
    rw [this]
  · intro h
    have := hover h
    simp only [List.cons_append, List.nil_append] at this
    exact this
  · intro hle hlen
    have := decrypt_loop_accepted hy cfg ctx.key (max_chunk_size hy ctx) fuel
      [b0, b1, b2, b3] rest rfl b out i cs calls (not_lt.mpr hle) hlen
    simpa only [List.cons_append, List.nil_append] using this
  · intro hU
    exact ⟨max_chunk_size_eq hy ctx hU, stream_decrypt_usable hy cfg ctx hU cs _ out⟩

/-- With `max_chunk_size = 3`: a prefix of 4 is rejected with the payload
unread, a prefix of 3 is accepted and its 5 payload bytes reach the primitive. -/
theorem C5_oversized_rejection_witness :
    stream_decrypt toyHydro toyConfig toyContext 0 ⟨[4, 0, 0, 0, 9, 9, 9], false⟩ ⟨[], none⟩
      = ⟨.exited (.chunkTooLarge 4 3), ⟨[9, 9, 9], false⟩, ⟨[], none⟩, []⟩ ∧
    ∃ more, (stream_decrypt toyHydro toyConfig toyContext 0
        ⟨[3, 0, 0, 0, 9, 9, 9, 9, 9, 9], false⟩ ⟨[], none⟩).calls
      = [] ++ (0, [9, 9, 9, 9, 9]) :: more :=
  have h1 := C5_oversized_rejection toyHydro toyConfig toyContext 3 4 0 0 0 [9, 9, 9] false
    ⟨[], none⟩ 0 0 []
  have h2 := C5_oversized_rejection toyHydro toyConfig toyContext 6 3 0 0 0
    [9, 9, 9, 9, 9, 9] false ⟨[], none⟩ 0 0 []
  ⟨(h1.2.2.2 toy_usable).2.trans (h1.2.1 (by decide)),
    by rw [(h2.2.2.2 toy_usable).2]; exact h2.2.2.1 (by decide) (by decide)⟩

theorem flatten_length_le_of_short (rs : List (List Byte)) (M : Nat)
    (hb : ∀ c ∈ rs, c.length ≤ M) (hs : rs.length ≤ 1) : rs.flatten.length ≤ M := by
  cases rs with
  | nil => simp
  | cons c cs =>
    cases cs with
    | nil => simpa using hb c (List.mem_cons_self _ _)
    | cons d ds => simp only [List.length_cons] at hs; omega

/-- C8: chunking.  With a usable buffer, on a feed whose reads are all
non-empty until the end of input, `stream_encrypt` returns 0; the chunks it
sends are the data chunks followed by exactly one empty (terminal) chunk; the
bytes written are the frames of these chunks, whose length prefixes are the
chunk lengths; the data chunks concatenate to the plaintext and each has
between 1 and `max_chunk_size` bytes; a plaintext longer than `max_chunk_size`
gives more than one data chunk; and when the plaintext `P` arrives in one
piece, so that every read returns the full requested amount while data
remains, there are `ceil (|P| / max_chunk_size)` data chunks, all but possibly
the last of exactly `max_chunk_size` bytes. -/
theorem C8_chunking (hy : Hydro) (cfg : Config) (ctx : Context) (hU : Usable hy ctx)
    (hE : Encrypts hy cfg ctx.key) (pieces : List (List Byte)) (hne : ∀ p ∈ pieces, p ≠ [])
    (out : Sink) (hroom : out.room = none) :
    let r := stream_encrypt hy cfg ctx ⟨pieces, false⟩ out
    let M := ctx.sizeof_buf - 4 - hy.secretbox_HEADERBYTES
    r.status = .returned 0 ∧
    r.sent = r.sent.dropLast ++ [[]] ∧
    r.fd_out.written = out.written ++ frames hy cfg ctx.key r.sent ∧
    r.sent.dropLast.flatten = pieces.flatten ∧
    (∀ c ∈ r.sent.dropLast, 0 < c.length ∧ c.length ≤ M) ∧
    (∀ c ∈ r.sent, LOAD32_LE (STORE32_LE c.length) = c.length ∧ c.length ≤ M) ∧
    (M < pieces.flatten.length → 1 < r.sent.dropLast.length) ∧
    (∀ P, pieces = [P] →
      r.sent.dropLast.length = (P.length + M - 1) / M ∧
      ∀ j, j + 1 < r.sent.dropLast.length → (r.sent.dropLast.getD j []).length = M) := by
  intro r M
  have hM1 : 1 ≤ M := by have := hU.1; omega
  have hr : r = _ := stream_encrypt_spec hy cfg ctx hU hE pieces out hroom hne
  have hflat := reads_flatten M hM1 (pieces.flatten.length + 1) pieces hne (Nat.le_succ _)
  have hmem := reads_mem M hM1 (pieces.flatten.length + 1) pieces hne
  have hsent : r.sent = reads M (pieces.flatten.length + 1) pieces ++ [[]] := by
    rw [hr]
    exact map_snd_stamp _ 0
  have hdrop : r.sent.dropLast = reads M (pieces.flatten.length + 1) pieces := by
    rw [hsent, List.dropLast_concat]
  refine ⟨by rw [hr], by rw [hdrop, hsent], ?_, by rw [hdrop, hflat], ?_, ?_, ?_, ?_⟩
  · rw [hsent, ← wire_zero_eq_frames, hr]
  · intro c hc
    rw [hdrop] at hc
    obtain ⟨h1, h2⟩ := hmem c hc
    exact ⟨List.length_pos.mpr h1, h2⟩
  · intro c hc
    have hbound := hU.2.1
    have hcM : c.length ≤ M := by
      rw [hsent] at hc
      rcases List.mem_append.mp hc with h | h
      · exact (hmem c h).2
      · simp only [List.mem_singleton] at h
        subst h
        exact Nat.zero_le _
    exact ⟨LOAD32_LE_STORE32_LE _ (by omega), hcM⟩
  · intro hlong
    rw [hdrop]
    by_contra hshort
    have := flatten_length_le_of_short _ M (fun c hc => (hmem c hc).2) (by omega)
    rw [hflat] at this
    omega
  · intro P hP
    subst hP
    rw [hdrop]
    have hPne : P ≠ [] := hne P (List.mem_cons_self _ _)
    have := reads_single M hM1 ([P].flatten.length + 1) P hPne (by simp)
    exact this

/-- Seven bytes arriving in one piece with `max_chunk_size = 3`: three data
chunks. -/
theorem C8_chunking_witness :
    (stream_encrypt toyHydro toyConfig toyContext ⟨[[1, 2, 3, 4, 5, 6, 7]], false⟩
      ⟨[], none⟩).sent.dropLast.length = (7 + 3 - 1) / 3 ∧
    1 < (stream_encrypt toyHydro toyConfig toyContext ⟨[[1, 2, 3, 4, 5, 6, 7]], false⟩
      ⟨[], none⟩).sent.dropLast.length :=
  have h := C8_chunking toyHydro toyConfig toyContext toy_usable (toy_roundTrips _).encrypts
    [[1, 2, 3, 4, 5, 6, 7]] (by decide) ⟨[], none⟩ rfl
  ⟨(h.2.2.2.2.2.2.2 [1, 2, 3, 4, 5, 6, 7] rfl).1, h.2.2.2.2.2.2.1 (by decide)⟩

/-- C10: wrong password.  Let `k1` and `k2` be the contexts `derive_key`
leaves for two passwords, and let the primitive reject, under the key of `k2`,
every payload encrypted under the key of `k1` with id 0 (the assumption of the
claim, for the two derived keys; it entails that they differ).  Then for every
plaintext, `stream_decrypt` with the key of `k2` on the stream that
`stream_encrypt` wrote with the key of `k1` fails with the authentication
failure of chunk 0 and writes nothing. -/
theorem C10_wrong_password (hy : Hydro) (cfg : Config) (ctx1 ctx2 k1 k2 : Context)
    (hk1 : derive_key hy cfg ctx1 = .ok k1) (hk2 : derive_key hy cfg ctx2 = .ok k2)
    (n : Nat) (hU : Usable hy { k1 with sizeof_buf := n })
    (hE : Encrypts hy cfg k1.key)
    (hrej : ∀ m c, hy.secretbox_encrypt m 0 cfg.HYDRO_CONTEXT k1.key = some c →
      hy.secretbox_decrypt c 0 cfg.HYDRO_CONTEXT k2.key = none)
    (pieces : List (List Byte)) (hp : Fits hy { k1 with sizeof_buf := n } pieces)
    (junk : Int) (b : Bool) (out : Sink) :
    hy.pwhash_deterministic cfg.KEYBYTES (ctx1.password.take (strlen ctx1.password))
      cfg.HYDRO_CONTEXT (master_key hy) cfg.PWHASH_OPSLIMIT cfg.PWHASH_MEMLIMIT
      cfg.PWHASH_THREADS = some k1.key ∧
    hy.pwhash_deterministic cfg.KEYBYTES (ctx2.password.take (strlen ctx2.password))
      cfg.HYDRO_CONTEXT (master_key hy) cfg.PWHASH_OPSLIMIT cfg.PWHASH_MEMLIMIT
      cfg.PWHASH_THREADS = some k2.key ∧
    (stream_decrypt hy cfg { k2 with sizeof_buf := n } junk
      ⟨(stream_encrypt hy cfg { k1 with sizeof_buf := n } ⟨pieces, false⟩
        ⟨[], none⟩).fd_out.written, b⟩ out).status = .exited (.decryptFailed 0) ∧
    (stream_decrypt hy cfg { k2 with sizeof_buf := n } junk
      ⟨(stream_encrypt hy cfg { k1 with sizeof_buf := n } ⟨pieces, false⟩
        ⟨[], none⟩).fd_out.written, b⟩ out).fd_out = out := by
  have hkey1 : hy.pwhash_deterministic cfg.KEYBYTES
      (ctx1.password.take (strlen ctx1.password)) cfg.HYDRO_CONTEXT (master_key hy)
      cfg.PWHASH_OPSLIMIT cfg.PWHASH_MEMLIMIT cfg.PWHASH_THREADS = some k1.key := by
    unfold derive_key at hk1
    dsimp only at hk1
    split at hk1
    · simp at hk1
    · rename_i key hkey
      simp only [Except.ok.injEq] at hk1
      rw [hkey, ← hk1]
  have hkey2 : hy.pwhash_deterministic cfg.KEYBYTES
      (ctx2.password.take (strlen ctx2.password)) cfg.HYDRO_CONTEXT (master_key hy)
      cfg.PWHASH_OPSLIMIT cfg.PWHASH_MEMLIMIT cfg.PWHASH_THREADS = some k2.key := by
    unfold derive_key at hk2
    dsimp only at hk2
    split at hk2
    · simp at hk2
    · rename_i key hkey
      simp only [Except.ok.injEq] at hk2
      rw [hkey, ← hk2]
  have hU2 : Usable hy { k2 with sizeof_buf := n } := hU
  -- the first chunk of the stream
  have hfirst : ∃ (m c rest : List Byte),
      (stream_encrypt hy cfg { k1 with sizeof_buf := n } ⟨pieces, false⟩
        ⟨[], none⟩).fd_out.written = STORE32_LE m.length ++ (c ++ rest) ∧
      hy.secretbox_encrypt m 0 cfg.HYDRO_CONTEXT k1.key = some c ∧
      m.length ≤ n - 4 - hy.secretbox_HEADERBYTES := by
    rw [stream_encrypt_fits hy cfg { k1 with sizeof_buf := n } hU hE pieces hp ⟨[], none⟩ rfl]
    cases pieces with
    | nil =>
      obtain ⟨h1, _⟩ := length_payload hy cfg k1.key hE [] 0
      exact ⟨[], _, [], by simp [wire, stamp, frame], h1, Nat.zero_le _⟩
    | cons p ps =>
      obtain ⟨h1, _⟩ := length_payload hy cfg k1.key hE p 0
      refine ⟨p, _, wire hy cfg k1.key ((0 + 1) % 2 ^ 64) (ps ++ [[]]), ?_, h1,
        (hp p (List.mem_cons_self _ _)).2⟩
      simp only [List.nil_append, List.cons_append, wire_cons, frame, List.append_assoc]
  obtain ⟨m, c, rest, hS, hc, hm⟩ := hfirst
  have hlen : c.length = m.length + hy.secretbox_HEADERBYTES := by
    rw [hy.encrypt_length m 0 _ _ c hc, Nat.add_comm]
  have hbound := hU.2.1
  have hmax : ((m.length : Nat) : Int) ≤ max_chunk_size hy { k2 with sizeof_buf := n } := by
    rw [max_chunk_size_eq hy _ hU2]
    exact_mod_cast hm
  have h32 : m.length < 2 ^ 32 := by
    simp only at hbound
    omega
  have hdec : stream_decrypt hy cfg { k2 with sizeof_buf := n } junk
      ⟨STORE32_LE m.length ++ (c ++ rest), b⟩ out
      = ⟨.exited (.decryptFailed 0), ⟨rest, b⟩, out, [(0, c)]⟩ := by
    rw [stream_decrypt_usable hy cfg _ hU2,
      decrypt_loop_frame hy cfg _ _ _ m.length c rest b out 0 junk [] h32 hmax hlen]
    simp only [hrej m c hc]
    rfl
  rw [hS, hdec]
  exact ⟨hkey1, hkey2, rfl, rfl⟩

theorem toy_rejects_other_key (k1 k2 : List Byte)
    (h : toyKeyTag toyConfig.HYDRO_CONTEXT k1 ≠ toyKeyTag toyConfig.HYDRO_CONTEXT k2) :
    ∀ m c, toyHydro.secretbox_encrypt m 0 toyConfig.HYDRO_CONTEXT k1 = some c →
      toyHydro.secretbox_decrypt c 0 toyConfig.HYDRO_CONTEXT k2 = none := by
  intro m c hc
  simp only [toyHydro, Option.some.injEq] at hc
  subst hc
  simp only [toyHydro, toyDecrypt]
  rw [if_neg]
  intro hh
  exact h hh.2

/-- Passwords `1` and `2` with the toy password hash: keys `1 1 1 1` and
`2 2 2 2`. -/
theorem C10_wrong_password_witness :
    (stream_decrypt toyHydro toyConfig
      { encrypt := 0, password := [0], key := [2, 2, 2, 2], sizeof_buf := 9 } 0
      ⟨(stream_encrypt toyHydro toyConfig
        { encrypt := 1, password := [0], key := [1, 1, 1, 1], sizeof_buf := 9 }
        ⟨[[1, 2, 3], [4]], false⟩ ⟨[], none⟩).fd_out.written, false⟩
      ⟨[], none⟩).status = .exited (.decryptFailed 0) :=
  (C10_wrong_password toyHydro toyConfig
    { encrypt := 1, password := [1], key := [], sizeof_buf := 0 }
    { encrypt := 0, password := [2], key := [], sizeof_buf := 0 }
    { encrypt := 1, password := [0], key := [1, 1, 1, 1], sizeof_buf := 0 }
    { encrypt := 0, password := [0], key := [2, 2, 2, 2], sizeof_buf := 0 }
    rfl rfl 9 (by decide) (toy_roundTrips _).encrypts
    (toy_rejects_other_key _ _ (by decide)) [[1, 2, 3], [4]] (by decide) 0 false
    ⟨[], none⟩).2.2.1

/-! ## Flipping a bit -/

theorem length_flipBit (l : List Byte) : ∀ pos, (flipBit l pos).length = l.length := by
  induction l with
  | nil => intro pos; rfl
  | cons x xs ih =>
    intro pos
    unfold flipBit
    split
    · rfl
    · simp only [List.length_cons, ih]

theorem flipBit_append_left (a b : List Byte) :
    ∀ pos, pos < 8 * a.length → flipBit (a ++ b) pos = flipBit a pos ++ b := by
  induction a with
  | nil => intro pos h; simp at h
  | cons x xs ih =>
    intro pos h
    simp only [List.cons_append, flipBit]
    split
    · rfl
    · simp only [List.cons_append, List.cons.injEq, true_and]
      apply ih
      simp only [List.length_cons] at h
      omega

theorem flipBit_append_right (a b : List Byte) :
    ∀ pos, flipBit (a ++ b) (8 * a.length + pos) = a ++ flipBit b pos := by
  induction a with
  | nil => intro pos; simp
  | cons x xs ih =>
    intro pos
    have e : 8 * (xs.length + 1) + pos - 8 = 8 * xs.length + pos := by omega
    rw [List.cons_append, flipBit, List.length_cons, if_neg (by omega), e, ih, List.cons_append]

/-- The chunks before a position of a valid stream are pieces of the
plaintext, and the chunk at that position is one too, or the terminal
chunk. -/
theorem split_fits (hy : Hydro) (ctx : Context) (pieces pre post : List (List Byte))
    (m : List Byte) (hp : Fits hy ctx pieces) (hsplit : pieces ++ [[]] = pre ++ m :: post) :
    Fits hy ctx pre ∧ pre.length ≤ pieces.length ∧
      m.length ≤ ctx.sizeof_buf - 4 - hy.secretbox_HEADERBYTES := by
  rcases List.append_eq_append_iff.mp hsplit with ⟨a, h1, h2⟩ | ⟨c, h1, h2⟩
  · -- `pre = pieces ++ a` and `[[]] = a ++ m :: post`
    cases a with
    | nil =>
      simp only [List.nil_append, List.cons.injEq] at h2
      obtain ⟨hm, _⟩ := h2
      subst hm
      simp only [List.append_nil] at h1
      subst h1
      exact ⟨hp, Nat.le_refl _, Nat.zero_le _⟩
    | cons x xs =>
      simp only [List.cons_append, List.cons.injEq] at h2
      obtain ⟨_, h3⟩ := h2
      have := congrArg List.length h3
      simp only [List.length_nil, List.length_append, List.length_cons] at this
      omega
  · -- `pieces = pre ++ c` and `m :: post = c ++ [[]]`
    cases c with
    | nil =>
      simp only [List.nil_append, List.cons.injEq] at h2
      obtain ⟨hm, _⟩ := h2
      subst hm
      simp only [List.append_nil] at h1
      subst h1
      exact ⟨hp, Nat.le_refl _, Nat.zero_le _⟩
    | cons x xs =>
      simp only [List.cons_append, List.cons.injEq] at h2
      obtain ⟨hm, _⟩ := h2
      subst hm
      subst h1
      refine ⟨fun p h => hp p (List.mem_append_left _ h), by simp, ?_⟩
      exact (hp m (List.mem_append_right _ (List.mem_cons_self _ _))).2

/-- C4: tamper detection.  Take a valid stream (usable buffer, pieces that
fit, fewer than `2^64` of them), any chunk of it, data or terminal: `pre` are
the chunks before it, so its index is `|pre|`, and `m` is its plaintext.  Flip
any one bit `j` of its authenticated payload (the `H + |m|` bytes after its
length prefix).  If the primitive rejects the modified payload under the same
key, context and id, then `stream_decrypt` fails with the authentication
failure of chunk `|pre|`, and the bytes it wrote are exactly the plaintexts of
the chunks before it. -/
theorem C4_tamper_detection (hy : Hydro) (cfg : Config) (ctx : Context) (hU : Usable hy ctx)
    (hRT : RoundTrips hy cfg ctx.key) (pieces : List (List Byte)) (hp : Fits hy ctx pieces)
    (hn : pieces.length < 2 ^ 64) (pre post : List (List Byte)) (m : List Byte)
    (hsplit : pieces ++ [[]] = pre ++ m :: post) (j : Nat)
    (hj : j < 8 * (hy.secretbox_HEADERBYTES + m.length))
    (hrej : ∀ c, hy.secretbox_encrypt m pre.length cfg.HYDRO_CONTEXT ctx.key = some c →
      hy.secretbox_decrypt (flipBit c j) pre.length cfg.HYDRO_CONTEXT ctx.key = none)
    (junk : Int) (b : Bool) (out : Sink) (hroom : out.room = none) :
    let S := (stream_encrypt hy cfg ctx ⟨pieces, false⟩ ⟨[], none⟩).fd_out.written
    let off := (pre.map (fun p => 4 + hy.secretbox_HEADERBYTES + p.length)).sum + 4
    let r := stream_decrypt hy cfg ctx junk ⟨flipBit S (8 * off + j), b⟩ out
    r.status = .exited (.decryptFailed pre.length) ∧
      r.fd_out.written = out.written ++ pre.flatten := by
  intro S off r
  have hE := hRT.encrypts
  obtain ⟨hpre, hprelen, hm⟩ := split_fits hy ctx pieces pre post m hp hsplit
  have hid : idAfter 0 pre = pre.length := by
    rw [idAfter_zero]; exact Nat.mod_eq_of_lt (by omega)
  obtain ⟨hc, hclen⟩ := length_payload hy cfg ctx.key hE m pre.length
  have hS : S = wire hy cfg ctx.key 0 pre ++ (STORE32_LE m.length ++
      (payload hy cfg ctx.key (pre.length, m) ++
        wire hy cfg ctx.key ((pre.length + 1) % 2 ^ 64) post)) := by
    show (stream_encrypt hy cfg ctx ⟨pieces, false⟩ ⟨[], none⟩).fd_out.written = _
    rw [stream_encrypt_fits hy cfg ctx hU hE pieces hp ⟨[], none⟩ rfl]
    simp only [List.nil_append]
    rw [hsplit, wire_append, hid, wire_cons, frame, List.append_assoc]
  have hoff : 8 * off + j = 8 * (wire hy cfg ctx.key 0 pre).length
      + (8 * (STORE32_LE m.length).length + j) := by
    show 8 * ((pre.map (fun p => 4 + hy.secretbox_HEADERBYTES + p.length)).sum + 4) + j = _
    rw [length_wire hy cfg ctx.key hE, length_STORE32_LE]
    omega
  have hflip : flipBit S (8 * off + j) = wire hy cfg ctx.key 0 pre ++ (STORE32_LE m.length ++
      (flipBit (payload hy cfg ctx.key (pre.length, m)) j ++
        wire hy cfg ctx.key ((pre.length + 1) % 2 ^ 64) post)) := by
    rw [hS, hoff, flipBit_append_right, flipBit_append_right,
      flipBit_append_left _ _ _ (by rw [hclen]; exact hj)]
  have hbound := hU.2.1
  have hmax : ((m.length : Nat) : Int) ≤ max_chunk_size hy ctx := by
    rw [max_chunk_size_eq hy ctx hU]
    exact_mod_cast hm
  have h32 : m.length < 2 ^ 32 := by omega
  have hlen : (flipBit (payload hy cfg ctx.key (pre.length, m)) j).length
      = m.length + hy.secretbox_HEADERBYTES := by
    rw [length_flipBit, hclen, Nat.add_comm]
  have hr : r = ⟨.exited (.decryptFailed pre.length),
      ⟨wire hy cfg ctx.key ((pre.length + 1) % 2 ^ 64) post, b⟩,
      ⟨out.written ++ pre.flatten, none⟩,
      (stamp 0 pre).map (fun im => (im.1, payload hy cfg ctx.key im))
        ++ [(pre.length, flipBit (payload hy cfg ctx.key (pre.length, m)) j)]⟩ := by
    show stream_decrypt hy cfg ctx junk ⟨flipBit S (8 * off + j), b⟩ out = _
    rw [hflip, stream_decrypt_chunks hy cfg ctx hU hRT pre hpre _ b junk out hroom, hid,
      decrypt_loop_frame hy cfg ctx.key _ _ m.length _ _ b _ _ _ _ h32 hmax hlen]
    simp only [hrej _ hc]
  rw [hr]
  exact ⟨rfl, rfl⟩

/-- Bit 17 of the payload of chunk 1 flipped in the stream of `1 2 3`, `4`. -/
theorem C4_tamper_detection_witness :
    (stream_decrypt toyHydro toyConfig toyContext 0
      ⟨flipBit (stream_encrypt toyHydro toyConfig toyContext ⟨[[1, 2, 3], [4]], false⟩
        ⟨[], none⟩).fd_out.written
        (8 * (([[1, 2, 3]].map (fun p => 4 + toyHydro.secretbox_HEADERBYTES + p.length)).sum + 4)
          + 17), false⟩ ⟨[], none⟩).status = .exited (.decryptFailed 1) ∧
    (stream_decrypt toyHydro toyConfig toyContext 0
      ⟨flipBit (stream_encrypt toyHydro toyConfig toyContext ⟨[[1, 2, 3], [4]], false⟩
        ⟨[], none⟩).fd_out.written
        (8 * (([[1, 2, 3]].map (fun p => 4 + toyHydro.secretbox_HEADERBYTES + p.length)).sum + 4)
          + 17), false⟩ ⟨[], none⟩).fd_out.written = [] ++ [[1, 2, 3]].flatten :=
  C4_tamper_detection toyHydro toyConfig toyContext toy_usable (toy_roundTrips _)
    [[1, 2, 3], [4]] (by decide) (by decide) [[1, 2, 3]] [[]] [4] rfl 17 (by decide)
    (by intro c hc; cases hc; decide) 0 false ⟨[], none⟩ rfl

/-- One iteration of the decryption loop on a chunk whose payload is cut
short (or ends in a read error). -/
theorem decrypt_loop_short (hy : Hydro) (cfg : Config) (key : List Byte) (max : Int)
    (fuel : Nat) (header rest : List Byte) (h4 : header.length = 4) (b : Bool) (out : Sink)
    (i : Nat) (cs : Int) (calls : List (Nat × List Byte))
    (hsmall : ((LOAD32_LE header : Nat) : Int) ≤ max)
    (hshort : rest.length < LOAD32_LE header + hy.secretbox_HEADERBYTES) :
    decrypt_loop hy cfg key max (fuel + 1) ⟨header ++ rest, b⟩ out i cs calls =
      ⟨.exited (.chunkTooShort ((LOAD32_LE header : Nat) : Int)), ⟨[], b⟩, out, calls⟩ := by
  have hr : safe_read ⟨header ++ rest, b⟩ 4 = (some header, ⟨rest, b⟩) := by
    rw [← h4]; exact safe_read_body header rest b _ rfl
  have h64 : LOAD32_LE header < 2 ^ 64 := by have := LOAD32_LE_lt header; omega
  rw [decrypt_loop, hr]
  dsimp only
  rw [if_pos h4, if_neg (not_lt.mpr hsmall), toSize_natCast _ h64]
  cases b with
  | true =>
    have hb : safe_read ⟨rest, true⟩ (LOAD32_LE header + hy.secretbox_HEADERBYTES)
        = (none, ⟨[], true⟩) := by
      simp [safe_read, Nat.not_le.mpr hshort]
    rw [hb]
  | false =>
    have hb : safe_read ⟨rest, false⟩ (LOAD32_LE header + hy.secretbox_HEADERBYTES)
        = (some rest, ⟨[], false⟩) := by
      simp [safe_read, Nat.not_le.mpr hshort]
    rw [hb]
    dsimp only
    rw [if_pos]
    intro h
    have : rest.length = LOAD32_LE header + hy.secretbox_HEADERBYTES := by exact_mod_cast h
    omega

/-- C12: truncated chunk.  At any iteration of the loop of `stream_decrypt`,
when the length prefix declares `L ≤ max_chunk_size` and fewer than `L + H`
payload bytes are left (before a clean end of input or a read error), the run
ends with the error "Chunk too short" for `L`; the log of primitive calls and
the output are as they were before the chunk, so the primitive is not called
on it and no byte is written for it.  With a usable buffer `stream_decrypt` is
this loop from chunk id 0. -/
theorem C12_truncated_chunk (hy : Hydro) (cfg : Config) (ctx : Context) (fuel : Nat)
    (b0 b1 b2 b3 : Byte) (rest : List Byte) (b : Bool) (out : Sink) (i : Nat) (cs : Int)
    (calls : List (Nat × List Byte))
    (hL : ((LOAD32_LE [b0, b1, b2, b3] : Nat) : Int) ≤ max_chunk_size hy ctx)
    (hshort : rest.length < LOAD32_LE [b0, b1, b2, b3] + hy.secretbox_HEADERBYTES) :
    decrypt_loop hy cfg ctx.key (max_chunk_size hy ctx) (fuel + 1)
        ⟨b0 :: b1 :: b2 :: b3 :: rest, b⟩ out i cs calls
      = ⟨.exited (.chunkTooShort ((LOAD32_LE [b0, b1, b2, b3] : Nat) : Int)), ⟨[], b⟩, out,
          calls⟩ ∧
    (Fatal.chunkTooShort ((LOAD32_LE [b0, b1, b2, b3] : Nat) : Int)).stderr
      = "Chunk too short ([" ++ toString ((LOAD32_LE [b0, b1, b2, b3] : Nat) : Int)
          ++ "] bytes expected)\n" ∧
    (Usable hy ctx →
      stream_decrypt hy cfg ctx cs ⟨b0 :: b1 :: b2 :: b3 :: rest, b⟩ out
        = decrypt_loop hy cfg ctx.key (max_chunk_size hy ctx) (rest.length + 4 + 1)
            ⟨b0 :: b1 :: b2 :: b3 :: rest, b⟩ out 0 cs []) := by
  refine ⟨?_, rfl, fun hU => stream_decrypt_usable hy cfg ctx hU cs _ out⟩
  have := decrypt_loop_short hy cfg ctx.key (max_chunk_size hy ctx) fuel [b0, b1, b2, b3] rest
    rfl b out i cs calls hL hshort
  simpa only [List.cons_append, List.nil_append] using this

/-- A chunk of declared length 2 with three of its four payload bytes. -/
theorem C12_truncated_chunk_witness :
    stream_decrypt toyHydro toyConfig toyContext 0 ⟨[2, 0, 0, 0, 9, 9, 9], false⟩ ⟨[], none⟩
      = ⟨.exited (.chunkTooShort 2), ⟨[], false⟩, ⟨[], none⟩, []⟩ :=
  have h := C12_truncated_chunk toyHydro toyConfig toyContext 6 2 0 0 0 [9, 9, 9] false
    ⟨[], none⟩ 0 0 [] (by decide) (by decide)
  (h.2.2 toy_usable).trans h.1

/-- One iteration of the decryption loop on an authentic chunk of declared
length 0. -/
theorem decrypt_loop_terminal (hy : Hydro) (cfg : Config) (key : List Byte) (max : Int)
    (fuel : Nat) (body rest plain : List Byte) (b : Bool) (out : Sink) (i : Nat) (cs : Int)
    (calls : List (Nat × List Byte)) (hmax : 0 ≤ max)
    (hlen : body.length = hy.secretbox_HEADERBYTES)
    (hd : hy.secretbox_decrypt body i cfg.HYDRO_CONTEXT key = some plain) :
    decrypt_loop hy cfg key max (fuel + 1) ⟨[0, 0, 0, 0] ++ (body ++ rest), b⟩ out i cs calls
      = ⟨.returned 0, ⟨rest, b⟩, out, calls ++ [(i, body)]⟩ := by
  have e : ([0, 0, 0, 0] : List Byte) = STORE32_LE 0 := rfl
  rw [e, decrypt_loop_frame hy cfg key max fuel 0 body rest b out i cs calls (by norm_num)
    (by exact_mod_cast hmax) (by rw [hlen]; simp), hd]
  rfl

/-- C13: the terminal chunk stops decryption.  At any iteration of the loop of
`stream_decrypt` (with a non-negative `max_chunk_size`), when the next chunk
declares length 0 and the primitive accepts its `H` payload bytes, the run
returns 0 at once: the output is unchanged and the input is left right after
the chunk.  Hence for every valid stream `S` (usable buffer, pieces that fit,
round-tripping primitive) and every byte sequence `T`, decrypting `S` followed
by `T` returns 0, leaves `T` unread and writes the plaintext, exactly the
status and output of decrypting `S` alone. -/
theorem C13_terminal_chunk_stops (hy : Hydro) (cfg : Config) (ctx : Context)
    (hU : Usable hy ctx) (hRT : RoundTrips hy cfg ctx.key) (pieces : List (List Byte))
    (hp : Fits hy ctx pieces) (T : List Byte) (junk : Int) (b : Bool) (out : Sink)
    (hroom : out.room = none) :
    (∀ (fuel : Nat) (body rest plain : List Byte) (b1 : Bool) (out1 : Sink) (i : Nat) (cs : Int)
      (calls : List (Nat × List Byte)), body.length = hy.secretbox_HEADERBYTES →
      hy.secretbox_decrypt body i cfg.HYDRO_CONTEXT ctx.key = some plain →
      decrypt_loop hy cfg ctx.key (max_chunk_size hy ctx) (fuel + 1)
          ⟨[0, 0, 0, 0] ++ (body ++ rest), b1⟩ out1 i cs calls
        = ⟨.returned 0, ⟨rest, b1⟩, out1, calls ++ [(i, body)]⟩) ∧
    (stream_decrypt hy cfg ctx junk
      ⟨(stream_encrypt hy cfg ctx ⟨pieces, false⟩ ⟨[], none⟩).fd_out.written ++ T, b⟩ out).status
        = .returned 0 ∧
    (stream_decrypt hy cfg ctx junk
      ⟨(stream_encrypt hy cfg ctx ⟨pieces, false⟩ ⟨[], none⟩).fd_out.written ++ T, b⟩ out).fd_in
        = ⟨T, b⟩ ∧
    (stream_decrypt hy cfg ctx junk
      ⟨(stream_encrypt hy cfg ctx ⟨pieces, false⟩ ⟨[], none⟩).fd_out.written ++ T, b⟩ out).fd_out
        = ⟨out.written ++ pieces.flatten, none⟩ ∧
    (stream_decrypt hy cfg ctx junk
      ⟨(stream_encrypt hy cfg ctx ⟨pieces, false⟩ ⟨[], none⟩).fd_out.written, b⟩ out).status
        = .returned 0 ∧
    (stream_decrypt hy cfg ctx junk
      ⟨(stream_encrypt hy cfg ctx ⟨pieces, false⟩ ⟨[], none⟩).fd_out.written, b⟩ out).fd_out
        = ⟨out.written ++ pieces.flatten, none⟩ := by
  have hmax : 0 ≤ max_chunk_size hy ctx := by
    rw [max_chunk_size_eq hy ctx hU]; exact_mod_cast Nat.zero_le _
  obtain ⟨c, hc, hd⟩ := hRT [] (idAfter 0 pieces)
  have hlen : c.length = hy.secretbox_HEADERBYTES := by
    rw [hy.encrypt_length [] _ _ _ c hc]; simp
  have hpay : payload hy cfg ctx.key (idAfter 0 pieces, []) = c := by simp [payload, hc]
  have hw : wire hy cfg ctx.key (idAfter 0 pieces) [[]] = [0, 0, 0, 0] ++ c := by
    simp only [wire, stamp, frame, hpay, List.map_cons, List.map_nil, List.flatten_cons,
      List.flatten_nil, List.append_nil, List.length_nil]
    rfl
  have key : ∀ R : List Byte, stream_decrypt hy cfg ctx junk
      ⟨(stream_encrypt hy cfg ctx ⟨pieces, false⟩ ⟨[], none⟩).fd_out.written ++ R, b⟩ out
      = ⟨.returned 0, ⟨R, b⟩, ⟨out.written ++ pieces.flatten, none⟩,
          (stamp 0 pieces).map (fun im => (im.1, payload hy cfg ctx.key im))
            ++ [(idAfter 0 pieces, c)]⟩ := by
    intro R
    rw [stream_encrypt_fits hy cfg ctx hU hRT.encrypts pieces hp ⟨[], none⟩ rfl]
    simp only [List.nil_append]
    rw [wire_append, hw, List.append_assoc,
      stream_decrypt_chunks hy cfg ctx hU hRT pieces hp _ b junk out hroom, List.append_assoc,
      decrypt_loop_terminal hy cfg ctx.key _ _ c R [] b _ _ _ _ hmax hlen hd]
  refine ⟨?_, ?_, ?_, ?_, ?_, ?_⟩
  · intro fuel body rest plain b1 out1 i cs calls hl hdd
    exact decrypt_loop_terminal hy cfg ctx.key _ fuel body rest plain b1 out1 i cs calls hmax
      hl hdd
  · rw [key T]
  · rw [key T]
  · rw [key T]
  · have := key []
    rw [List.append_nil] at this
    rw [this]
  · have := key []
    rw [List.append_nil] at this
    rw [this]

/-- The stream of `1 2 3`, `4` followed by the bytes `8 8 8`. -/
theorem C13_terminal_chunk_stops_witness :
    (stream_decrypt toyHydro toyConfig toyContext 0
      ⟨(stream_encrypt toyHydro toyConfig toyContext ⟨[[1, 2, 3], [4]], false⟩
        ⟨[], none⟩).fd_out.written ++ [8, 8, 8], true⟩ ⟨[], none⟩).fd_in = ⟨[8, 8, 8], true⟩ ∧
    (stream_decrypt toyHydro toyConfig toyContext 0
      ⟨(stream_encrypt toyHydro toyConfig toyContext ⟨[[1, 2, 3], [4]], false⟩
        ⟨[], none⟩).fd_out.written ++ [8, 8, 8], true⟩ ⟨[], none⟩).fd_out
      = ⟨[] ++ [[1, 2, 3], [4]].flatten, none⟩ :=
  have h := C13_terminal_chunk_stops toyHydro toyConfig toyContext toy_usable (toy_roundTrips _)
    [[1, 2, 3], [4]] (by decide) [8, 8, 8] 0 true ⟨[], none⟩ rfl
  ⟨h.2.2.1, h.2.2.2.1⟩

theorem length_hydro_memzero (p : List Byte) (len : Nat) :
    (hydro_memzero p len).length = p.length := by
  unfold hydro_memzero
  simp only [List.length_append, List.length_replicate, List.length_drop]
  omega

theorem strlen_le (s : List Byte) : strlen s ≤ s.length := by
  unfold strlen
  exact (List.takeWhile_sublist _).length_le

theorem getD_hydro_memzero (p : List Byte) (len : Nat) (hlen : len ≤ p.length) (j : Nat) :
    (hydro_memzero p len).getD j 0 = if j < len then 0 else p.getD j 0 := by
  unfold hydro_memzero
  rw [Nat.min_eq_left hlen]
  by_cases hj : j < len
  · rw [if_pos hj, List.getD_append _ _ _ _ (by simpa using hj)]
    simp [List.getD_eq_getElem?_getD, hj]
  · rw [if_neg hj, List.getD_append_right _ _ _ _ (by simpa using Nat.le_of_not_lt hj)]
    simp only [List.length_replicate, List.getD_eq_getElem?_getD, List.getElem?_drop]
    congr 2
    omega

/-- C16: password wiping after derivation.  `derive_key` returns exactly when
the password hash succeeds; then `ctx.key` is the result of
`hydro_pwhash_deterministic` on the original `strlen` bytes of the password
with the fixed context, the all-zero master key and the fixed cost parameters;
the password buffer keeps its size, each of its first `strlen` bytes is zero
and the bytes after them are untouched; no other field of the context
changes. -/
theorem C16_password_wiped (hy : Hydro) (cfg : Config) (ctx ctx1 : Context)
    (h : derive_key hy cfg ctx = .ok ctx1) :
    hy.pwhash_deterministic cfg.KEYBYTES (ctx.password.take (strlen ctx.password))
      cfg.HYDRO_CONTEXT (List.replicate hy.pwhash_MASTERKEYBYTES 0) cfg.PWHASH_OPSLIMIT
      cfg.PWHASH_MEMLIMIT cfg.PWHASH_THREADS = some ctx1.key ∧
    ctx1.password.length = ctx.password.length ∧
    (∀ j, j < strlen ctx.password → ctx1.password.getD j 1 = 0) ∧
    (∀ j, strlen ctx.password ≤ j → ctx1.password.getD j 0 = ctx.password.getD j 0) ∧
    ctx1.encrypt = ctx.encrypt ∧ ctx1.sizeof_buf = ctx.sizeof_buf ∧
    ctx1 = { ctx with key := ctx1.key, password := ctx1.password } := by
  unfold derive_key at h
  dsimp only at h
  split at h
  · simp at h
  · rename_i key hkey
    simp only [Except.ok.injEq] at h
    subst h
    have hle := strlen_le ctx.password
    refine ⟨hkey, length_hydro_memzero _ _, ?_, ?_, rfl, rfl, rfl⟩
    · intro j hj
      have hlen : j < (hydro_memzero ctx.password (strlen ctx.password)).length := by
        rw [length_hydro_memzero]; omega
      have := getD_hydro_memzero ctx.password _ hle j
      rw [if_pos hj] at this
      rw [List.getD_eq_getElem _ _ hlen]
      rw [List.getD_eq_getElem _ _ hlen] at this
      exact this
    · intro j hj
      have := getD_hydro_memzero ctx.password _ hle j
      rw [if_neg (by omega)] at this
      exact this

/-- The password `5 6` (followed by its NUL and two more bytes of memory). -/
theorem C16_password_wiped_witness :
    derive_key toyHydro toyConfig
        { encrypt := 1, password := [5, 6, 0, 8, 8], key := [], sizeof_buf := 9 }
      = .ok { encrypt := 1, password := [0, 0, 0, 8, 8], key := [11, 11, 11, 11],
              sizeof_buf := 9 } ∧
    toyHydro.pwhash_deterministic toyConfig.KEYBYTES [5, 6] toyConfig.HYDRO_CONTEXT
      (List.replicate toyHydro.pwhash_MASTERKEYBYTES 0) toyConfig.PWHASH_OPSLIMIT
      toyConfig.PWHASH_MEMLIMIT toyConfig.PWHASH_THREADS = some [11, 11, 11, 11] :=
  ⟨rfl, (C16_password_wiped toyHydro toyConfig
    { encrypt := 1, password := [5, 6, 0, 8, 8], key := [], sizeof_buf := 9 }
    { encrypt := 1, password := [0, 0, 0, 8, 8], key := [11, 11, 11, 11], sizeof_buf := 9 }
    rfl).1⟩

/-- C20: ciphertext size.  With a usable buffer, on a feed whose reads are all
non-empty until the end of input, `stream_encrypt` makes `n` data chunks and
one terminal chunk and writes `|P| + (n + 1) * (4 + H)` bytes in all; when the
plaintext `P` arrives in one piece, so that every read returns the full
requested amount while data remains, `n = ceil (|P| / max_chunk_size)`; in
particular a plaintext of `q * max_chunk_size` bytes, `q > 0`, makes `q` data
chunks and is followed by a terminal chunk of its own, `4 + H` bytes more. -/
theorem C20_ciphertext_size (hy : Hydro) (cfg : Config) (ctx : Context) (hU : Usable hy ctx)
    (hE : Encrypts hy cfg ctx.key) (pieces : List (List Byte)) (hne : ∀ p ∈ pieces, p ≠ [])
    (out : Sink) (hroom : out.room = none) :
    let r := stream_encrypt hy cfg ctx ⟨pieces, false⟩ out
    let M := ctx.sizeof_buf - 4 - hy.secretbox_HEADERBYTES
    let n := r.sent.dropLast.length
    r.sent = r.sent.dropLast ++ [[]] ∧
    r.fd_out.written.length
      = out.written.length + (pieces.flatten.length + (n + 1) * (4 + hy.secretbox_HEADERBYTES)) ∧
    (∀ P, pieces = [P] → n = (P.length + M - 1) / M) ∧
    (∀ P q, pieces = [P] → 0 < q → P.length = q * M →
      n = q ∧
      r.fd_out.written.length
        = out.written.length + (q * (4 + hy.secretbox_HEADERBYTES + M)
            + (4 + hy.secretbox_HEADERBYTES))) := by
  intro r M n
  have hM1 : 1 ≤ M := by have := hU.1; omega
  have hr : r = _ := stream_encrypt_spec hy cfg ctx hU hE pieces out hroom hne
  have hflat := reads_flatten M hM1 (pieces.flatten.length + 1) pieces hne (Nat.le_succ _)
  have hsent : r.sent = reads M (pieces.flatten.length + 1) pieces ++ [[]] := by
    rw [hr]
    exact map_snd_stamp _ 0
  have hdrop : r.sent.dropLast = reads M (pieces.flatten.length + 1) pieces := by
    rw [hsent, List.dropLast_concat]
  have hn : n = (reads M (pieces.flatten.length + 1) pieces).length := by
    show r.sent.dropLast.length = _
    rw [hdrop]
  have hsum : ∀ rs : List (List Byte),
      (rs.map (fun m => 4 + hy.secretbox_HEADERBYTES + m.length)).sum
        = rs.flatten.length + rs.length * (4 + hy.secretbox_HEADERBYTES) := by
    intro rs
    induction rs with
    | nil => simp
    | cons x xs ih =>
      simp only [List.map_cons, List.sum_cons, ih, List.flatten_cons, List.length_append,
        List.length_cons, Nat.succ_mul]
      omega
  have hlen : r.fd_out.written.length = out.written.length
      + (pieces.flatten.length + (n + 1) * (4 + hy.secretbox_HEADERBYTES)) := by
    rw [hr]
    simp only [List.length_append]
    rw [length_wire hy cfg ctx.key hE, hsum, List.flatten_append, List.length_append, hflat,
      List.length_append, ← hn]
    simp
  have hceil : ∀ P, pieces = [P] → n = (P.length + M - 1) / M := by
    intro P hP
    subst hP
    rw [hn]
    exact (reads_single M hM1 ([P].flatten.length + 1) P (hne P (List.mem_cons_self _ _))
      (by simp)).1
  refine ⟨by rw [hdrop, hsent], hlen, hceil, ?_⟩
  intro P q hP hq hPq
  have hnq : n = q := by
    rw [hceil P hP, hPq]
    have e : q * M + M - 1 = (M - 1) + M * q := by
      have := Nat.mul_comm q M
      omega
    rw [e, Nat.add_mul_div_left _ _ (by omega : 0 < M),
      Nat.div_eq_of_lt (by omega : M - 1 < M)]
    omega
  refine ⟨hnq, ?_⟩
  have hPlen : pieces.flatten.length = q * M := by
    rw [hP]
    simpa using hPq
  rw [hlen, hnq, hPlen]
  congr 1
  generalize 4 + hy.secretbox_HEADERBYTES = K
  rw [Nat.succ_mul, Nat.mul_add]
  omega

/-- Six bytes in one piece with `max_chunk_size = 3`: two data chunks and the
terminal chunk, `6 + 3 * 6 = 24` bytes. -/
theorem C20_ciphertext_size_witness :
    (stream_encrypt toyHydro toyConfig toyContext ⟨[[1, 2, 3, 4, 5, 6]], false⟩
      ⟨[], none⟩).sent.dropLast.length = 2 ∧
    (stream_encrypt toyHydro toyConfig toyContext ⟨[[1, 2, 3, 4, 5, 6]], false⟩
      ⟨[], none⟩).fd_out.written.length
      = ([] : List Byte).length + (2 * (4 + toyHydro.secretbox_HEADERBYTES
          + (toyContext.sizeof_buf - 4 - toyHydro.secretbox_HEADERBYTES))
          + (4 + toyHydro.secretbox_HEADERBYTES)) :=
  (C20_ciphertext_size toyHydro toyConfig toyContext toy_usable (toy_roundTrips _).encrypts
    [[1, 2, 3, 4, 5, 6]] (by decide) ⟨[], none⟩ rfl).2.2.2 [1, 2, 3, 4, 5, 6] 2 rfl
      (by decide) (by decide)

theorem string_append_cancel (p a b : String) (h : p ++ a = p ++ b) : a = b := by
  have := congrArg String.data h
  simp only [String.data_append] at this
  exact String.ext (List.append_cancel_left this)

theorem stderr_decryptFailed (k : Nat) :
    (Fatal.decryptFailed k).stderr = "Unable to decrypt chunk #" ++ toString k ++ " - " ++
      (if k = 0 then "Wrong password or key?\n" else "Corrupted or incomplete file?\n") := rfl

/-- A rejected primitive call ends the run with the authentication failure of
its chunk. -/
theorem decrypt_loop_rejected (hy : Hydro) (cfg : Config) (key : List Byte) (max : Int) :
    ∀ (fuel : Nat) (fd_in : Source) (fd_out : Sink) (i : Nat) (cs : Int)
      (calls : List (Nat × List Byte)) (k : Nat) (x : List Byte),
      (k, x) ∈ (decrypt_loop hy cfg key max fuel fd_in fd_out i cs calls).calls →
      hy.secretbox_decrypt x k cfg.HYDRO_CONTEXT key = none →
      (k, x) ∈ calls ∨
        (decrypt_loop hy cfg key max fuel fd_in fd_out i cs calls).status
          = .exited (.decryptFailed k) := by
  intro fuel
  induction fuel with
  | zero => intro fd_in fd_out i cs calls k x h _; exact Or.inl (by simpa [decrypt_loop] using h)
  | succ fuel ih =>
    intro fd_in fd_out i cs calls k x
    rw [decrypt_loop]
    rcases hr : safe_read fd_in 4 with ⟨_ | header, fd1⟩
    · exact fun h _ => Or.inl h
    · dsimp only
      by_cases h4 : header.length = 4
      · rw [if_pos h4]
        by_cases hbig : ((LOAD32_LE header : Nat) : Int) > max
        · rw [if_pos hbig]; exact fun h _ => Or.inl h
        · rw [if_neg hbig]
          rcases hb : safe_read fd1 (toSize ((LOAD32_LE header : Nat) : Int)
            + hy.secretbox_HEADERBYTES) with ⟨_ | body, fd2⟩
          · exact fun h _ => Or.inl h
          · dsimp only
            by_cases hsh : (body.length : Int)
                ≠ ((LOAD32_LE header : Nat) : Int) + hy.secretbox_HEADERBYTES
            · rw [if_pos hsh]; exact fun h _ => Or.inl h
            · rw [if_neg hsh]
              have old : ∀ plain, hy.secretbox_decrypt body i cfg.HYDRO_CONTEXT key = some plain →
                  (k, x) ∈ calls ++ [(i, body)] →
                  hy.secretbox_decrypt x k cfg.HYDRO_CONTEXT key = none → (k, x) ∈ calls := by
                intro plain hd hm hx
                rcases List.mem_append.mp hm with h | h
                · exact h
                · simp only [List.mem_singleton, Prod.mk.injEq] at h
                  obtain ⟨h1, h2⟩ := h
                  subst h1 h2
                  rw [hd] at hx
                  exact absurd hx (by simp)
              rcases hd : hy.secretbox_decrypt body i cfg.HYDRO_CONTEXT key with _ | plain
              · dsimp only
                intro hm _
                rcases List.mem_append.mp hm with h | h
                · exact Or.inl h
                · simp only [List.mem_singleton, Prod.mk.injEq] at h
                  rw [h.1]
                  exact Or.inr rfl
              · dsimp only
                by_cases h0 : ((LOAD32_LE header : Nat) : Int) = 0
                · rw [if_pos h0]
                  exact fun hm hx => Or.inl (old plain hd hm hx)
                · rw [if_neg h0]
                  rcases hw : safe_write fd_out plain with ⟨_ | _, o⟩
                  · exact fun hm hx => Or.inl (old plain hd hm hx)
                  · dsimp only
                    intro hm hx
                    rcases ih fd2 o _ _ _ k x hm hx with h | h
                    · exact Or.inl (old plain hd h hx)
                    · exact Or.inr h
      · rw [if_neg h4]
        by_cases hc : cs ≠ 0
        · rw [if_pos hc]; exact fun h _ => Or.inl h
        · rw [if_neg hc]; exact fun h _ => Or.inl h

/-- The authentication failure of chunk `k` is reported only right after the
primitive rejected a call with id `k`. -/
theorem decrypt_loop_decryptFailed (hy : Hydro) (cfg : Config) (key : List Byte) (max : Int) :
    ∀ (fuel : Nat) (fd_in : Source) (fd_out : Sink) (i : Nat) (cs : Int)
      (calls : List (Nat × List Byte)) (k : Nat),
      (decrypt_loop hy cfg key max fuel fd_in fd_out i cs calls).status
        = .exited (.decryptFailed k) →
      ∃ x, (decrypt_loop hy cfg key max fuel fd_in fd_out i cs calls).calls.getLast?
          = some (k, x) ∧ hy.secretbox_decrypt x k cfg.HYDRO_CONTEXT key = none := by
  intro fuel
  induction fuel with
  | zero => intro fd_in fd_out i cs calls k h; simp [decrypt_loop] at h
  | succ fuel ih =>
    intro fd_in fd_out i cs calls k
    rw [decrypt_loop]
    rcases hr : safe_read fd_in 4 with ⟨_ | header, fd1⟩
    · simp
    · dsimp only
      by_cases h4 : header.length = 4
      · rw [if_pos h4]
        by_cases hbig : ((LOAD32_LE header : Nat) : Int) > max
        · rw [if_pos hbig]; simp
        · rw [if_neg hbig]
          rcases hb : safe_read fd1 (toSize ((LOAD32_LE header : Nat) : Int)
            + hy.secretbox_HEADERBYTES) with ⟨_ | body, fd2⟩
          · simp
          · dsimp only
            by_cases hsh : (body.length : Int)
                ≠ ((LOAD32_LE header : Nat) : Int) + hy.secretbox_HEADERBYTES
            · rw [if_pos hsh]; simp
            · rw [if_neg hsh]
              rcases hd : hy.secretbox_decrypt body i cfg.HYDRO_CONTEXT key with _ | plain
              · dsimp only
                intro h
                simp only [Status.exited.injEq, Fatal.decryptFailed.injEq] at h
                subst h
                exact ⟨body, by simp, hd⟩
              · dsimp only
                by_cases h0 : ((LOAD32_LE header : Nat) : Int) = 0
                · rw [if_pos h0]; simp
                · rw [if_neg h0]
                  rcases hw : safe_write fd_out plain with ⟨_ | _, o⟩
                  · simp
                  · dsimp only
                    exact ih fd2 o _ _ _ k
      · rw [if_neg h4]
        by_cases hc : cs ≠ 0
        · rw [if_pos hc]; simp
        · rw [if_neg hc]; simp

/-- C15: authentication-failure diagnostic.  In every run of `stream_decrypt`:
when the primitive rejects the chunk with index `k` the run exits with the
authentication failure of chunk `k`, and it exits so only then; the text
printed for it is "Unable to decrypt chunk #k - " followed by "Wrong password
or key?" if and only if `k = 0`, and by "Corrupted or incomplete file?" if and
only if `k > 0`. -/
theorem C15_auth_failure_diagnostic (hy : Hydro) (cfg : Config) (ctx : Context) (junk : Int)
    (fd_in : Source) (fd_out : Sink) (k : Nat) :
    (∀ x, (k, x) ∈ (stream_decrypt hy cfg ctx junk fd_in fd_out).calls →
      hy.secretbox_decrypt x k cfg.HYDRO_CONTEXT ctx.key = none →
      (stream_decrypt hy cfg ctx junk fd_in fd_out).status = .exited (.decryptFailed k)) ∧
    ((stream_decrypt hy cfg ctx junk fd_in fd_out).status = .exited (.decryptFailed k) →
      ∃ x, (stream_decrypt hy cfg ctx junk fd_in fd_out).calls.getLast? = some (k, x) ∧
        hy.secretbox_decrypt x k cfg.HYDRO_CONTEXT ctx.key = none) ∧
    ((Fatal.decryptFailed k).stderr
        = "Unable to decrypt chunk #" ++ toString k ++ " - " ++ "Wrong password or key?\n"
      ↔ k = 0) ∧
    ((Fatal.decryptFailed k).stderr
        = "Unable to decrypt chunk #" ++ toString k ++ " - " ++ "Corrupted or incomplete file?\n"
      ↔ 0 < k) := by
  refine ⟨?_, ?_, ?_, ?_⟩
  · intro x hx hd
    unfold stream_decrypt at hx ⊢
    split
    · rename_i h; rw [if_pos h] at hx; simp at hx
    · rename_i h
      rw [if_neg h] at hx
      split
      · rename_i h2; rw [if_pos h2] at hx; simp at hx
      · rename_i h2
        rw [if_neg h2] at hx
        rcases decrypt_loop_rejected hy cfg ctx.key _ _ _ _ _ _ _ k x hx hd with h3 | h3
        · simp at h3
        · exact h3
  · intro hs
    unfold stream_decrypt at hs ⊢
    split
    · rename_i h; rw [if_pos h] at hs; simp at hs
    · rename_i h
      rw [if_neg h] at hs
      split
      · rename_i h2; rw [if_pos h2] at hs; simp at hs
      · rename_i h2
        rw [if_neg h2] at hs
        exact decrypt_loop_decryptFailed hy cfg ctx.key _ _ _ _ _ _ _ k hs
  · rw [stderr_decryptFailed]
    constructor
    · intro h
      by_contra hk
      rw [if_neg hk] at h
      exact absurd (string_append_cancel _ _ _ h) (by decide)
    · intro hk
      rw [if_pos hk]
  · rw [stderr_decryptFailed]
    constructor
    · intro h
      by_contra hk
      rw [if_pos (by omega)] at h
      exact absurd (string_append_cancel _ _ _ h) (by decide)
    · intro hk
      rw [if_neg (by omega)]

/-- A stream whose second chunk is corrupted: the text names chunk 1 and
suggests a corrupted file. -/
theorem C15_auth_failure_diagnostic_witness :
    (stream_decrypt toyHydro toyConfig toyContext 0
      ⟨[3, 0, 0, 0, 6, 64, 1, 2, 3, 1, 0, 0, 0, 5, 65, 4], false⟩ ⟨[], none⟩).status
      = .exited (.decryptFailed 1) ∧
    (Fatal.decryptFailed 1).stderr
      = "Unable to decrypt chunk #" ++ toString 1 ++ " - " ++ "Corrupted or incomplete file?\n" :=
  have h := C15_auth_failure_diagnostic toyHydro toyConfig toyContext 0
    ⟨[3, 0, 0, 0, 6, 64, 1, 2, 3, 1, 0, 0, 0, 5, 65, 4], false⟩ ⟨[], none⟩ 1
  ⟨h.1 [5, 65, 4] (by decide) (by decide), h.2.2.2.mpr (by decide)⟩

theorem usable_of_accepted (hy : Hydro) (ctx : Context) (h : Accepted hy ctx)
    (h64 : ctx.sizeof_buf < 2 ^ 64)
    (h63 : ctx.sizeof_buf - 4 - hy.secretbox_HEADERBYTES < 2 ^ 63) : Usable hy ctx := by
  obtain ⟨h1, h2⟩ := h
  rw [Nat.mod_eq_of_lt h64] at h1
  have e : max_chunk_size hy ctx
      = ((ctx.sizeof_buf - 4 - hy.secretbox_HEADERBYTES : Nat) : Int) := by
    unfold max_chunk_size toSsize
    have e1 : (ctx.sizeof_buf + 2 ^ 64 - (4 + hy.secretbox_HEADERBYTES) % 2 ^ 64) % 2 ^ 64
        = ctx.sizeof_buf - 4 - hy.secretbox_HEADERBYTES := by omega
    rw [e1]
    have e2 : (ctx.sizeof_buf - 4 - hy.secretbox_HEADERBYTES) % 2 ^ 64
        = ctx.sizeof_buf - 4 - hy.secretbox_HEADERBYTES := by omega
    rw [e2, if_pos h63]
  rw [e] at h2
  exact ⟨h1, by omega, h64⟩

theorem accepted_of_usable (hy : Hydro) (ctx : Context) (h : Usable hy ctx) :
    Accepted hy ctx := asserts_pass hy ctx h

/-- C17 (as amended): buffer-size guard.  Both stream functions compute
`max_chunk_size` as `sizeof_buf - 4 - H` in `size_t` and keep it in an
`ssize_t`.  For every `sizeof_buf ≤ 4 + H` they abort on their first assertion
with input, output and call log untouched; when both assertions pass they run
their loop with that bound.  The `size_t` subtraction does not wrap once the
first assertion passed, and for every accepted `sizeof_buf` whose
`sizeof_buf - 4 - H` an `ssize_t` can hold (below `2^63`) the computed
`max_chunk_size` is exactly `sizeof_buf - 4 - H`, at least 1 and below
`0x7fffffff`. -/
theorem C17_buffer_size_guard (hy : Hydro) (cfg : Config) (ctx : Context) (fd_in : Feed)
    (src : Source) (junk : Int) (out : Sink) :
    (ctx.sizeof_buf ≤ 4 + hy.secretbox_HEADERBYTES →
      stream_encrypt hy cfg ctx fd_in out = ⟨.exited .assertion, fd_in, out, []⟩ ∧
      stream_decrypt hy cfg ctx junk src out = ⟨.exited .assertion, src, out, []⟩) ∧
    (Accepted hy ctx →
      stream_encrypt hy cfg ctx fd_in out
        = encrypt_loop hy cfg ctx.key (max_chunk_size hy ctx) (fd_in.pieces.flatten.length + 1)
            fd_in out 0 [] ∧
      stream_decrypt hy cfg ctx junk src out
        = decrypt_loop hy cfg ctx.key (max_chunk_size hy ctx) (src.data.length + 1)
            src out 0 junk []) ∧
    (ctx.sizeof_buf < 2 ^ 64 → 4 + hy.secretbox_HEADERBYTES < ctx.sizeof_buf →
      (ctx.sizeof_buf + 2 ^ 64 - (4 + hy.secretbox_HEADERBYTES) % 2 ^ 64) % 2 ^ 64
        = ctx.sizeof_buf - 4 - hy.secretbox_HEADERBYTES) ∧
    (Accepted hy ctx → ctx.sizeof_buf < 2 ^ 64 →
      ctx.sizeof_buf - 4 - hy.secretbox_HEADERBYTES < 2 ^ 63 →
      max_chunk_size hy ctx = ((ctx.sizeof_buf - 4 - hy.secretbox_HEADERBYTES : Nat) : Int) ∧
      1 ≤ max_chunk_size hy ctx ∧ max_chunk_size hy ctx < 0x7fffffff) := by
  refine ⟨?_, ?_, ?_, ?_⟩
  · intro h
    have h1 : ¬ (ctx.sizeof_buf % 2 ^ 64 > 4 + hy.secretbox_HEADERBYTES) := by
      have := Nat.mod_le ctx.sizeof_buf (2 ^ 64)
      omega
    unfold stream_encrypt stream_decrypt
    rw [if_pos h1, if_pos h1]
    exact ⟨rfl, rfl⟩
  · intro h
    unfold stream_encrypt stream_decrypt
    rw [if_neg (not_not.mpr h.1), if_neg (not_not.mpr h.2), if_neg (not_not.mpr h.1),
      if_neg (not_not.mpr h.2)]
    exact ⟨rfl, rfl⟩
  · intro h64 h1
    omega
  · intro hA h64 h63
    have hU := usable_of_accepted hy ctx hA h64 h63
    have e := max_chunk_size_eq hy ctx hU
    refine ⟨e, ?_, hA.2⟩
    rw [e]
    have := hU.1
    omega

/-- A 9-byte buffer with `H = 2`: `max_chunk_size = 3`; a 6-byte buffer is
rejected. -/
theorem C17_buffer_size_guard_witness :
    max_chunk_size toyHydro toyContext
      = ((toyContext.sizeof_buf - 4 - toyHydro.secretbox_HEADERBYTES : Nat) : Int) ∧
    stream_decrypt toyHydro toyConfig { toyContext with sizeof_buf := 6 } 0
      ⟨[0, 0, 0, 0, 0, 64], false⟩ ⟨[], none⟩
      = ⟨.exited .assertion, ⟨[0, 0, 0, 0, 0, 64], false⟩, ⟨[], none⟩, []⟩ :=
  ⟨((C17_buffer_size_guard toyHydro toyConfig toyContext ⟨[], false⟩ ⟨[], false⟩ 0
      ⟨[], none⟩).2.2.2 (by decide) (by decide) (by decide)).1,
    ((C17_buffer_size_guard toyHydro toyConfig { toyContext with sizeof_buf := 6 } ⟨[], false⟩
      ⟨[0, 0, 0, 0, 0, 64], false⟩ 0 ⟨[], none⟩).1 (by decide)).2⟩

/-- C17 as stated fails: a buffer size of `2^63 + 6` passes both assertions
(`H = 2`), the computed `max_chunk_size` is `-2^63`, not at least 1, and
`stream_decrypt` enters its loop, where even a declared length of 0 is above
the bound. -/
theorem C17_accepted_negative_bound :
    Accepted toyHydro hugeContext ∧
    max_chunk_size toyHydro hugeContext = -(2 ^ 63) ∧
    ¬ (1 ≤ max_chunk_size toyHydro hugeContext) ∧
    (stream_decrypt toyHydro toyConfig hugeContext 0 ⟨[0, 0, 0, 0, 0, 64], false⟩
      ⟨[], none⟩).status = .exited (.chunkTooLarge 0 (-(2 ^ 63))) := by
  refine ⟨by decide, by decide, by decide, by decide⟩

/-- Every chunk the encryption loop passes to the primitive is within the
bound given to `safe_read_partial`. -/
theorem encrypt_loop_sent_le (hy : Hydro) (cfg : Config) (key : List Byte) (max : Int) :
    ∀ (fuel : Nat) (fd_in : Feed) (fd_out : Sink) (i : Nat) (calls : List (Nat × List Byte))
      (c : Nat × List Byte),
      c ∈ (encrypt_loop hy cfg key max fuel fd_in fd_out i calls).calls →
      c ∈ calls ∨ c.2.length ≤ toSize max := by
  intro fuel
  induction fuel with
  | zero => intro fd_in fd_out i calls c h; exact Or.inl (by simpa [encrypt_loop] using h)
  | succ fuel ih =>
    intro fd_in fd_out i calls c
    rw [encrypt_loop]
    rcases hr : safe_read_partial fd_in (toSize max) with ⟨_ | chunk, fd1⟩
    · exact fun h => Or.inl h
    · dsimp only
      have hlen : chunk.length ≤ toSize max := by
        unfold safe_read_partial at hr
        split at hr
        · split at hr
          · simp at hr
          · simp only [Prod.mk.injEq, Option.some.injEq] at hr
            rw [← hr.1]
            exact Nat.zero_le _
        · split at hr
          · rename_i hle
            simp only [Prod.mk.injEq, Option.some.injEq] at hr
            rw [← hr.1]
            exact hle
          · simp only [Prod.mk.injEq, Option.some.injEq] at hr
            rw [← hr.1, List.length_take]
            exact Nat.min_le_left _ _
      have new : c ∈ calls ++ [(i, chunk)] → c ∈ calls ∨ c.2.length ≤ toSize max := by
        intro hm
        rcases List.mem_append.mp hm with h | h
        · exact Or.inl h
        · simp only [List.mem_singleton] at h
          subst h
          exact Or.inr hlen
      rcases he : hy.secretbox_encrypt chunk i cfg.HYDRO_CONTEXT key with _ | sealed
      · exact new
      · dsimp only
        rcases hw : safe_write fd_out (STORE32_LE chunk.length ++ sealed) with ⟨_ | _, o⟩
        · exact new
        · dsimp only
          by_cases h0 : chunk.length = 0
          · rw [if_pos h0]; exact new
          · rw [if_neg h0]
            intro hm
            rcases ih fd1 o _ _ c hm with h | h
            · exact new h
            · exact Or.inr h

/-- C18 (as amended): the length prefix is exact.  Under the two assertions
of `stream_encrypt` and with a `sizeof_buf - 4 - H` that an `ssize_t` can hold
(below `2^63`), in every run of `stream_encrypt`, whatever the feed and the
outcome, every chunk has fewer than `2^32` bytes, so the cast to `uint32_t`
loses nothing; `LOAD32_LE` of the four bytes `STORE32_LE` wrote is the number
of plaintext bytes of the chunk; and that number lies between 0 and
`max_chunk_size`, so the oversized-chunk check of `stream_decrypt` with the
same buffer size does not fire on it. -/
theorem C18_length_prefix_exact (hy : Hydro) (cfg : Config) (ctx : Context)
    (hA : Accepted hy ctx) (h64 : ctx.sizeof_buf < 2 ^ 64)
    (h63 : ctx.sizeof_buf - 4 - hy.secretbox_HEADERBYTES < 2 ^ 63) (fd_in : Feed) (out : Sink)
    (c : List Byte) (hc : c ∈ (stream_encrypt hy cfg ctx fd_in out).sent) :
    c.length % 2 ^ 32 = c.length ∧
    LOAD32_LE (STORE32_LE c.length) = c.length ∧
    (0 : Int) ≤ ((LOAD32_LE (STORE32_LE c.length) : Nat) : Int) ∧
    ((LOAD32_LE (STORE32_LE c.length) : Nat) : Int) ≤ max_chunk_size hy ctx ∧
    ¬ (((LOAD32_LE (STORE32_LE c.length) : Nat) : Int) > max_chunk_size hy ctx) := by
  have hU := usable_of_accepted hy ctx hA h64 h63
  have hM := toSize_max_chunk_size hy ctx hU
  have hmax := max_chunk_size_eq hy ctx hU
  have hbound := hU.2.1
  have hlen : c.length ≤ ctx.sizeof_buf - 4 - hy.secretbox_HEADERBYTES := by
    unfold Run.sent at hc
    obtain ⟨ic, hic, hc2⟩ := List.mem_map.mp hc
    rw [stream_encrypt_usable hy cfg ctx hU] at hic
    rcases encrypt_loop_sent_le hy cfg ctx.key _ _ _ _ _ _ ic hic with h | h
    · simp at h
    · rw [hM, hc2] at h
      exact h
  have h32 : c.length < 2 ^ 32 := by omega
  have hload := LOAD32_LE_STORE32_LE c.length h32
  refine ⟨Nat.mod_eq_of_lt h32, hload, by exact_mod_cast Nat.zero_le _, ?_, ?_⟩
  · rw [hload, hmax]
    exact_mod_cast hlen
  · rw [hload, hmax]
    exact not_lt.mpr (by exact_mod_cast hlen)

/-- The second chunk of seven bytes read with a 9-byte buffer has 3 bytes. -/
theorem C18_length_prefix_exact_witness :
    LOAD32_LE (STORE32_LE ([4, 5, 6] : List Byte).length) = ([4, 5, 6] : List Byte).length :=
  (C18_length_prefix_exact toyHydro toyConfig toyContext (by decide) (by decide) (by decide)
    ⟨[[1, 2, 3, 4, 5, 6, 7]], false⟩ ⟨[], none⟩ [4, 5, 6] (by decide)).2.1

/-- C18 as stated fails: with a buffer size of `2^63 + 6` both assertions
pass, the terminal chunk that `stream_encrypt` writes declares length 0, which
is not within `[0, max_chunk_size]` because `max_chunk_size` is `-2^63`, and
`stream_decrypt` with the same buffer size rejects it as oversized. -/
theorem C18_prefix_rejected_after_wrap :
    Accepted toyHydro hugeContext ∧
    (stream_encrypt toyHydro toyConfig hugeContext ⟨[], false⟩ ⟨[], none⟩).status
      = .returned 0 ∧
    (stream_encrypt toyHydro toyConfig hugeContext ⟨[], false⟩ ⟨[], none⟩).sent = [[]] ∧
    ¬ (((LOAD32_LE (STORE32_LE ([] : List Byte).length) : Nat) : Int)
        ≤ max_chunk_size toyHydro hugeContext) ∧
    (stream_decrypt toyHydro toyConfig hugeContext 0
      ⟨(stream_encrypt toyHydro toyConfig hugeContext ⟨[], false⟩ ⟨[], none⟩).fd_out.written,
        false⟩ ⟨[], none⟩).status = .exited (.chunkTooLarge 0 (-(2 ^ 63))) := by
  refine ⟨by decide, by decide, by decide, by decide, by decide⟩

/-- One iteration of the decryption loop when the read of the length prefix
returns fewer than 4 bytes: the loop ends and the check after it looks at the
current `chunk_size`. -/
theorem decrypt_loop_short_header (hy : Hydro) (cfg : Config) (key : List Byte) (max : Int)
    (fuel : Nat) (fd_in fd1 : Source) (t : List Byte) (out : Sink) (i : Nat) (cs : Int)
    (calls : List (Nat × List Byte)) (hr : safe_read fd_in 4 = (some t, fd1))
    (ht : t.length ≠ 4) :
    decrypt_loop hy cfg key max (fuel + 1) fd_in out i cs calls =
      if cs ≠ 0 then ⟨.exited .prematureEOF, fd1, out, calls⟩
      else ⟨.returned 0, fd1, out, calls⟩ := by
  rw [decrypt_loop, hr]
  dsimp only
  rw [if_neg ht]

/-- C11 (as amended): truncated header at a later chunk.  The loop of
`stream_decrypt` goes on to a next chunk only with a non-zero `chunk_size`
(first part).  Whenever, in such a state, the read of the 4-byte length prefix
returns between 1 and 3 bytes, the run ends with the error "Premature end of
file", the same exit as for a stream that ends without a terminal chunk, with
output and call log unchanged; it does not return success (second part).  In
particular a valid stream cut after at least one data chunk and followed by 1
to 3 bytes fails so, after writing the plaintext of these chunks (third
part). -/
theorem C11_truncated_header (hy : Hydro) (cfg : Config) (ctx : Context) (hU : Usable hy ctx)
    (hRT : RoundTrips hy cfg ctx.key) (pieces : List (List Byte)) (hp : Fits hy ctx pieces)
    (hne : pieces ≠ []) (t : List Byte) (ht1 : 1 ≤ t.length) (ht3 : t.length ≤ 3)
    (junk : Int) (out : Sink) (hroom : out.room = none) :
    (∀ (fuel n : Nat) (body rest plain : List Byte) (b : Bool) (out0 out1 : Sink) (i : Nat)
      (cs : Int) (calls : List (Nat × List Byte)),
      n < 2 ^ 32 → (n : Int) ≤ max_chunk_size hy ctx →
      body.length = n + hy.secretbox_HEADERBYTES →
      hy.secretbox_decrypt body i cfg.HYDRO_CONTEXT ctx.key = some plain →
      safe_write out0 plain = (true, out1) →
      decrypt_loop hy cfg ctx.key (max_chunk_size hy ctx) (fuel + 1)
          ⟨STORE32_LE n ++ (body ++ rest), b⟩ out0 i cs calls
        = if n = 0 then ⟨.returned 0, ⟨rest, b⟩, out0, calls ++ [(i, body)]⟩
          else decrypt_loop hy cfg ctx.key (max_chunk_size hy ctx) fuel ⟨rest, b⟩ out1
            ((i + 1) % 2 ^ 64) (n : Int) (calls ++ [(i, body)])) ∧
    (∀ (fuel : Nat) (fd_in fd1 : Source) (u : List Byte) (out0 : Sink) (i : Nat) (cs : Int)
      (calls : List (Nat × List Byte)),
      cs ≠ 0 → safe_read fd_in 4 = (some u, fd1) → 1 ≤ u.length → u.length ≤ 3 →
      decrypt_loop hy cfg ctx.key (max_chunk_size hy ctx) (fuel + 1) fd_in out0 i cs calls
        = ⟨.exited .prematureEOF, fd1, out0, calls⟩) ∧
    (stream_decrypt hy cfg ctx junk ⟨wire hy cfg ctx.key 0 pieces ++ t, false⟩ out).status
      = .exited .prematureEOF ∧
    (stream_decrypt hy cfg ctx junk ⟨wire hy cfg ctx.key 0 pieces ++ t, false⟩ out).fd_out.written
      = out.written ++ pieces.flatten ∧
    Fatal.prematureEOF.stderr = "Premature end of file\n" := by
  have short : ∀ (fuel : Nat) (fd_in fd1 : Source) (u : List Byte) (out0 : Sink) (i : Nat)
      (cs : Int) (calls : List (Nat × List Byte)),
      cs ≠ 0 → safe_read fd_in 4 = (some u, fd1) → 1 ≤ u.length → u.length ≤ 3 →
      decrypt_loop hy cfg ctx.key (max_chunk_size hy ctx) (fuel + 1) fd_in out0 i cs calls
        = ⟨.exited .prematureEOF, fd1, out0, calls⟩ := by
    intro fuel fd_in fd1 u out0 i cs calls hcs hr h1 h3
    rw [decrypt_loop_short_header hy cfg ctx.key _ fuel fd_in fd1 u out0 i cs calls hr
      (by omega), if_pos hcs]
  have hread : safe_read ⟨t, false⟩ 4 = (some t, ⟨[], false⟩) := by
    simp [safe_read, Nat.not_le.mpr (by omega : t.length < 4)]
  have hrun : stream_decrypt hy cfg ctx junk ⟨wire hy cfg ctx.key 0 pieces ++ t, false⟩ out
      = ⟨.exited .prematureEOF, ⟨[], false⟩, ⟨out.written ++ pieces.flatten, none⟩,
          (stamp 0 pieces).map (fun im => (im.1, payload hy cfg ctx.key im))⟩ := by
    rw [stream_decrypt_chunks hy cfg ctx hU hRT pieces hp t false junk out hroom]
    exact short _ _ _ t _ _ _ _ (sizeAfter_ne_zero pieces junk hne (fun m hm => (hp m hm).1))
      hread ht1 ht3
  refine ⟨?_, short, by rw [hrun], by rw [hrun], rfl⟩
  intro fuel n body rest plain b out0 out1 i cs calls hn hmax hlen hd hw
  rw [decrypt_loop_frame hy cfg ctx.key _ fuel n body rest b out0 i cs calls hn hmax hlen, hd]
  dsimp only
  by_cases h0 : n = 0
  · rw [if_pos h0, if_pos h0]
  · rw [if_neg h0, if_neg h0, hw]

/-- One chunk `1 2 3` followed by two bytes of a next length prefix. -/
theorem C11_truncated_header_witness :
    (stream_decrypt toyHydro toyConfig toyContext 0
      ⟨wire toyHydro toyConfig toyContext.key 0 [[1, 2, 3]] ++ [1, 0], false⟩
      ⟨[], none⟩).status = .exited .prematureEOF :=
  (C11_truncated_header toyHydro toyConfig toyContext toy_usable (toy_roundTrips _) [[1, 2, 3]]
    (by decide) (by decide) [1, 0] (by decide) (by decide) 0 ⟨[], none⟩ rfl).2.2.1

/-- C11 as stated fails.  After the chunk `1 2 3`, two bytes of a next length
prefix: the error is "Premature end of file", exactly the exit of the same
stream without these two bytes; the code has no exit of its own for a
truncated header.  And at the first chunk, with the uninitialised `chunk_size`
holding 0, two bytes of a length prefix make `stream_decrypt` return 0. -/
theorem C11_no_truncated_header_error :
    (stream_decrypt toyHydro toyConfig toyContext 0
      ⟨[3, 0, 0, 0, 6, 64, 1, 2, 3, 1, 0], false⟩ ⟨[], none⟩).status = .exited .prematureEOF ∧
    (stream_decrypt toyHydro toyConfig toyContext 0
      ⟨[3, 0, 0, 0, 6, 64, 1, 2, 3], false⟩ ⟨[], none⟩).status = .exited .prematureEOF ∧
    Fatal.prematureEOF.stderr = "Premature end of file\n" ∧
    (stream_decrypt toyHydro toyConfig toyContext 0 ⟨[1, 0], false⟩ ⟨[], none⟩).status
      = .returned 0 := by
  refine ⟨by decide, by decide, rfl, by decide⟩

theorem all_zero_hydro_memzero (p : List Byte) : ∀ b ∈ hydro_memzero p p.length, b = 0 := by
  intro b hb
  unfold hydro_memzero at hb
  simp only [Nat.min_self, List.drop_length, List.append_nil] at hb
  exact (List.mem_replicate.mp hb).2

theorem derive_key_ok (hy : Hydro) (cfg : Config) (ctx ctx1 : Context)
    (h : derive_key hy cfg ctx = .ok ctx1) :
    ∃ key, hy.pwhash_deterministic cfg.KEYBYTES (ctx.password.take (strlen ctx.password))
        cfg.HYDRO_CONTEXT (List.replicate hy.pwhash_MASTERKEYBYTES 0) cfg.PWHASH_OPSLIMIT
        cfg.PWHASH_MEMLIMIT cfg.PWHASH_THREADS = some key ∧
      ctx1 = { ctx with
        key := key, password := hydro_memzero ctx.password (strlen ctx.password) } := by
  unfold derive_key at h
  dsimp only at h
  split at h
  · simp at h
  · rename_i key hkey
    simp only [Except.ok.injEq] at h
    exact ⟨key, hkey, h.symm⟩

/-- What `main` leaves behind whenever it ends after `derive_key` returned. -/
theorem main_after_derive (hy : Hydro) (cfg : Config) (w : World) (opts : List Opt)
    (h : (main hy cfg w opts).halt.afterDerive) :
    ∃ (p : Parsed) (pw : List Byte) (ctx1 : Context),
      options_parse opts = some p ∧ p.password = some pw ∧
      derive_key hy cfg ⟨p.encrypt, pw, List.replicate cfg.KEYBYTES 0, 0⟩ = .ok ctx1 ∧
      (main hy cfg w opts).password = some ctx1.password ∧
      ((main hy cfg w opts).halt = .returned →
        (main hy cfg w opts).key = hydro_memzero ctx1.key ctx1.key.length) ∧
      ((main hy cfg w opts).halt ≠ .returned → (main hy cfg w opts).key = ctx1.key) := by
  unfold main at h ⊢
  by_cases hinit : ¬ w.hydro_init_ok = true
  · rw [if_pos hinit] at h
    exact absurd h (by simp [Halt.afterDerive])
  · rw [if_neg hinit] at h ⊢
    rcases hp : options_parse opts with _ | p
    · rw [hp] at h
      exact absurd h (by simp [Halt.afterDerive])
    · rw [hp] at h
      dsimp only at h ⊢
      rcases hpw : p.password with _ | pw
      · rw [hpw] at h
        exact absurd h (by simp [Halt.afterDerive])
      · rw [hpw] at h
        dsimp only at h ⊢
        rcases hd : derive_key hy cfg ⟨p.encrypt, pw, List.replicate cfg.KEYBYTES 0, 0⟩
          with f | ctx1
        · rw [hd] at h
          dsimp only at h
          have hf : f = .pwhash := by
            unfold derive_key at hd
            dsimp only at hd
            split at hd
            · simp only [Except.error.injEq] at hd
              exact hd.symm
            · simp at hd
          subst hf
          exact absurd h (by simp [Halt.afterDerive])
        · refine ⟨p, pw, ctx1, rfl, hpw, hd, ?_⟩
          clear h
          dsimp only
          by_cases hm : ¬ w.malloc_ok = true
          · rw [if_pos hm]
            exact ⟨rfl, fun h => absurd h (by simp), fun _ => rfl⟩
          · rw [if_neg hm]
            by_cases hctx : ¬ (cfg.HYDRO_CONTEXT.length = w.secretbox_CONTEXTBYTES)
            · rw [if_pos hctx]
              exact ⟨rfl, fun h => absurd h (by simp), fun _ => rfl⟩
            · rw [if_neg hctx]
              by_cases hin : ¬ file_open p.in_ w.open_in_ok = true
              · rw [if_pos hin]
                exact ⟨rfl, fun h => absurd h (by simp), fun _ => rfl⟩
              · rw [if_neg hin]
                by_cases hout : ¬ file_open p.out w.open_out_ok = true
                · rw [if_pos hout]
                  exact ⟨rfl, fun h => absurd h (by simp), fun _ => rfl⟩
                · rw [if_neg hout]
                  split
                  · exact ⟨rfl, fun _ => rfl, fun h => absurd rfl h⟩
                  · exact ⟨rfl, fun h => absurd h (by simp), fun _ => rfl⟩
                  · exact ⟨rfl, fun h => absurd h (by simp), fun _ => rfl⟩

/-- C14 (as amended): where secrets are wiped.  In every run of `main` that
ends after `derive_key` returned, on the success path and on every failure
path from there on (allocation, file opening, read or write error, oversized
chunk, truncated chunk, authentication failure, premature end of file), the
`strlen` bytes of the password buffer are zero.  When `main` returns, the
`key` field holds only zero bytes.  On the failure paths the process exits
with the derived key still in the `key` field. -/
theorem C14_secrets_wiped (hy : Hydro) (cfg : Config) (w : World) (opts : List Opt)
    (h : (main hy cfg w opts).halt.afterDerive) :
    (∃ (p : Parsed) (pw key : List Byte),
      options_parse opts = some p ∧ p.password = some pw ∧
      hy.pwhash_deterministic cfg.KEYBYTES (pw.take (strlen pw)) cfg.HYDRO_CONTEXT
        (List.replicate hy.pwhash_MASTERKEYBYTES 0) cfg.PWHASH_OPSLIMIT cfg.PWHASH_MEMLIMIT
        cfg.PWHASH_THREADS = some key ∧
      (main hy cfg w opts).password = some (hydro_memzero pw (strlen pw)) ∧
      (∀ j, j < strlen pw → (hydro_memzero pw (strlen pw)).getD j 1 = 0) ∧
      ((main hy cfg w opts).halt ≠ .returned → (main hy cfg w opts).key = key)) ∧
    ((main hy cfg w opts).halt = .returned → ∀ b ∈ (main hy cfg w opts).key, b = 0) := by
  obtain ⟨p, pw, ctx1, hp, hpw, hd, hpass, hret, hfail⟩ := main_after_derive hy cfg w opts h
  obtain ⟨key, hkey, hctx⟩ := derive_key_ok hy cfg _ ctx1 hd
  subst hctx
  refine ⟨⟨p, pw, key, hp, hpw, hkey, hpass, ?_, hfail⟩, ?_⟩
  · intro j hj
    have hle := strlen_le pw
    have hlen : j < (hydro_memzero pw (strlen pw)).length := by
      rw [length_hydro_memzero]; omega
    have := getD_hydro_memzero pw _ hle j
    rw [if_pos hj, List.getD_eq_getElem _ _ hlen] at this
    rw [List.getD_eq_getElem _ _ hlen]
    exact this
  · intro hr
    rw [hret hr]
    exact all_zero_hydro_memzero _

/-- An encryption of three bytes that runs to the end. -/
theorem C14_secrets_wiped_witness :
    (main toyHydro toyConfig (toyWorld ⟨[[1, 2, 3]], false⟩)
      [⟨'e', []⟩, ⟨'p', [1, 2]⟩]).halt = .returned ∧
    (main toyHydro toyConfig (toyWorld ⟨[[1, 2, 3]], false⟩)
      [⟨'e', []⟩, ⟨'p', [1, 2]⟩]).key.all (fun b => decide (b = 0)) = true :=
  ⟨by decide, List.all_eq_true.mpr (fun b hb => decide_eq_true
    ((C14_secrets_wiped toyHydro toyConfig (toyWorld ⟨[[1, 2, 3]], false⟩)
      [⟨'e', []⟩, ⟨'p', [1, 2]⟩] (by decide)).2 (by decide) b hb))⟩

/-- C14 as stated fails.  A decryption that stops at an oversized length
prefix exits with the derived key `3 3 3 3` still in the `key` field; a
failing password hash exits with the password `1 2` still in its buffer, and
so does a command line without a mode option, which ends in `usage`. -/
theorem C14_key_left_on_failure :
    (main toyHydro toyConfig (toyWorld ⟨[[200, 0, 0, 0, 1]], false⟩)
      [⟨'d', []⟩, ⟨'p', [1, 2]⟩]).halt = .fatal (.chunkTooLarge 200 10) ∧
    (main toyHydro toyConfig (toyWorld ⟨[[200, 0, 0, 0, 1]], false⟩)
      [⟨'d', []⟩, ⟨'p', [1, 2]⟩]).key = [3, 3, 3, 3] ∧
    (main failingHydro toyConfig (toyWorld ⟨[[1, 2, 3]], false⟩)
      [⟨'e', []⟩, ⟨'p', [1, 2]⟩]).halt = .fatal .pwhash ∧
    (main failingHydro toyConfig (toyWorld ⟨[[1, 2, 3]], false⟩)
      [⟨'e', []⟩, ⟨'p', [1, 2]⟩]).password = some [1, 2] ∧
    (main toyHydro toyConfig (toyWorld ⟨[[1, 2, 3]], false⟩) [⟨'p', [1, 2]⟩]).halt = .usage ∧
    (main toyHydro toyConfig (toyWorld ⟨[[1, 2, 3]], false⟩) [⟨'p', [1, 2]⟩]).password
      = some [1, 2] := by
  refine ⟨by decide, by decide, by decide, by decide, by decide, by decide⟩

theorem length_lt_of_strict (t l : List Byte) (h : t <+: l) (hne : t ≠ l) :
    t.length < l.length := by
  rcases Nat.lt_or_ge t.length l.length with h1 | h1
  · exact h1
  · exact absurd (h.eq_of_length (Nat.le_antisymm h.length_le h1)) hne

/-- One iteration of the decryption loop on what is left of a chunk that was
cut: nothing is written and the primitive is not called. -/
theorem decrypt_loop_cut (hy : Hydro) (cfg : Config) (key : List Byte) (max : Int)
    (fuel n : Nat) (c t : List Byte) (b : Bool) (out : Sink) (i : Nat) (cs : Int)
    (calls : List (Nat × List Byte)) (hn : n < 2 ^ 32) (hmax : (n : Int) ≤ max)
    (hc : c.length = n + hy.secretbox_HEADERBYTES) (ht : t <+: STORE32_LE n ++ c)
    (hne : t ≠ STORE32_LE n ++ c) :
    (decrypt_loop hy cfg key max (fuel + 1) ⟨t, b⟩ out i cs calls).fd_out = out ∧
      (decrypt_loop hy cfg key max (fuel + 1) ⟨t, b⟩ out i cs calls).calls = calls := by
  have hlt := length_lt_of_strict t _ ht hne
  simp only [List.length_append, length_STORE32_LE] at hlt
  have htake := List.prefix_iff_eq_take.mp ht
  by_cases h4 : t.length < 4
  · cases b with
    | true =>
      have hr : safe_read ⟨t, true⟩ 4 = (none, ⟨[], true⟩) := by
        simp [safe_read, Nat.not_le.mpr h4]
      rw [decrypt_loop, hr]
      exact ⟨rfl, rfl⟩
    | false =>
      have hr : safe_read ⟨t, false⟩ 4 = (some t, ⟨[], false⟩) := by
        simp [safe_read, Nat.not_le.mpr h4]
      rw [decrypt_loop_short_header hy cfg key max fuel _ _ t out i cs calls hr (by omega)]
      split <;> exact ⟨rfl, rfl⟩
  · have e : t = STORE32_LE n ++ c.take (t.length - 4) := by
      rw [List.take_append_eq_append_take, length_STORE32_LE,
        List.take_of_length_le (by rw [length_STORE32_LE]; omega)] at htake
      exact htake
    have hload : LOAD32_LE (STORE32_LE n) = n := LOAD32_LE_STORE32_LE n hn
    have hshort : (c.take (t.length - 4)).length
        < LOAD32_LE (STORE32_LE n) + hy.secretbox_HEADERBYTES := by
      rw [hload, List.length_take]
      omega
    have := decrypt_loop_short hy cfg key max fuel (STORE32_LE n) (c.take (t.length - 4))
      (length_STORE32_LE n) b out i cs calls (by rw [hload]; exact hmax) hshort
    rw [← e] at this
    rw [this]
    exact ⟨rfl, rfl⟩

/-- A strict part of a stream from its start: whole chunks, then a strict part
of the next chunk. -/
theorem wire_cut (hy : Hydro) (cfg : Config) (key : List Byte) (ms : List (List Byte)) :
    ∀ (i : Nat) (S : List Byte), S <+: wire hy cfg key i ms → S ≠ wire hy cfg key i ms →
      ∃ (pre : List (List Byte)) (m : List Byte) (post : List (List Byte)) (t : List Byte),
        ms = pre ++ m :: post ∧ S = wire hy cfg key i pre ++ t ∧
        t <+: frame hy cfg key (idAfter i pre, m) ∧ t ≠ frame hy cfg key (idAfter i pre, m) := by
  induction ms with
  | nil =>
    intro i S hS hne
    rw [wire_nil] at hS hne
    exact absurd (List.prefix_nil.mp hS) hne
  | cons m rest ih =>
    intro i S hS hne
    rw [wire_cons] at hS hne
    by_cases hlen : S.length < (frame hy cfg key (i, m)).length
    · refine ⟨[], m, rest, S, rfl, by simp [wire_nil], ?_, ?_⟩
      · show S <+: frame hy cfg key (i, m)
        exact List.prefix_of_prefix_length_le hS (List.prefix_append _ _) (by omega)
      · show S ≠ frame hy cfg key (i, m)
        intro h
        rw [h] at hlen
        exact Nat.lt_irrefl _ hlen
    · have hF : frame hy cfg key (i, m) <+: S :=
        List.prefix_of_prefix_length_le (List.prefix_append _ _) hS (by omega)
      obtain ⟨S1, hS1⟩ := hF
      subst hS1
      have hS2 : S1 <+: wire hy cfg key ((i + 1) % 2 ^ 64) rest :=
        (List.prefix_append_right_inj _).mp hS
      have hne2 : S1 ≠ wire hy cfg key ((i + 1) % 2 ^ 64) rest := by
        intro h
        apply hne
        rw [h]
      obtain ⟨pre, m1, post, t, h1, h2, h3, h4⟩ := ih _ S1 hS2 hne2
      refine ⟨m :: pre, m1, post, t, by rw [h1]; rfl, ?_, h3, h4⟩
      rw [wire_cons, h2, List.append_assoc]

/-- C19: the output of a truncated stream.  For every valid stream (usable
buffer, pieces that fit, round-tripping primitive) and every strict part `S`
of it from its start, there is a number `k` of chunks such that the first `k`
chunks lie completely inside `S` and chunk `k` does not, and `stream_decrypt`
with the same key and buffer size writes exactly the plaintexts of these `k`
chunks, one after the other, which is the start of the plaintext. -/
theorem C19_truncated_output (hy : Hydro) (cfg : Config) (ctx : Context) (hU : Usable hy ctx)
    (hRT : RoundTrips hy cfg ctx.key) (pieces : List (List Byte)) (hp : Fits hy ctx pieces)
    (S : List Byte)
    (hS : S <+: (stream_encrypt hy cfg ctx ⟨pieces, false⟩ ⟨[], none⟩).fd_out.written)
    (hne : S ≠ (stream_encrypt hy cfg ctx ⟨pieces, false⟩ ⟨[], none⟩).fd_out.written)
    (junk : Int) (b : Bool) (out : Sink) (hroom : out.room = none) :
    ∃ k, k ≤ pieces.length ∧
      (frames hy cfg ctx.key (pieces.take k)).length ≤ S.length ∧
      S.length < (frames hy cfg ctx.key ((pieces ++ [[]]).take (k + 1))).length ∧
      (stream_decrypt hy cfg ctx junk ⟨S, b⟩ out).fd_out.written
        = out.written ++ (pieces.take k).flatten ∧
      (pieces.take k).flatten <+: pieces.flatten := by
  have hE := hRT.encrypts
  rw [stream_encrypt_fits hy cfg ctx hU hE pieces hp ⟨[], none⟩ rfl] at hS hne
  simp only [List.nil_append] at hS hne
  obtain ⟨pre, m, post, t, hsplit, hSt, ht, htne⟩ :=
    wire_cut hy cfg ctx.key (pieces ++ [[]]) 0 S hS hne
  obtain ⟨hpre, hprelen, hm⟩ := split_fits hy ctx pieces pre post m hp hsplit
  have htake1 : (pieces ++ [[]]).take pre.length = pre := by
    rw [hsplit, List.take_append_of_le_length (Nat.le_refl _), List.take_length]
  have htake : pieces.take pre.length = pre :=
    (List.take_append_of_le_length hprelen).symm.trans htake1
  have htake2 : (pieces ++ [[]]).take (pre.length + 1) = pre ++ [m] := by
    rw [hsplit, List.take_append_eq_append_take]
    simp
  obtain ⟨hc, hclen⟩ := length_payload hy cfg ctx.key hE m (idAfter 0 pre)
  have hbound := hU.2.1
  have hmax : ((m.length : Nat) : Int) ≤ max_chunk_size hy ctx := by
    rw [max_chunk_size_eq hy ctx hU]
    exact_mod_cast hm
  have h32 : m.length < 2 ^ 32 := by omega
  have hcut := decrypt_loop_cut hy cfg ctx.key (max_chunk_size hy ctx)
    ((wire hy cfg ctx.key 0 pre ++ t).length - pre.length) m.length
    (payload hy cfg ctx.key (idAfter 0 pre, m)) t b ⟨out.written ++ pre.flatten, none⟩
    (idAfter 0 pre) (sizeAfter junk pre)
    ((stamp 0 pre).map (fun im => (im.1, payload hy cfg ctx.key im))) h32 hmax
    (by rw [hclen, Nat.add_comm]) ht htne
  have htlen := length_lt_of_strict t _ ht htne
  refine ⟨pre.length, hprelen, ?_, ?_, ?_, ?_⟩
  · rw [htake, ← wire_zero_eq_frames, hSt, List.length_append]
    omega
  · rw [htake2, ← wire_zero_eq_frames, wire_append, wire_cons, wire_nil, List.append_nil, hSt,
      List.length_append, List.length_append]
    omega
  · rw [htake, hSt, stream_decrypt_chunks hy cfg ctx hU hRT pre hpre t b junk out hroom,
      hcut.1]
  · rw [htake]
    have : pieces = pre ++ pieces.drop pre.length := by
      conv_lhs => rw [← List.take_append_drop pre.length pieces, htake]
    rw [this, List.flatten_append]
    exact List.prefix_append _ _

/-- The stream of `1 2 3`, `4` cut in the middle of its second chunk: the
first chunk is written. -/
theorem C19_truncated_output_witness :
    ∃ k, k ≤ [[1, 2, 3], [(4 : Byte)]].length ∧
      (frames toyHydro toyConfig toyContext.key
          (([[1, 2, 3], [4]] : List (List Byte)).take k)).length
        ≤ [3, 0, 0, 0, 6, 64, 1, 2, 3, 1, 0, 0, 0, (5 : Byte)].length ∧
      [3, 0, 0, 0, 6, 64, 1, 2, 3, 1, 0, 0, 0, (5 : Byte)].length
        < (frames toyHydro toyConfig toyContext.key
            ((([[1, 2, 3], [4]] : List (List Byte)) ++ [[]]).take (k + 1))).length ∧
      (stream_decrypt toyHydro toyConfig toyContext 0
        ⟨[3, 0, 0, 0, 6, 64, 1, 2, 3, 1, 0, 0, 0, 5], false⟩ ⟨[], none⟩).fd_out.written
        = [] ++ (([[1, 2, 3], [4]] : List (List Byte)).take k).flatten ∧
      (([[1, 2, 3], [4]] : List (List Byte)).take k).flatten
        <+: ([[1, 2, 3], [4]] : List (List Byte)).flatten :=
  C19_truncated_output toyHydro toyConfig toyContext toy_usable (toy_roundTrips _)
    [[1, 2, 3], [4]] (by decide) [3, 0, 0, 0, 6, 64, 1, 2, 3, 1, 0, 0, 0, 5]
    ⟨[64, 4, 0, 0, 0, 0, 2, 64], by decide⟩ (by decide) 0 false ⟨[], none⟩ rfl

end Encpipe
